import Mathlib

/-! # NetUtilities: delta serialization of `FNetArray`

A shallow embedding of `Source/NetUtilities/Public/NetArray.h`.

* `int32` values are integers; every increment is wrapped with `wrapInt32`.
* `TArray<T>` is a `List`, `TMap<int32, V>` is an association list kept in insertion order
  (`TMap.Add` overwrites the value of a key that is already present, as the engine container does).
* The bit stream is modelled at the granularity of the `<<` calls of the source: one stream
  unit per 32-bit word, the item payload being whatever list of units the item codec produces.
* Local variables of `NetArrayDeltaSerialize` that the properties talk about (`DeletedIndices`,
  `ChangedElements`, the callbacks that were invoked, ...) are returned next to the
  results of the function.
-/

namespace NetUtilities

/-! ## Machine integers -/

/-- The engine constant `INDEX_NONE`. -/
def INDEX_NONE : Int := -1

/-- Two's complement wrap-around of an integer into the `int32` range. -/
def wrapInt32 (x : Int) : Int := (x + 2147483648) % 4294967296 - 2147483648

/-- The `uint32` with the same 32 bits as an `int32` (the cast `uint32 ID = Element.ID`). -/
def toUInt32 (x : Int) : Nat := (x % 4294967296).toNat

/-- The `int32` with the same 32 bits as a stream word. -/
def toInt32 (w : Nat) : Int := wrapInt32 (w : Int)

/-- Membership in the `int32` range. -/
def IsInt32 (x : Int) : Prop := -2147483648 ≤ x ∧ x < 2147483648

instance (x : Int) : Decidable (IsInt32 x) := by
  unfold IsInt32; infer_instance

/-! ## Containers -/

/-- Modelled from the spec: the engine container `TMap<int32, V>`, whose declaration is not
part of the repository; it is the mapping the specification calls identity to position and
identity to version, kept here as an association list in insertion order. -/
abbrev TMap (V : Type) := List (Int × V)

/-- Modelled from the spec: `TMap::Find`, the value stored for a key, if any. -/
def TMap.Find {V : Type} : TMap V → Int → Option V
  | [], _ => none
  | (k, v) :: rest, key => if k = key then some v else TMap.Find rest key

/-- Modelled from the spec: `TMap::Contains`. -/
def TMap.Contains {V : Type} (m : TMap V) (key : Int) : Bool := (TMap.Find m key).isSome

/-- Modelled from the spec: `TMap::Add`, which overwrites the value of a key that is present
and otherwise appends a new pair. -/
def TMap.Add {V : Type} : TMap V → Int → V → TMap V
  | [], key, v => [(key, v)]
  | (k, w) :: rest, key, v => if k = key then (key, v) :: rest else (k, w) :: TMap.Add rest key v

/-- Modelled from the spec: `TMap::Remove`. -/
def TMap.Remove {V : Type} (m : TMap V) (key : Int) : TMap V := m.filter (fun p => !decide (p.1 = key))

/-- The keys of a map, in iteration order. -/
def TMap.Keys {V : Type} (m : TMap V) : List Int := m.map Prod.fst

/-- Modelled from the spec: the engine call `TArray::RemoveAtSwap(Index, 1, false)`, the
swap-remove of the specification: the removed slot is replaced with the last element and the
array is truncated by one. -/
def RemoveAtSwap {α : Type} (xs : List α) (i : Nat) : List α :=
  match xs.getLast? with
  | none => xs
  | some l => (xs.set i l).dropLast

/-! ## Data model -/

/-- `FNetArrayItem` together with the replicated fields of the derived item type `T`. -/
structure FNetArrayItem (P : Type) where
  ReplicationID : Int
  ReplicationKey : Int
  MostRecentArrayReplicationKey : Int
  payload : P
deriving DecidableEq, Repr

/-- Modelled from the spec: the engine type `FFastArraySerializerGuidReferences`, the
reference tracking record of one item: the unresolved handles, the resolved dynamic handles
and the saved copy of the encoded item.  `NumBufferBits` counts stream units. -/
structure FFastArraySerializerGuidReferences where
  UnmappedGUIDs : List Nat
  MappedDynamicGUIDs : List Nat
  Buffer : List Nat
  NumBufferBits : Nat
deriving DecidableEq, Repr

/-- `FNetArray`. -/
structure FNetArray where
  Flags : Nat
  ItemMap : TMap Nat
  IDCounter : Int
  ArrayReplicationKey : Int
  GuidReferencesMap : TMap FFastArraySerializerGuidReferences
  CachedItemCount : Int
  CachedItemCountToConsiderForWriting : Int
deriving DecidableEq, Repr

/-- Modelled from the spec: the engine type `FNetFastTArrayBaseState`, the acknowledged
snapshot kept per connection: the map from identity to version and the replication key at the
time of the snapshot. -/
structure FNetFastTArrayBaseState where
  IDToCLMap : TMap Int
  ArrayReplicationKey : Int
deriving DecidableEq, Repr

/-- Modelled from the spec: the engine type
`FFastArraySerializer_FastArrayDeltaSerialize_FIdxIDPair`, a position with the identity of the
item that stands there. -/
structure FIdxIDPair where
  Idx : Nat
  ID : Int
deriving DecidableEq, Repr

/-- `FNetArray::IncrementArrayRepicationKey`. -/
def FNetArray.IncrementArrayRepicationKey (a : FNetArray) : FNetArray :=
  let k := wrapInt32 (a.ArrayReplicationKey + 1)
  { a with ArrayReplicationKey := if k = INDEX_NONE then wrapInt32 (k + 1) else k }

/-- `FNetArray::MarkDirty`. -/
def FNetArray.MarkDirty (a : FNetArray) : FNetArray :=
  let a1 := { a with ItemMap := [] }
  let a2 := a1.IncrementArrayRepicationKey
  { a2 with CachedItemCount := INDEX_NONE, CachedItemCountToConsiderForWriting := INDEX_NONE }

/-- `FNetArrayItem::MarkDirty`. -/
def FNetArrayItem.MarkDirty {P : Type} (it : FNetArrayItem P) (a : FNetArray) :
    FNetArrayItem P × FNetArray :=
  let r : FNetArrayItem P × FNetArray :=
    if it.ReplicationID = INDEX_NONE then
      let c := wrapInt32 (a.IDCounter + 1)
      ({ it with ReplicationID := c },
       { a with IDCounter := if c = INDEX_NONE then wrapInt32 (c + 1) else c })
    else (it, a)
  ({ r.1 with ReplicationKey := wrapInt32 (r.1.ReplicationKey + 1) }, r.2.MarkDirty)

/-- `FNetArray::ShouldWriteItem`. -/
def ShouldWriteItem {P : Type} (it : FNetArrayItem P) (bIsWritingOnClient : Bool) : Bool :=
  if bIsWritingOnClient then !decide (it.ReplicationID = INDEX_NONE) else true

/-! ## The bit stream and the item codec -/

/-- Modelled from the spec: the reader side of the bit stream (`FBitReader`, an external
collaborator): the units still to be read and the error flag.  Once the flag is set, or when
the data is exhausted, a read yields zero and leaves the flag set. -/
structure FBitReader where
  data : List Nat
  err : Bool
deriving DecidableEq, Repr

/-- Modelled from the spec: `Reader << Value` for a fixed-width `uint32`. -/
def FBitReader.readWord (r : FBitReader) : Nat × FBitReader :=
  if r.err then (0, r)
  else
    match r.data with
    | [] => (0, { r with err := true })
    | w :: ws => (w % 4294967296, { r with data := ws })

/-- Modelled from the spec: `Reader << Value` for a fixed-width `int32`. -/
def FBitReader.readInt32 (r : FBitReader) : Int × FBitReader :=
  (toInt32 r.readWord.1, r.readWord.2)

/-- Modelled from the spec: `FBitReader::SetError`, which marks the stream errored. -/
def FBitReader.SetError (r : FBitReader) : FBitReader := { r with err := true }

/-- Modelled from the spec: what one call of the item codec on the reader produces, namely
the item fields, the reader after the call, and the handles the resolution authority tracked
during the call (`GetTrackedUnmappedGuids`, `GetTrackedDynamicMappedGuids`). -/
structure NetSerializeOut (P : Type) where
  payload : P
  Reader : FBitReader
  TrackedUnmappedGuids : List Nat
  TrackedDynamicMappedGuids : List Nat

/-- Modelled from the spec: the item codec `InParams.NetSerializeCB->NetSerializeStruct` for
an item type `T`, an external collaborator taken as a parameter, together with the default
constructor `T()`. -/
structure ItemCodec (P : Type) where
  construct : P
  save : P → List Nat
  load : P → FBitReader → NetSerializeOut P

/-- Modelled from the spec: the engine helper `NetworkGuidSetsAreSame`, equality of two
handle sets. -/
def NetworkGuidSetsAreSame (a b : List Nat) : Bool :=
  decide (a.length = b.length) && a.all (fun x => b.contains x)

/-! ## Write path -/

/-- The lambda `CalculateItemCountForConsideration`. -/
def CalculateItemCountForConsideration {P : Type} (InItems : List (FNetArrayItem P))
    (bIsWritingOnClient : Bool) : Nat :=
  InItems.foldl (fun Count Item => if ShouldWriteItem Item bIsWritingOnClient then Count + 1 else Count) 0

/-- The state of the diff loop over `InItems`: the items already visited (as they are after
the visit), the collection, and the locals `NewMap`, `ChangedElements`, `DeletedCount`. -/
structure DiffState (P : Type) where
  Items : List (FNetArrayItem P)
  Net : FNetArray
  NewMap : TMap Int
  ChangedElements : List FIdxIDPair
  DeletedCount : Int

/-- The lookup `OldMap ? OldMap->Find(ID) : nullptr`. -/
def oldValue (OldMap : Option (TMap Int)) (ID : Int) : Option Int :=
  OldMap.bind (fun m => TMap.Find m ID)

/-- One iteration of the diff loop (lines 302-330); the index `i` is the number of items
already visited. -/
def diffStep {P : Type} (OldMap : Option (TMap Int)) (bIsWritingOnClient : Bool)
    (s : DiffState P) (item : FNetArrayItem P) : DiffState P :=
  if !ShouldWriteItem item bIsWritingOnClient then
    { s with Items := s.Items ++ [item] }
  else
    let r : FNetArrayItem P × FNetArray :=
      if item.ReplicationID = INDEX_NONE then item.MarkDirty s.Net else (item, s.Net)
    let i := s.Items.length
    let s1 : DiffState P :=
      { s with Items := s.Items ++ [r.1], Net := r.2,
               NewMap := TMap.Add s.NewMap r.1.ReplicationID r.1.ReplicationKey }
    match oldValue OldMap r.1.ReplicationID with
    | some OldValue =>
      if OldValue = r.1.ReplicationKey then s1
      else { s1 with ChangedElements := s1.ChangedElements ++ [⟨i, r.1.ReplicationID⟩] }
    | none =>
      { s1 with ChangedElements := s1.ChangedElements ++ [⟨i, r.1.ReplicationID⟩],
                DeletedCount := s1.DeletedCount + 1 }

/-- The diff loop. -/
def diffItems {P : Type} (OldMap : Option (TMap Int)) (bIsWritingOnClient : Bool)
    (InItems : List (FNetArrayItem P)) (s : DiffState P) : DiffState P :=
  InItems.foldl (diffStep OldMap bIsWritingOnClient) s

/-- The scan of the old map for deleted identities (lines 334-343), with its budget. -/
def scanDeleted (NewMap : TMap Int) : TMap Int → Int → List Int → List Int
  | [], _, DeletedElements => DeletedElements
  | (Key, _) :: rest, DeletedCount, DeletedElements =>
    if !TMap.Contains NewMap Key then
      if DeletedCount - 1 ≤ 0 then DeletedElements ++ [Key]
      else scanDeleted NewMap rest (DeletedCount - 1) (DeletedElements ++ [Key])
    else scanDeleted NewMap rest DeletedCount DeletedElements

/-- The units written for the changed elements (lines 365-375). -/
def writeChanged {P : Type} (codec : ItemCodec P) (Items : List (FNetArrayItem P))
    (ChangedElements : List FIdxIDPair) : List Nat :=
  ChangedElements.flatMap (fun Element =>
    match Items[Element.Idx]? with
    | some ThisElement => toUInt32 Element.ID :: codec.save ThisElement.payload
    | none => [toUInt32 Element.ID])

/-- Everything the write path leaves behind.  `ret` is `none` when control reaches the end of
the function without a `return` statement. -/
structure WriteResult (P : Type) where
  ret : Option Bool
  Items : List (FNetArrayItem P)
  Net : FNetArray
  Writer : List Nat
  NewState : FNetFastTArrayBaseState
  ChangedElements : List FIdxIDPair
  DeletedElements : List Int

/-- The local `OldReplicationKey` (line 263). -/
def oldReplicationKey (OldState : Option FNetFastTArrayBaseState) : Int :=
  match OldState with
  | some s => s.ArrayReplicationKey
  | none => -1

/-- The expression `OldMap ? OldMap->Num() : 0` (line 300). -/
def oldMapNum (OldMap : Option (TMap Int)) : Int :=
  match OldMap with
  | some m => (m.length : Int)
  | none => 0

/-- The guarded scan `if(DeletedCount > 0 && OldMap)` (lines 332-344). -/
def collectDeleted (OldMap : Option (TMap Int)) (NewMap : TMap Int) (DeletedCount : Int) :
    List Int :=
  match OldMap with
  | some m => if DeletedCount > 0 then scanDeleted NewMap m DeletedCount [] else []
  | none => []

/-- The fast path (lines 276-292): the cached counts are refreshed and `false` is returned. -/
def writeNothing {P : Type} (bIsWritingOnClient : Bool) (InItems : List (FNetArrayItem P))
    (InNetArray : FNetArray) (Writer : List Nat) : WriteResult P :=
  let net : FNetArray :=
    if InNetArray.CachedItemCount = INDEX_NONE
        ∨ InNetArray.CachedItemCount ≠ (InItems.length : Int)
        ∨ InNetArray.CachedItemCountToConsiderForWriting = INDEX_NONE then
      { InNetArray with
          CachedItemCount := (InItems.length : Int),
          CachedItemCountToConsiderForWriting :=
            (CalculateItemCountForConsideration InItems bIsWritingOnClient : Int) }
    else InNetArray
  { ret := some false, Items := InItems, Net := net, Writer := Writer,
    NewState := ⟨[], InNetArray.ArrayReplicationKey⟩,
    ChangedElements := [], DeletedElements := [] }

/-- The full diff (lines 294-375). -/
def writeDelta {P : Type} (codec : ItemCodec P) (bIsWritingOnClient : Bool)
    (OldState : Option FNetFastTArrayBaseState) (InItems : List (FNetArrayItem P))
    (InNetArray : FNetArray) (Writer : List Nat) : WriteResult P :=
  let OldMap : Option (TMap Int) := OldState.map (fun s => s.IDToCLMap)
  let ConsideredItemCount := CalculateItemCountForConsideration InItems bIsWritingOnClient
  let s := diffItems OldMap bIsWritingOnClient InItems
    ⟨[], InNetArray, [], [], oldMapNum OldMap - (ConsideredItemCount : Int)⟩
  let DeletedElements := collectDeleted OldMap s.NewMap s.DeletedCount
  { ret := none, Items := s.Items, Net := s.Net,
    Writer := Writer
      ++ [toUInt32 s.Net.ArrayReplicationKey, toUInt32 (oldReplicationKey OldState),
          toUInt32 (DeletedElements.length : Int), toUInt32 (s.ChangedElements.length : Int)]
      ++ DeletedElements.map toUInt32
      ++ writeChanged codec s.Items s.ChangedElements,
    NewState := ⟨s.NewMap, s.Net.ArrayReplicationKey⟩,
    ChangedElements := s.ChangedElements, DeletedElements := DeletedElements }

/-- The branch `if(InParams.Writer)` of `FNetArray::NetArrayDeltaSerialize` (lines 249-376),
entered with `GatherGuidReferences`, `MoveGuidToUnmapped` and `bUpdateUnmappedObjects` unset. -/
def NetArrayDeltaSerializeWrite {P : Type} (codec : ItemCodec P) (bIsWritingOnClient : Bool)
    (OldState : Option FNetFastTArrayBaseState) (InItems : List (FNetArrayItem P))
    (InNetArray : FNetArray) (Writer : List Nat) : WriteResult P :=
  if OldState.isSome
      && decide (InNetArray.ArrayReplicationKey = oldReplicationKey OldState) then
    writeNothing bIsWritingOnClient InItems InNetArray Writer
  else
    writeDelta codec bIsWritingOnClient OldState InItems InNetArray Writer

/-! ## Read path -/

/-- The rebuild of `ItemMap` from the item sequence (lines 143-150). -/
def rebuildItemMap {P : Type} : List (FNetArrayItem P) → Nat → TMap Nat → TMap Nat
  | [], _, m => m
  | it :: rest, i, m =>
    if it.ReplicationID = INDEX_NONE then rebuildItemMap rest (i + 1) m
    else rebuildItemMap rest (i + 1) (TMap.Add m it.ReplicationID i)

/-- The callbacks a `TNetArray` receives, and the item callback `PostReplicatedChange` that the
sweep over the reference tracking table invokes. -/
inductive Notification (P : Type) where
  | OnRemoved (Item : FNetArrayItem P) (Index : Nat)
  | OnAdded (Item : FNetArrayItem P) (Index : Nat)
  | OnChanged (Item : FNetArrayItem P) (Index : Nat)
  | PostReplicatedChange (Item : FNetArrayItem P)
deriving DecidableEq, Repr

/-- The statement at which the read path is left: the two bound checks, the reader error
after an item was deserialized, the `TArray` range check of `InItems[ElementIndex]`, or the
final `return true`. -/
inductive ReadExit where
  | deletedBound
  | changedBound
  | codecError
  | rangeCheck
  | done
deriving DecidableEq, Repr

/-- State of the loop over the deleted identities (lines 419-435). -/
structure DeletedLoopState where
  Reader : FBitReader
  GuidReferencesMap : TMap FFastArraySerializerGuidReferences
  DeletedIndices : List Nat

/-- One iteration of the loop over the deleted identities. -/
def readDeletedItem (ItemMap : TMap Nat) (s : DeletedLoopState) : DeletedLoopState :=
  let ReplicationID := s.Reader.readInt32.1
  { Reader := s.Reader.readInt32.2,
    GuidReferencesMap := TMap.Remove s.GuidReferencesMap ReplicationID,
    DeletedIndices :=
      match TMap.Find ItemMap ReplicationID with
      | some DeleteIndex => s.DeletedIndices ++ [DeleteIndex]
      | none => s.DeletedIndices }

/-- The loop over the deleted identities. -/
def readDeletedItems (ItemMap : TMap Nat) : Nat → DeletedLoopState → DeletedLoopState
  | 0, s => s
  | n + 1, s => readDeletedItems ItemMap n (readDeletedItem ItemMap s)

/-- State of the loop over the changed entries (lines 441-519); `ChangedIDs` lists the
identities read so far. -/
structure ChangedLoopState (P : Type) where
  Reader : FBitReader
  Items : List (FNetArrayItem P)
  ItemMap : TMap Nat
  GuidReferencesMap : TMap FFastArraySerializerGuidReferences
  AddedIndices : List Nat
  ChangedIndices : List Nat
  ChangedIDs : List Int
  bGuidListsChanged : Bool
  bOutHasMoreUnmapped : Bool

/-- The update of the reference tracking table after an item was deserialized without a
reader error (lines 483-512). -/
def trackGuids (m : TMap FFastArraySerializerGuidReferences) (ReplicationID : Int)
    (TrackedUnmappedGuids TrackedMappedDynamicGuids Span : List Nat) :
    TMap FFastArraySerializerGuidReferences × Bool × Bool :=
  if TrackedUnmappedGuids.length ≠ 0 ∨ TrackedMappedDynamicGuids.length ≠ 0 then
    let g0 : FFastArraySerializerGuidReferences :=
      match TMap.Find m ReplicationID with
      | some g => g
      | none => ⟨[], [], [], 0⟩
    let c1 := !NetworkGuidSetsAreSame g0.UnmappedGUIDs TrackedUnmappedGuids
    let c2 := !NetworkGuidSetsAreSame g0.MappedDynamicGUIDs TrackedMappedDynamicGuids
    let g : FFastArraySerializerGuidReferences :=
      { UnmappedGUIDs := if c1 then TrackedUnmappedGuids else g0.UnmappedGUIDs,
        MappedDynamicGUIDs := if c2 then TrackedMappedDynamicGuids else g0.MappedDynamicGUIDs,
        Buffer := Span,
        NumBufferBits := Span.length }
    (TMap.Add m ReplicationID g, c1 || c2, decide (TrackedUnmappedGuids.length ≠ 0))
  else (TMap.Remove m ReplicationID, false, false)

/-- One iteration of the loop over the changed entries.  The first component is the exit
taken inside the iteration, if any. -/
def readChangedItem {P : Type} (codec : ItemCodec P) (ArrayReplicationKey : Int)
    (s : ChangedLoopState P) : Option ReadExit × ChangedLoopState P :=
  let ReplicationID := s.Reader.readInt32.1
  let Reader := s.Reader.readInt32.2
  let found : Nat × ChangedLoopState P :=
    match TMap.Find s.ItemMap ReplicationID with
    | none =>
      (s.Items.length,
       { s with Items := s.Items ++ [⟨ReplicationID, INDEX_NONE, INDEX_NONE, codec.construct⟩],
                ItemMap := TMap.Add s.ItemMap ReplicationID s.Items.length,
                AddedIndices := s.AddedIndices ++ [s.Items.length] })
    | some ElementIndex =>
      (ElementIndex, { s with ChangedIndices := s.ChangedIndices ++ [ElementIndex] })
  let ElementIndex := found.1
  let s1 : ChangedLoopState P := { found.2 with ChangedIDs := s.ChangedIDs ++ [ReplicationID] }
  match s1.Items[ElementIndex]? with
  | none => (some ReadExit.rangeCheck, { s1 with Reader := Reader })
  | some ThisElement =>
    let out := codec.load ThisElement.payload Reader
    let NewElement : FNetArrayItem P :=
      { ReplicationID := ThisElement.ReplicationID,
        ReplicationKey := wrapInt32 (ThisElement.ReplicationKey + 1),
        MostRecentArrayReplicationKey := ArrayReplicationKey,
        payload := out.payload }
    let Items := s1.Items.set ElementIndex NewElement
    if out.Reader.err then
      (some ReadExit.codecError, { s1 with Reader := out.Reader, Items := Items })
    else
      let t := trackGuids s1.GuidReferencesMap ReplicationID out.TrackedUnmappedGuids
        out.TrackedDynamicMappedGuids
        (Reader.data.take (Reader.data.length - out.Reader.data.length))
      (none, { s1 with Reader := out.Reader, Items := Items, GuidReferencesMap := t.1,
                       bGuidListsChanged := s1.bGuidListsChanged || t.2.1,
                       bOutHasMoreUnmapped := s1.bOutHasMoreUnmapped || t.2.2 })

/-- The loop over the changed entries; it stops at the first iteration that exits. -/
def readChangedItems {P : Type} (codec : ItemCodec P) (ArrayReplicationKey : Int) :
    Nat → ChangedLoopState P → Option ReadExit × ChangedLoopState P
  | 0, s => (none, s)
  | n + 1, s =>
    match readChangedItem codec ArrayReplicationKey s with
    | (some e, s1) => (some e, s1)
    | (none, s1) => readChangedItems codec ArrayReplicationKey n s1

/-- The test of the stale item sweep (line 526). -/
def isStale {P : Type} (ArrayReplicationKey OldReplicationKey : Int) (Item : FNetArrayItem P) :
    Bool :=
  decide (Item.MostRecentArrayReplicationKey < ArrayReplicationKey)
    && decide (Item.MostRecentArrayReplicationKey > OldReplicationKey)

/-- The positions the stale item sweep adds to `DeletedIndices` (lines 522-528). -/
def staleIndices {P : Type} (ArrayReplicationKey OldReplicationKey : Int)
    (Items : List (FNetArrayItem P)) : List Nat :=
  (List.range Items.length).filter (fun i =>
    match Items[i]? with
    | some Item => isStale ArrayReplicationKey OldReplicationKey Item
    | none => false)

/-- One callback invocation `Callback(InItems[i], i)`, appended to the log of invocations.
The removal callback is guarded by `IsValidIndex(i)` in the source; the recorded added and
changed positions are always valid positions. -/
def notify {P : Type} (Items : List (FNetArrayItem P))
    (Callback : FNetArrayItem P → Nat → Notification P) (log : List (Notification P))
    (i : Nat) : List (Notification P) :=
  match Items[i]? with
  | some Item => log ++ [Callback Item i]
  | none => log

/-- The callbacks of lines 536-544, in the order in which they are invoked. -/
def fireCallbacks {P : Type} (Items : List (FNetArrayItem P))
    (DeletedIndices AddedIndices ChangedIndices : List Nat) : List (Notification P) :=
  let log1 := DeletedIndices.foldl (notify Items Notification.OnRemoved) []
  let log2 := AddedIndices.foldl (notify Items Notification.OnAdded) log1
  ChangedIndices.foldl (notify Items Notification.OnChanged) log2

/-- The body of the removal loop: `if(InItems.IsValidIndex(DeleteIndex)) RemoveAtSwap`. -/
def removeIfValid {α : Type} (xs : List α) (DeleteIndex : Nat) : List α :=
  if DeleteIndex < xs.length then RemoveAtSwap xs DeleteIndex else xs

/-- The physical removal of lines 549-555: sort ascending, then swap-remove from the last
recorded position down to the first, skipping positions that are no longer valid. -/
def removeDeletedItems {α : Type} (Items : List α) (DeletedIndices : List Nat) : List α :=
  (DeletedIndices.insertionSort (fun a b => a ≤ b)).reverse.foldl removeIfValid Items

/-- The positions of a sequence of length `n` whose items are still in the sequence after the
physical removal: the removal run on the sequence of positions itself. -/
def survivingPositions (n : Nat) (DeletedIndices : List Nat) : List Nat :=
  removeDeletedItems (List.range n) DeletedIndices

/-- Everything the read path leaves behind: the return value, the exit taken, the reader, the
item sequence, the collection, and the locals `DeletedIndices`, `AddedIndices`,
`ChangedIndices`, the identities read from the changed section, the callbacks invoked and the
item sequence as it stood when they were. -/
structure ReadResult (P : Type) where
  ret : Bool
  exit : ReadExit
  Reader : FBitReader
  Items : List (FNetArrayItem P)
  Net : FNetArray
  DeletedIndices : List Nat
  AddedIndices : List Nat
  ChangedIndices : List Nat
  ChangedIDs : List Int
  Notifications : List (Notification P)
  PreRemoveItems : List (FNetArrayItem P)
  bGuidListsChanged : Bool
  bOutHasMoreUnmapped : Bool

/-- The bound `MaxCountChanged`. -/
def MaxCountChanged : Nat := 2048

/-- The bound `MaxCountDeleted`. -/
def MaxCountDeleted : Nat := 2048

/-- The rebuild of the position cache when its size differs from the number of items
(lines 141-151). -/
def prepareItemMap {P : Type} (InItems : List (FNetArrayItem P)) (InNetArray : FNetArray) :
    FNetArray :=
  if InNetArray.ItemMap.length ≠ InItems.length then
    { InNetArray with ItemMap := rebuildItemMap InItems 0 [] }
  else InNetArray

/-- The result of a failed bound check: `Reader.SetError(); return false;`. -/
def rejectRecord {P : Type} (e : ReadExit) (Reader : FBitReader)
    (InItems : List (FNetArrayItem P)) (Net : FNetArray) : ReadResult P :=
  { ret := false, exit := e, Reader := Reader.SetError, Items := InItems, Net := Net,
    DeletedIndices := [], AddedIndices := [], ChangedIndices := [], ChangedIDs := [],
    Notifications := [], PreRemoveItems := InItems,
    bGuidListsChanged := false, bOutHasMoreUnmapped := false }

/-- The result when the record has no changed entry: the block `if(ChangedCount > 0)` is
skipped and control reaches `return true`. -/
def skipChanges {P : Type} (InItems : List (FNetArrayItem P)) (Net : FNetArray)
    (ds : DeletedLoopState) : ReadResult P :=
  { ret := true, exit := ReadExit.done, Reader := ds.Reader, Items := InItems,
    Net := { Net with GuidReferencesMap := ds.GuidReferencesMap },
    DeletedIndices := ds.DeletedIndices, AddedIndices := [], ChangedIndices := [],
    ChangedIDs := [], Notifications := [], PreRemoveItems := InItems,
    bGuidListsChanged := false, bOutHasMoreUnmapped := false }

/-- The result when the loop over the changed entries was left by a `return false` (or by
the range check). -/
def abortChanges {P : Type} (e : ReadExit) (Net : FNetArray) (ds : DeletedLoopState)
    (cs : ChangedLoopState P) : ReadResult P :=
  { ret := false, exit := e, Reader := cs.Reader, Items := cs.Items,
    Net := { Net with ItemMap := cs.ItemMap, GuidReferencesMap := cs.GuidReferencesMap },
    DeletedIndices := ds.DeletedIndices, AddedIndices := cs.AddedIndices,
    ChangedIndices := cs.ChangedIndices, ChangedIDs := cs.ChangedIDs, Notifications := [],
    PreRemoveItems := cs.Items,
    bGuidListsChanged := cs.bGuidListsChanged,
    bOutHasMoreUnmapped := cs.bOutHasMoreUnmapped }

/-- The rest of the block `if(ChangedCount > 0)` after its loop (lines 521-558): the stale
item sweep, the increment of the replication key, the callbacks and the physical removal. -/
def finishChanges {P : Type} (ArrayReplicationKey OldReplicationKey : Int) (ChangedCount : Nat)
    (Net : FNetArray) (ds : DeletedLoopState) (cs : ChangedLoopState P) : ReadResult P :=
  let DeletedIndices :=
    ds.DeletedIndices ++ staleIndices ArrayReplicationKey OldReplicationKey cs.Items
  let net1 : FNetArray :=
    { Net with ItemMap := cs.ItemMap, GuidReferencesMap := cs.GuidReferencesMap }
  let net2 : FNetArray :=
    if DeletedIndices.length > 0 ∨ ChangedCount > 0 then net1.IncrementArrayRepicationKey
    else net1
  { ret := true, exit := ReadExit.done, Reader := cs.Reader,
    Items :=
      if DeletedIndices.length > 0 then removeDeletedItems cs.Items DeletedIndices
      else cs.Items,
    Net := if DeletedIndices.length > 0 then { net2 with ItemMap := [] } else net2,
    DeletedIndices := DeletedIndices, AddedIndices := cs.AddedIndices,
    ChangedIndices := cs.ChangedIndices, ChangedIDs := cs.ChangedIDs,
    Notifications := fireCallbacks cs.Items DeletedIndices cs.AddedIndices cs.ChangedIndices,
    PreRemoveItems := cs.Items,
    bGuidListsChanged := cs.bGuidListsChanged,
    bOutHasMoreUnmapped := cs.bOutHasMoreUnmapped }

/-- The block `if(ChangedCount > 0)` (lines 439-559). -/
def applyChanges {P : Type} (codec : ItemCodec P) (ArrayReplicationKey OldReplicationKey : Int)
    (ChangedCount : Nat) (InItems : List (FNetArrayItem P)) (Net : FNetArray)
    (ds : DeletedLoopState) : ReadResult P :=
  match readChangedItems codec ArrayReplicationKey ChangedCount
      ⟨ds.Reader, InItems, Net.ItemMap, ds.GuidReferencesMap, [], [], [], false, false⟩ with
  | (some e, cs) => abortChanges e Net ds cs
  | (none, cs) => finishChanges ArrayReplicationKey OldReplicationKey ChangedCount Net ds cs

/-- The part of the reading branch that follows the two bound checks (lines 412-561). -/
def applyRecord {P : Type} (codec : ItemCodec P) (ArrayReplicationKey OldReplicationKey : Int)
    (DeletedCount ChangedCount : Nat) (InItems : List (FNetArrayItem P)) (Net : FNetArray)
    (Reader : FBitReader) : ReadResult P :=
  let ds := readDeletedItems Net.ItemMap DeletedCount ⟨Reader, Net.GuidReferencesMap, []⟩
  if ChangedCount > 0 then
    applyChanges codec ArrayReplicationKey OldReplicationKey ChangedCount InItems Net ds
  else skipChanges InItems Net ds

/-- The reading branch of `FNetArray::NetArrayDeltaSerialize` (lines 137-152 and 378-562),
entered with `Writer == nullptr` and `GatherGuidReferences`, `MoveGuidToUnmapped`,
`bUpdateUnmappedObjects` unset. -/
def NetArrayDeltaSerializeRead {P : Type} (codec : ItemCodec P)
    (InItems : List (FNetArrayItem P)) (InNetArray : FNetArray) (Reader : FBitReader) :
    ReadResult P :=
  let net0 := prepareItemMap InItems InNetArray
  let key := Reader.readInt32
  let old := key.2.readInt32
  let deleted := old.2.readWord
  if deleted.1 > MaxCountDeleted then
    rejectRecord ReadExit.deletedBound deleted.2 InItems net0
  else
    let changed := deleted.2.readWord
    if changed.1 > MaxCountChanged then
      rejectRecord ReadExit.changedBound changed.2 InItems net0
    else
      applyRecord codec key.1 old.1 deleted.1 changed.1 InItems net0 changed.2

/-- Modelled from the spec: the resolution authority (`InParams.Map`, an external
collaborator): whether a handle is permanently broken, the object it resolves to, if any,
and whether it is a dynamically allocated handle. -/
structure PackageMap where
  IsGUIDBroken : Nat → Bool
  GetObjectFromNetGUID : Nat → Option Nat
  IsDynamic : Nat → Bool

/-- Modelled from the spec: `TSet::Add` on a handle set, which keeps a handle that is already
in the set. -/
def TSet.Add (s : List Nat) (g : Nat) : List Nat :=
  if s.contains g then s else s ++ [g]

/-- Modelled from the spec: `TSet::Remove` on a handle set. -/
def TSet.Remove (s : List Nat) (g : Nat) : List Nat :=
  s.filter (fun x => !decide (x = g))

/-- State of the loop over the unresolved handles of one record (lines 201-219). -/
structure UnmappedLoopState where
  UnmappedGUIDs : List Nat
  MappedDynamicGUIDs : List Nat
  bMappedSomeGUIDs : Bool
deriving DecidableEq, Repr

/-- One iteration of the loop over the unresolved handles of one record. -/
def updateUnmappedGuid (Map : PackageMap) (s : UnmappedLoopState) (UnmappedGUID : Nat) :
    UnmappedLoopState :=
  if Map.IsGUIDBroken UnmappedGUID then
    { s with UnmappedGUIDs := TSet.Remove s.UnmappedGUIDs UnmappedGUID }
  else if (Map.GetObjectFromNetGUID UnmappedGUID).isSome then
    { UnmappedGUIDs := TSet.Remove s.UnmappedGUIDs UnmappedGUID,
      MappedDynamicGUIDs :=
        if Map.IsDynamic UnmappedGUID then TSet.Add s.MappedDynamicGUIDs UnmappedGUID
        else s.MappedDynamicGUIDs,
      bMappedSomeGUIDs := true }
  else s

/-- The loop over the unresolved handles of one record; every handle that is in the set when
the loop starts is visited once. -/
def updateUnmappedGuids (Map : PackageMap) (GuidReferences : FFastArraySerializerGuidReferences) :
    UnmappedLoopState :=
  GuidReferences.UnmappedGUIDs.foldl (updateUnmappedGuid Map)
    ⟨GuidReferences.UnmappedGUIDs, GuidReferences.MappedDynamicGUIDs, false⟩

/-- State of the sweep: the item sequence, the reference tracking table, the item callbacks
invoked so far, the flags `bOutSomeObjectsWereMapped` and `bCalledPreNetReceive`, and the exit
taken (`rangeCheck` when `InItems[...]` was out of range, `done` otherwise). -/
structure UpdateUnmappedState (P : Type) where
  Items : List (FNetArrayItem P)
  GuidReferencesMap : TMap FFastArraySerializerGuidReferences
  Notifications : List (Notification P)
  bOutSomeObjectsWereMapped : Bool
  bCalledPreNetReceive : Bool
  exit : ReadExit

/-- The block `if(bMappedSomeGUIDs)` (lines 221-236): the item of the record is deserialized
again from the saved copy of its encoding, and `PostReplicatedChange` is invoked on it.  The
sweep is left with `rangeCheck` when `FindChecked` finds no position or `InItems[...]` is out
of range. -/
def redecodeElement {P : Type} (codec : ItemCodec P) (ItemMap : TMap Nat) (ReplicationID : Int)
    (GuidReferences : FFastArraySerializerGuidReferences) (s : UpdateUnmappedState P) :
    UpdateUnmappedState P :=
  match TMap.Find ItemMap ReplicationID with
  | none => { s with bOutSomeObjectsWereMapped := true, bCalledPreNetReceive := true,
                     exit := ReadExit.rangeCheck }
  | some ElementIndex =>
    match s.Items[ElementIndex]? with
    | none => { s with bOutSomeObjectsWereMapped := true, bCalledPreNetReceive := true,
                       exit := ReadExit.rangeCheck }
    | some ThisElement =>
      let out := codec.load ThisElement.payload
        ⟨GuidReferences.Buffer.take GuidReferences.NumBufferBits, false⟩
      let NewElement : FNetArrayItem P := { ThisElement with payload := out.payload }
      { s with Items := s.Items.set ElementIndex NewElement,
               Notifications := s.Notifications ++ [Notification.PostReplicatedChange NewElement],
               bOutSomeObjectsWereMapped := true,
               bCalledPreNetReceive := true }

/-- One iteration of the loop over the reference tracking table (lines 189-240), for a record
of the table as it is when the sweep starts.  The call `InNetArray.Remove(ReplicationID)` of
line 197 has no declaration in the repository; it is modelled from the spec, which destroys
the record when its key no longer maps to a live position or both handle sets are empty.
The handle sets of the record are written back to the table at the end of the iteration; a
state left by a failed check is passed on unchanged. -/
def updateUnmappedRecord {P : Type} (codec : ItemCodec P) (Map : PackageMap)
    (ItemMap : TMap Nat) (s : UpdateUnmappedState P)
    (GuidReferencesPair : Int × FFastArraySerializerGuidReferences) : UpdateUnmappedState P :=
  if s.exit ≠ ReadExit.done then s
  else
    let ReplicationID := GuidReferencesPair.1
    let GuidReferences := GuidReferencesPair.2
    if (GuidReferences.UnmappedGUIDs.length = 0 ∧ GuidReferences.MappedDynamicGUIDs.length = 0)
        ∨ TMap.Find ItemMap ReplicationID = none then
      { s with GuidReferencesMap := TMap.Remove s.GuidReferencesMap ReplicationID }
    else
      let u := updateUnmappedGuids Map GuidReferences
      let Updated : FFastArraySerializerGuidReferences :=
        { GuidReferences with UnmappedGUIDs := u.UnmappedGUIDs,
                              MappedDynamicGUIDs := u.MappedDynamicGUIDs }
      let s1 :=
        if u.bMappedSomeGUIDs then redecodeElement codec ItemMap ReplicationID GuidReferences s
        else s
      if s1.exit ≠ ReadExit.done then s1
      else if u.UnmappedGUIDs.length = 0 ∧ u.MappedDynamicGUIDs.length = 0 then
        { s1 with GuidReferencesMap := TMap.Remove s1.GuidReferencesMap ReplicationID }
      else
        { s1 with GuidReferencesMap := TMap.Add s1.GuidReferencesMap ReplicationID Updated }

/-- Everything the sweep leaves behind. -/
structure UpdateUnmappedResult (P : Type) where
  ret : Bool
  exit : ReadExit
  Items : List (FNetArrayItem P)
  Net : FNetArray
  Notifications : List (Notification P)
  bOutSomeObjectsWereMapped : Bool
  bOutHasMoreUnmapped : Bool
  bCalledPreNetReceive : Bool

/-- The branch `if(InParams.bUpdateUnmappedObjects)` of `FNetArray::NetArrayDeltaSerialize`
(lines 137-152 and 187-246), entered with `GatherGuidReferences` and `MoveGuidToUnmapped`
unset. -/
def NetArrayDeltaSerializeUpdateUnmapped {P : Type} (codec : ItemCodec P) (Map : PackageMap)
    (InItems : List (FNetArrayItem P)) (InNetArray : FNetArray) (bCalledPreNetReceive : Bool) :
    UpdateUnmappedResult P :=
  let net0 := prepareItemMap InItems InNetArray
  let s := net0.GuidReferencesMap.foldl (updateUnmappedRecord codec Map net0.ItemMap)
    ⟨InItems, net0.GuidReferencesMap, [], false, bCalledPreNetReceive, ReadExit.done⟩
  { ret := decide (s.exit = ReadExit.done), exit := s.exit, Items := s.Items,
    Net := { net0 with GuidReferencesMap := s.GuidReferencesMap },
    Notifications := s.Notifications,
    bOutSomeObjectsWereMapped := s.bOutSomeObjectsWereMapped,
    bOutHasMoreUnmapped := decide (s.GuidReferencesMap.length > 0),
    bCalledPreNetReceive := s.bCalledPreNetReceive }

/-! ## Predicates used to state the properties -/

/-- A `PostReplicatedChange` callback on an item with the given identity. -/
def isChangeOf {P : Type} (ReplicationID : Int) (n : Notification P) : Bool :=
  match n with
  | Notification.PostReplicatedChange Item => decide (Item.ReplicationID = ReplicationID)
  | _ => false


/-- Soundness of the position cache: every entry maps an identity to a valid position of the
item sequence, and the item at that position has that identity. -/
def CacheSound {P : Type} (ItemMap : TMap Nat) (Items : List (FNetArrayItem P)) : Prop :=
  ∀ p ∈ ItemMap, (Items[p.2]?).map (fun Item => Item.ReplicationID) = some p.1

instance {P : Type} (ItemMap : TMap Nat) (Items : List (FNetArrayItem P)) :
    Decidable (CacheSound ItemMap Items) := by
  unfold CacheSound; infer_instance

/-- The identities of the items that have one, in sequence order; an item whose
`ReplicationID` is `INDEX_NONE` has none. -/
def assignedIDs {P : Type} (Items : List (FNetArrayItem P)) : List Int :=
  (Items.map (fun Item => Item.ReplicationID)).filter (fun k => !decide (k = INDEX_NONE))

/-- An item the diff loop lists as changed: it is eligible and the old map has no value for
its identity, or a value that differs from its `ReplicationKey`. -/
def isChanged {P : Type} (OldMap : Option (TMap Int)) (bIsWritingOnClient : Bool)
    (Item : FNetArrayItem P) : Bool :=
  ShouldWriteItem Item bIsWritingOnClient
    && !decide (oldValue OldMap Item.ReplicationID = some Item.ReplicationKey)

/-- An item the diff loop counts into `DeletedCount`: it is eligible and the old map has no
value for its identity. -/
def isNew {P : Type} (OldMap : Option (TMap Int)) (bIsWritingOnClient : Bool)
    (Item : FNetArrayItem P) : Bool :=
  ShouldWriteItem Item bIsWritingOnClient
    && decide (oldValue OldMap Item.ReplicationID = none)

/-- The pairs (position, identity) of the changed items of a sequence whose first item stands
at position `start`, in ascending position. -/
def changedOf {P : Type} (OldMap : Option (TMap Int)) (bIsWritingOnClient : Bool) (start : Nat)
    (Items : List (FNetArrayItem P)) : List FIdxIDPair :=
  (List.enumFrom start Items).filterMap (fun p =>
    if isChanged OldMap bIsWritingOnClient p.2 then some ⟨p.1, p.2.ReplicationID⟩ else none)

/-- The item a changed entry leaves at its position: same identity, `ReplicationKey`
incremented, `MostRecentArrayReplicationKey` set to the key of the record, and the fields
produced by the item codec. -/
def stampItem {P : Type} (Item : FNetArrayItem P) (ArrayReplicationKey : Int) (payload : P) :
    FNetArrayItem P :=
  { ReplicationID := Item.ReplicationID,
    ReplicationKey := wrapInt32 (Item.ReplicationKey + 1),
    MostRecentArrayReplicationKey := ArrayReplicationKey,
    payload := payload }

/-! ## A concrete item type used in examples -/

/-- A codec for items whose payload is one stream unit: the unit is written as is and read
back as is; reading past the end of the data sets the error flag and leaves the item as it
is; no handle is ever tracked. -/
def wordCodec : ItemCodec Nat where
  construct := 0
  save := fun p => [p]
  load := fun p0 r =>
    if r.err then ⟨p0, r, [], []⟩
    else
      match r.data with
      | [] => ⟨p0, { r with err := true }, [], []⟩
      | w :: ws => ⟨w, { r with data := ws }, [], []⟩

/-- A collection in its initial state. -/
def exampleNet : FNetArray := ⟨0, [], 0, 0, [], -1, -1⟩

/-- A collection of two items with the identities 7 and 8, last seen at the replication keys 7
and 9. -/
def exampleItems : List (FNetArrayItem Nat) := [⟨7, 0, 7, 12⟩, ⟨8, 0, 9, 13⟩]

/-- An acknowledged snapshot that holds the identities 1 to 5, taken at replication key 3. -/
def exampleOldState : FNetFastTArrayBaseState := ⟨[(1, 0), (2, 0), (3, 0), (4, 0), (5, 0)], 3⟩

/-- A sender collection of three items with the identities 1, 3 and 5; item 3 was changed
since the snapshot `exampleOldState`. -/
def exampleSenderItems : List (FNetArrayItem Nat) := [⟨1, 0, -1, 10⟩, ⟨3, 1, -1, 11⟩, ⟨5, 0, -1, 12⟩]

/-- The sender collection, at replication key 4. -/
def exampleSenderNet : FNetArray := ⟨0, [], 5, 4, [], -1, -1⟩

/-- A sender collection of three items, two of which have no identity yet. -/
def exampleNewItems : List (FNetArrayItem Nat) :=
  [⟨-1, -1, -1, 10⟩, ⟨-1, -1, -1, 11⟩, ⟨7, 3, -1, 12⟩]

/-- A resolution authority for which no handle is broken, every handle resolves, and the
handle 1 is the only dynamic one. -/
def examplePackageMap : PackageMap :=
  ⟨fun _ => false, fun g => some g, fun g => decide (g = 1)⟩

/-- The collection `exampleNet` with a position cache that holds the two items of
`exampleItems`. -/
def exampleCachedNet : FNetArray := { exampleNet with ItemMap := [(7, 0), (8, 1)] }

/-- A record at replication key 10 against the base key 5, with no deleted identity and three
changed entries: the identity 9 twice, with the payloads 100 and 101, and the identity 7 with
the payload 102. -/
def exampleRepeatRecord : FBitReader := ⟨[10, 5, 0, 3, 9, 100, 9, 101, 7, 102], false⟩

/-- An acknowledged snapshot that holds the identities 7 and 8, taken at replication key 4. -/
def exampleRestrictedOldState : FNetFastTArrayBaseState := ⟨[(7, 0), (8, 0)], 4⟩

/-- The collection of a restricted peer, at replication key 5. -/
def exampleRestrictedNet : FNetArray := { exampleNet with ArrayReplicationKey := 5 }

/-- The items of a restricted peer: one without identity, and one with the identity 7 at
version 3. -/
def exampleRestrictedItems : List (FNetArrayItem Nat) := [⟨-1, -1, -1, 10⟩, ⟨7, 3, -1, 12⟩]

/-! # Properties -/

/-! ## Swap-remove -/

theorem RemoveAtSwap_concat {α : Type} (pre : List α) (l : α) (i : Nat) :
    RemoveAtSwap (pre ++ [l]) i = if i < pre.length then pre.set i l else pre := by
  unfold RemoveAtSwap
  rw [List.getLast?_concat]
  simp only [List.set_append]
  split
  · simp
  · rw [List.dropLast_eq_take]
    rcases Nat.lt_or_ge (i - pre.length) 1 with h | h
    · have : i - pre.length = 0 := by omega
      simp [this]
    · rw [List.set_eq_of_length_le (by simpa using h)]
      simp

theorem RemoveAtSwap_map {α β : Type} (f : α → β) (xs : List α) (i : Nat) :
    RemoveAtSwap (xs.map f) i = (RemoveAtSwap xs i).map f := by
  rcases List.eq_nil_or_concat xs with rfl | ⟨pre, l, rfl⟩
  · simp [RemoveAtSwap]
  · simp only [List.concat_eq_append, List.map_append, List.map_cons, List.map_nil,
      RemoveAtSwap_concat, List.length_map]
    split <;> simp [List.map_set]

theorem RemoveAtSwap_length {α : Type} (xs : List α) (i : Nat) (h : i < xs.length) :
    (RemoveAtSwap xs i).length = xs.length - 1 := by
  rcases List.eq_nil_or_concat xs with rfl | ⟨pre, l, rfl⟩
  · simp at h
  · simp only [List.concat_eq_append, RemoveAtSwap_concat]
    split <;> simp

theorem RemoveAtSwap_getElem?_lt {α : Type} (xs : List α) (i j : Nat) (h : i < xs.length)
    (hj : j < i) : (RemoveAtSwap xs i)[j]? = xs[j]? := by
  rcases List.eq_nil_or_concat xs with rfl | ⟨pre, l, rfl⟩
  · simp at h
  · simp only [List.concat_eq_append, RemoveAtSwap_concat]
    simp only [List.concat_eq_append, List.length_append, List.length_singleton] at h
    have hjp : j < pre.length := by omega
    split
    · rw [List.getElem?_set, List.getElem?_append_left hjp]
      rw [if_neg (by omega)]
    · rw [List.getElem?_append_left hjp]

theorem RemoveAtSwap_perm {α : Type} (xs : List α) (i : Nat) (x : α) (h : xs[i]? = some x) :
    xs.Perm (x :: RemoveAtSwap xs i) := by
  rcases List.eq_nil_or_concat xs with rfl | ⟨pre, l, rfl⟩
  · simp at h
  · simp only [List.concat_eq_append, RemoveAtSwap_concat]
    simp only [List.concat_eq_append] at h
    split
    · rename_i hi
      rw [List.getElem?_append_left hi] at h
      have hx : pre[i] = x := by
        rw [List.getElem?_eq_getElem hi] at h
        exact Option.some.inj h
      rw [List.set_eq_take_append_cons_drop, if_pos hi]
      have hpre : pre = List.take i pre ++ x :: List.drop (i + 1) pre := by
        rw [← hx]
        simp
      conv_lhs => rw [hpre]
      simp only [List.append_assoc, List.cons_append]
      refine List.Perm.trans List.perm_middle ?_
      refine List.Perm.cons x ?_
      refine List.Perm.append_left _ ?_
      refine (List.perm_append_singleton l _).trans ?_
      rfl
    · rename_i hi
      have : i = pre.length := by
        have := (List.getElem?_eq_some_iff.1 h).1
        simp at this
        omega
      subst this
      simp at h
      subst h
      exact List.perm_append_singleton _ _

/-! ### The removal loop -/

theorem removeIfValid_map {α β : Type} (f : α → β) (xs : List α) (d : Nat) :
    removeIfValid (xs.map f) d = (removeIfValid xs d).map f := by
  unfold removeIfValid
  simp only [List.length_map]
  split
  · exact RemoveAtSwap_map f xs d
  · rfl

theorem removeLoop_map {α β : Type} (f : α → β) (ds : List Nat) (xs : List α) :
    ds.foldl removeIfValid (xs.map f) = (ds.foldl removeIfValid xs).map f := by
  induction ds generalizing xs with
  | nil => rfl
  | cons d ds ih => simp only [List.foldl_cons, removeIfValid_map, ih]

theorem removeIfValid_getElem?_lt {α : Type} (xs : List α) (d j : Nat) (hj : j < d) :
    (removeIfValid xs d)[j]? = xs[j]? := by
  unfold removeIfValid
  split
  · rename_i h
    exact RemoveAtSwap_getElem?_lt xs d j h hj
  · rfl

theorem removeLoop_getElem?_below {α : Type} (ds : List Nat) (xs : List α) (j : Nat)
    (hj : ∀ d ∈ ds, j < d) : (ds.foldl removeIfValid xs)[j]? = xs[j]? := by
  induction ds generalizing xs with
  | nil => rfl
  | cons d ds ih =>
    rw [List.foldl_cons, ih _ (fun e he => hj e (List.mem_cons_of_mem _ he))]
    exact removeIfValid_getElem?_lt xs d j (hj d (List.mem_cons_self _ _))

theorem removeIfValid_nodup {α : Type} (xs : List α) (d : Nat) (h : xs.Nodup) :
    (removeIfValid xs d).Nodup := by
  unfold removeIfValid
  split
  · rename_i hd
    have hp := RemoveAtSwap_perm xs d xs[d] (List.getElem?_eq_getElem hd)
    exact (List.nodup_cons.1 (hp.nodup_iff.1 h)).2
  · exact h

theorem removeIfValid_subset {α : Type} (xs : List α) (d : Nat) :
    ∀ x ∈ removeIfValid xs d, x ∈ xs := by
  intro x hx
  unfold removeIfValid at hx
  split at hx
  · rename_i hd
    have hp := RemoveAtSwap_perm xs d xs[d] (List.getElem?_eq_getElem hd)
    exact hp.mem_iff.2 (List.mem_cons_of_mem _ hx)
  · exact hx

theorem removeLoop_nodup {α : Type} (ds : List Nat) (xs : List α) (h : xs.Nodup) :
    (ds.foldl removeIfValid xs).Nodup := by
  induction ds generalizing xs with
  | nil => exact h
  | cons d ds ih => exact ih _ (removeIfValid_nodup xs d h)

theorem removeLoop_subset {α : Type} (ds : List Nat) (xs : List α) :
    ∀ x ∈ ds.foldl removeIfValid xs, x ∈ xs := by
  induction ds generalizing xs with
  | nil => exact fun x hx => hx
  | cons d ds ih =>
    intro x hx
    exact removeIfValid_subset xs d x (ih _ x hx)

/-- In a removal loop that visits positions in descending order, the item standing at a
visited position is gone afterwards. -/
theorem removeLoop_removed {α : Type} (ds : List Nat) (xs : List α) (hnd : xs.Nodup)
    (hs : ds.Pairwise (fun a b => b ≤ a)) (d : Nat) (hd : d ∈ ds) (x : α)
    (hx : xs[d]? = some x) : x ∉ ds.foldl removeIfValid xs := by
  induction ds generalizing xs with
  | nil => simp at hd
  | cons d0 ds ih =>
    rw [List.pairwise_cons] at hs
    rw [List.foldl_cons]
    have hdl : d < xs.length := (List.getElem?_eq_some_iff.1 hx).1
    rcases Nat.lt_or_ge d d0 with hlt | hge
    · have hmem : d ∈ ds := by
        rcases List.mem_cons.1 hd with h | h
        · omega
        · exact h
      refine ih _ (removeIfValid_nodup xs d0 hnd) hs.2 hmem ?_
      rw [removeIfValid_getElem?_lt xs d0 d hlt]
      exact hx
    · have hd0 : d0 = d := by
        rcases List.mem_cons.1 hd with h | h
        · exact h.symm
        · have := hs.1 d h
          omega
      subst hd0
      intro hmem
      have hmem1 := removeLoop_subset ds _ x hmem
      unfold removeIfValid at hmem1
      rw [if_pos hdl] at hmem1
      have hp := RemoveAtSwap_perm xs d0 x hx
      exact (List.nodup_cons.1 (hp.nodup_iff.1 hnd)).1 hmem1

/-- A removal loop over strictly descending valid positions removes exactly the items at these
positions. -/
theorem removeLoop_strict {α : Type} (ds : List Nat) (xs : List α)
    (hs : ds.Pairwise (fun a b => b < a)) (hv : ∀ d ∈ ds, d < xs.length) :
    (ds.foldl removeIfValid xs).length = xs.length - ds.length
      ∧ xs.Perm (ds.filterMap (fun d => xs[d]?) ++ ds.foldl removeIfValid xs) := by
  induction ds generalizing xs with
  | nil => simp
  | cons d0 ds ih =>
    rw [List.pairwise_cons] at hs
    have hd0 : d0 < xs.length := hv d0 (List.mem_cons_self _ _)
    have hstep : removeIfValid xs d0 = RemoveAtSwap xs d0 := by
      unfold removeIfValid; rw [if_pos hd0]
    have hlen : (removeIfValid xs d0).length = xs.length - 1 := by
      rw [hstep]; exact RemoveAtSwap_length xs d0 hd0
    have hv1 : ∀ d ∈ ds, d < (removeIfValid xs d0).length := by
      intro d hd
      have := hs.1 d hd
      omega
    obtain ⟨ihl, ihp⟩ := ih (removeIfValid xs d0) hs.2 hv1
    rw [List.foldl_cons]
    constructor
    · rw [ihl, hlen]; simp only [List.length_cons]; omega
    · have hfm : ds.filterMap (fun d => (removeIfValid xs d0)[d]?)
          = ds.filterMap (fun d => xs[d]?) := by
        apply List.filterMap_congr
        intro d hd
        exact removeIfValid_getElem?_lt xs d0 d (hs.1 d hd)
      rw [hfm] at ihp
      have hp := RemoveAtSwap_perm xs d0 xs[d0] (List.getElem?_eq_getElem hd0)
      rw [← hstep] at hp
      simp only [List.filterMap_cons, List.getElem?_eq_getElem hd0, List.cons_append]
      exact hp.trans (List.Perm.cons _ ihp)


theorem range_map_getElem? {α : Type} (xs : List α) :
    (List.range xs.length).map (fun p => xs[p]?) = xs.map some := by
  apply List.ext_getElem?
  intro i
  rcases Nat.lt_or_ge i xs.length with h | h
  · simp [List.getElem?_map, List.getElem?_range h, List.getElem?_eq_getElem h]
  · rw [List.getElem?_eq_none (by simpa using h), List.getElem?_eq_none (by simpa using h)]

theorem filterMap_id_map_some {α : Type} (xs : List α) :
    (xs.map some).filterMap id = xs := by
  induction xs with
  | nil => rfl
  | cons x xs ih => simp [List.filterMap_cons]

theorem range_filterMap_getElem? {α : Type} (xs : List α) :
    (List.range xs.length).filterMap (fun p => xs[p]?) = xs := by
  have h := congrArg (List.filterMap id) (range_map_getElem? xs)
  rw [filterMap_id_map_some, List.filterMap_map] at h
  exact h

/-- The removal acts on positions: the sequence left is the original one read at the surviving
positions. -/
theorem removeDeletedItems_eq_survivingPositions {α : Type} (xs : List α) (D : List Nat) :
    removeDeletedItems xs D = (survivingPositions xs.length D).filterMap (fun p => xs[p]?) := by
  unfold survivingPositions removeDeletedItems
  have h1 := removeLoop_map (fun (x : α) => some x)
    (D.insertionSort (fun a b => a ≤ b)).reverse xs
  have h2 := removeLoop_map (fun p => xs[p]?)
    (D.insertionSort (fun a b => a ≤ b)).reverse (List.range xs.length)
  rw [range_map_getElem?] at h2
  rw [h2] at h1
  have h3 := congrArg (List.filterMap id) h1
  rw [filterMap_id_map_some, List.filterMap_map] at h3
  exact h3.symm

theorem sortedDesc_of_insertionSort (D : List Nat) :
    (D.insertionSort (fun a b => a ≤ b)).reverse.Pairwise (fun a b => b ≤ a) := by
  rw [List.pairwise_reverse]
  exact List.sorted_insertionSort (fun a b : Nat => a ≤ b) D

theorem mem_sortedDesc (D : List Nat) (d : Nat) :
    d ∈ (D.insertionSort (fun a b => a ≤ b)).reverse ↔ d ∈ D := by
  rw [List.mem_reverse]
  exact (List.perm_insertionSort (fun a b : Nat => a ≤ b) D).mem_iff

theorem survivingPositions_nodup (n : Nat) (D : List Nat) :
    (survivingPositions n D).Nodup :=
  removeLoop_nodup _ _ (List.nodup_range n)

theorem survivingPositions_lt (n : Nat) (D : List Nat) :
    ∀ p ∈ survivingPositions n D, p < n := by
  intro p hp
  exact List.mem_range.1 (removeLoop_subset _ _ p hp)

/-- A recorded position that is valid before the removal is not a surviving position. -/
theorem not_mem_survivingPositions (n : Nat) (D : List Nat) (d : Nat) (hd : d ∈ D)
    (hn : d < n) : d ∉ survivingPositions n D :=
  removeLoop_removed _ (List.range n) (List.nodup_range n) (sortedDesc_of_insertionSort D) d
    ((mem_sortedDesc D d).2 hd) d (List.getElem?_range hn)

theorem strictDesc_of_nodup (D : List Nat) (hnd : D.Nodup) :
    (D.insertionSort (fun a b => a ≤ b)).reverse.Pairwise (fun a b => b < a) := by
  rw [List.pairwise_reverse]
  have hs : (D.insertionSort (fun a b => a ≤ b)).Pairwise (fun a b => a ≤ b) :=
    List.sorted_insertionSort (fun a b : Nat => a ≤ b) D
  have hn : (D.insertionSort (fun a b => a ≤ b)).Pairwise (fun a b => a ≠ b) :=
    ((List.perm_insertionSort (fun a b : Nat => a ≤ b) D).nodup_iff).2 hnd
  exact (hs.and hn).imp (fun h => Nat.lt_of_le_of_ne h.1 h.2)

/-- C8 (swap-remove): for pairwise distinct valid removal positions, the physical removal step
leaves a sequence of length `n - k` that is a permutation of the original items at the
positions that are not in the list, and every position below all removed positions keeps its
original item. -/
theorem swap_remove_exact {α : Type} (Items : List α) (DeletedIndices : List Nat)
    (hnd : DeletedIndices.Nodup) (hv : ∀ d ∈ DeletedIndices, d < Items.length) :
    (removeDeletedItems Items DeletedIndices).length = Items.length - DeletedIndices.length
    ∧ (removeDeletedItems Items DeletedIndices).Perm
        (((List.range Items.length).filter (fun p => !DeletedIndices.contains p)).filterMap
          (fun p => Items[p]?))
    ∧ ∀ j, (∀ d ∈ DeletedIndices, j < d) →
        (removeDeletedItems Items DeletedIndices)[j]? = Items[j]? := by
  have hperm := List.perm_insertionSort (fun a b : Nat => a ≤ b) DeletedIndices
  have hv1 : ∀ d ∈ (DeletedIndices.insertionSort (fun a b => a ≤ b)).reverse,
      d < Items.length := fun d hd => hv d ((mem_sortedDesc _ d).1 hd)
  obtain ⟨hl, hp⟩ := removeLoop_strict _ Items (strictDesc_of_nodup _ hnd) hv1
  refine ⟨?_, ?_, ?_⟩
  · unfold removeDeletedItems
    rw [hl, List.length_reverse, hperm.length_eq]
  · -- positions: the range splits into the removed and the kept positions
    rw [removeDeletedItems_eq_survivingPositions]
    apply List.Perm.filterMap
    have hs := removeLoop_strict (DeletedIndices.insertionSort (fun a b => a ≤ b)).reverse
      (List.range Items.length) (strictDesc_of_nodup _ hnd) (by simpa using hv1)
    have hsp := hs.2
    have hnds : (survivingPositions Items.length DeletedIndices).Nodup :=
      survivingPositions_nodup _ _
    refine (List.perm_ext_iff_of_nodup hnds ((List.nodup_range _).filter _)).2 ?_
    intro p
    constructor
    · intro hp1
      have hlt := survivingPositions_lt _ _ p hp1
      rw [List.mem_filter]
      refine ⟨List.mem_range.2 hlt, ?_⟩
      have hpD : p ∉ DeletedIndices :=
        fun hpD => not_mem_survivingPositions _ _ p hpD hlt hp1
      simpa using hpD
    · intro hp1
      rw [List.mem_filter] at hp1
      have hpn : p ∉ DeletedIndices := by
        simpa using hp1.2
      have := hsp.mem_iff.1 hp1.1
      rcases List.mem_append.1 this with h | h
      · rw [List.mem_filterMap] at h
        obtain ⟨d, hd, hdp⟩ := h
        have hdD := (mem_sortedDesc _ d).1 hd
        rw [List.getElem?_range (hv d hdD)] at hdp
        cases hdp
        exact absurd hdD hpn
      · exact h
  · intro j hj
    exact removeLoop_getElem?_below _ Items j (fun d hd => hj d ((mem_sortedDesc _ d).1 hd))

/-- C8, the example of the specification: removing positions 1 and 3 from a sequence of five
items leaves the three items of positions 0, 2 and 4. -/
theorem swap_remove_exact_witness :
    ([1, 3] : List Nat).Nodup
    ∧ (∀ d ∈ ([1, 3] : List Nat), d < ([10, 11, 12, 13, 14] : List Nat).length)
    ∧ ((removeDeletedItems ([10, 11, 12, 13, 14] : List Nat) [1, 3]).length
          = ([10, 11, 12, 13, 14] : List Nat).length - ([1, 3] : List Nat).length
        ∧ (removeDeletedItems ([10, 11, 12, 13, 14] : List Nat) [1, 3]).Perm
            (((List.range ([10, 11, 12, 13, 14] : List Nat).length).filter
              (fun p => !([1, 3] : List Nat).contains p)).filterMap
              (fun p => ([10, 11, 12, 13, 14] : List Nat)[p]?))
        ∧ ∀ j, (∀ d ∈ ([1, 3] : List Nat), j < d) →
            (removeDeletedItems ([10, 11, 12, 13, 14] : List Nat) [1, 3])[j]?
              = ([10, 11, 12, 13, 14] : List Nat)[j]?) :=
  ⟨by decide, by decide, swap_remove_exact [10, 11, 12, 13, 14] [1, 3] (by decide) (by decide)⟩

/-! ## Write path: the output snapshot -/

theorem write_NewState_key {P : Type} (codec : ItemCodec P) (client : Bool)
    (OldState : Option FNetFastTArrayBaseState) (InItems : List (FNetArrayItem P))
    (InNetArray : FNetArray) (Writer : List Nat) :
    (NetArrayDeltaSerializeWrite codec client OldState InItems InNetArray Writer).NewState.ArrayReplicationKey
      = (NetArrayDeltaSerializeWrite codec client OldState InItems InNetArray Writer).Net.ArrayReplicationKey := by
  unfold NetArrayDeltaSerializeWrite
  split
  · unfold writeNothing
    dsimp only
    split <;> rfl
  · rfl

theorem write_fast_path {P : Type} (codec : ItemCodec P) (client : Bool)
    (S : FNetFastTArrayBaseState) (InItems : List (FNetArrayItem P))
    (InNetArray : FNetArray) (Writer : List Nat)
    (h : InNetArray.ArrayReplicationKey = S.ArrayReplicationKey) :
    (NetArrayDeltaSerializeWrite codec client (some S) InItems InNetArray Writer).ret = some false
    ∧ (NetArrayDeltaSerializeWrite codec client (some S) InItems InNetArray Writer).Writer = Writer
    ∧ (NetArrayDeltaSerializeWrite codec client (some S) InItems InNetArray Writer).Items = InItems := by
  unfold NetArrayDeltaSerializeWrite
  simp [h, oldReplicationKey, writeNothing]

/-- C2 (idempotent no-op): whatever the collection, the old snapshot and the writer are, an
encode that is given the output snapshot of the previous encode as acknowledged snapshot, with
the collection left as that encode left it, returns `false` ("nothing to send") and leaves the
bit stream as it was.  This covers the encodes that assigned identities and advanced the
replication key, since the output snapshot takes the key after the diff loop. -/
theorem encode_after_ack_sends_nothing {P : Type} (codec : ItemCodec P) (client : Bool)
    (OldState : Option FNetFastTArrayBaseState) (InItems : List (FNetArrayItem P))
    (InNetArray : FNetArray) (Writer Writer2 : List Nat) :
    (NetArrayDeltaSerializeWrite codec client
        (some (NetArrayDeltaSerializeWrite codec client OldState InItems InNetArray Writer).NewState)
        (NetArrayDeltaSerializeWrite codec client OldState InItems InNetArray Writer).Items
        (NetArrayDeltaSerializeWrite codec client OldState InItems InNetArray Writer).Net
        Writer2).ret = some false
    ∧ (NetArrayDeltaSerializeWrite codec client
        (some (NetArrayDeltaSerializeWrite codec client OldState InItems InNetArray Writer).NewState)
        (NetArrayDeltaSerializeWrite codec client OldState InItems InNetArray Writer).Items
        (NetArrayDeltaSerializeWrite codec client OldState InItems InNetArray Writer).Net
        Writer2).Writer = Writer2 := by
  have h := write_fast_path codec client
    (NetArrayDeltaSerializeWrite codec client OldState InItems InNetArray Writer).NewState
    (NetArrayDeltaSerializeWrite codec client OldState InItems InNetArray Writer).Items
    (NetArrayDeltaSerializeWrite codec client OldState InItems InNetArray Writer).Net
    Writer2 (write_NewState_key codec client OldState InItems InNetArray Writer).symm
  exact ⟨h.1, h.2.1⟩

/-! ## Read path: header and exits -/

theorem readWord_cons (w : Nat) (ws : List Nat) :
    FBitReader.readWord ⟨w :: ws, false⟩ = (w % 4294967296, ⟨ws, false⟩) := by
  simp [FBitReader.readWord]

theorem toInt32_mod (w : Nat) : toInt32 (w % 4294967296) = toInt32 w := by
  unfold toInt32 wrapInt32
  omega

theorem readInt32_cons (w : Nat) (ws : List Nat) :
    FBitReader.readInt32 ⟨w :: ws, false⟩ = (toInt32 w, ⟨ws, false⟩) := by
  simp [FBitReader.readInt32, readWord_cons, toInt32_mod]

/-- The reading branch on a stream that holds the four header words of a record. -/
theorem read_record {P : Type} (codec : ItemCodec P) (InItems : List (FNetArrayItem P))
    (InNetArray : FNetArray) (key old deleted changed : Nat) (rest : List Nat) :
    NetArrayDeltaSerializeRead codec InItems InNetArray
        ⟨key :: old :: deleted :: changed :: rest, false⟩
      = if deleted % 4294967296 > 2048 then
          rejectRecord ReadExit.deletedBound ⟨changed :: rest, false⟩ InItems
            (prepareItemMap InItems InNetArray)
        else if changed % 4294967296 > 2048 then
          rejectRecord ReadExit.changedBound ⟨rest, false⟩ InItems
            (prepareItemMap InItems InNetArray)
        else
          applyRecord codec (toInt32 key) (toInt32 old)
            (deleted % 4294967296) (changed % 4294967296) InItems
            (prepareItemMap InItems InNetArray) ⟨rest, false⟩ := by
  unfold NetArrayDeltaSerializeRead
  simp only [readInt32_cons, readWord_cons, MaxCountDeleted, MaxCountChanged]

theorem prepareItemMap_guid {P : Type} (InItems : List (FNetArrayItem P)) (a : FNetArray) :
    (prepareItemMap InItems a).GuidReferencesMap = a.GuidReferencesMap := by
  unfold prepareItemMap; split <;> rfl

theorem prepareItemMap_key {P : Type} (InItems : List (FNetArrayItem P)) (a : FNetArray) :
    (prepareItemMap InItems a).ArrayReplicationKey = a.ArrayReplicationKey := by
  unfold prepareItemMap; split <;> rfl

theorem readChangedItem_exit {P : Type} (codec : ItemCodec P) (k : Int)
    (s : ChangedLoopState P) (e : ReadExit)
    (h : (readChangedItem codec k s).1 = some e) :
    e = ReadExit.codecError ∨ e = ReadExit.rangeCheck := by
  unfold readChangedItem at h
  simp only at h
  split at h
  · simp at h; exact Or.inr h.symm
  · split at h
    · simp at h; exact Or.inl h.symm
    · simp at h

theorem readChangedItems_exit {P : Type} (codec : ItemCodec P) (k : Int) (n : Nat)
    (s : ChangedLoopState P) (e : ReadExit)
    (h : (readChangedItems codec k n s).1 = some e) :
    e = ReadExit.codecError ∨ e = ReadExit.rangeCheck := by
  induction n generalizing s with
  | zero => simp [readChangedItems] at h
  | succ n ih =>
    unfold readChangedItems at h
    split at h
    · rename_i e1 s1 heq
      simp at h
      subst h
      exact readChangedItem_exit codec k s e1 (by rw [heq])
    · exact ih _ h

theorem applyRecord_exit {P : Type} (codec : ItemCodec P) (k o : Int) (d c : Nat)
    (InItems : List (FNetArrayItem P)) (Net : FNetArray) (Reader : FBitReader) :
    (applyRecord codec k o d c InItems Net Reader).exit ≠ ReadExit.deletedBound
    ∧ (applyRecord codec k o d c InItems Net Reader).exit ≠ ReadExit.changedBound := by
  unfold applyRecord
  dsimp only
  split
  · unfold applyChanges
    split
    · rename_i e cs heq
      have := readChangedItems_exit codec _ _ _ e (by rw [heq])
      rcases this with h | h <;> simp [abortChanges, h]
    · simp [finishChanges]
  · simp [skipChanges]

/-- C3 (bound enforcement): a record whose deleted count or changed count exceeds 2048 makes
the decode return `false` with the reader in error, and the item sequence, the reference
tracking table and the replication key of the collection are those of the call; counts up to
and including 2048 do not take either of the two bound exits. -/
theorem decode_bound_enforcement {P : Type} (codec : ItemCodec P)
    (InItems : List (FNetArrayItem P)) (InNetArray : FNetArray)
    (key old deleted changed : Nat) (rest : List Nat) (r : ReadResult P)
    (hr : r = NetArrayDeltaSerializeRead codec InItems InNetArray
      ⟨key :: old :: deleted :: changed :: rest, false⟩) :
    ((2048 < deleted % 4294967296 ∨ 2048 < changed % 4294967296) →
      r.ret = false ∧ r.Reader.err = true ∧ r.Items = InItems
      ∧ r.Net.GuidReferencesMap = InNetArray.GuidReferencesMap
      ∧ r.Net.ArrayReplicationKey = InNetArray.ArrayReplicationKey)
    ∧ (deleted % 4294967296 ≤ 2048 → changed % 4294967296 ≤ 2048 →
      r.exit ≠ ReadExit.deletedBound ∧ r.exit ≠ ReadExit.changedBound) := by
  rw [read_record] at hr
  constructor
  · intro h
    by_cases hd : 2048 < deleted % 4294967296
    · rw [if_pos hd] at hr
      subst hr
      exact ⟨rfl, rfl, rfl, prepareItemMap_guid _ _, prepareItemMap_key _ _⟩
    · rw [if_neg hd] at hr
      have hc : 2048 < changed % 4294967296 := by
        rcases h with h | h
        · exact absurd h hd
        · exact h
      rw [if_pos hc] at hr
      subst hr
      exact ⟨rfl, rfl, rfl, prepareItemMap_guid _ _, prepareItemMap_key _ _⟩
  · intro hd hc
    rw [if_neg (by omega), if_neg (by omega)] at hr
    subst hr
    exact applyRecord_exit codec _ _ _ _ _ _ _

/-- C3, the example of the specification: a record that claims 3000 changed entries is
rejected and the item sequence is left as it was. -/
theorem decode_bound_enforcement_witness :
    (NetArrayDeltaSerializeRead wordCodec [⟨7, 0, 1, 12⟩] exampleNet
        ⟨[5, 4, 0, 3000, 7, 13], false⟩
      = NetArrayDeltaSerializeRead wordCodec [⟨7, 0, 1, 12⟩] exampleNet
        ⟨[5, 4, 0, 3000, 7, 13], false⟩)
    ∧ (2048 < 0 % 4294967296 ∨ 2048 < 3000 % 4294967296)
    ∧ (NetArrayDeltaSerializeRead wordCodec [⟨7, 0, 1, 12⟩] exampleNet
        ⟨[5, 4, 0, 3000, 7, 13], false⟩).ret = false
    ∧ (NetArrayDeltaSerializeRead wordCodec [⟨7, 0, 1, 12⟩] exampleNet
        ⟨[5, 4, 0, 3000, 7, 13], false⟩).Reader.err = true
    ∧ (NetArrayDeltaSerializeRead wordCodec [⟨7, 0, 1, 12⟩] exampleNet
        ⟨[5, 4, 0, 3000, 7, 13], false⟩).Items = [⟨7, 0, 1, 12⟩] :=
  ⟨rfl, Or.inr (by decide),
    ((decode_bound_enforcement wordCodec [⟨7, 0, 1, 12⟩] exampleNet 5 4 0 3000 [7, 13] _ rfl).1
      (Or.inr (by decide))).1,
    ((decode_bound_enforcement wordCodec [⟨7, 0, 1, 12⟩] exampleNet 5 4 0 3000 [7, 13] _ rfl).1
      (Or.inr (by decide))).2.1,
    ((decode_bound_enforcement wordCodec [⟨7, 0, 1, 12⟩] exampleNet 5 4 0 3000 [7, 13] _ rfl).1
      (Or.inr (by decide))).2.2.1⟩

/-! ## Read path: callbacks -/

theorem foldl_notify {P : Type} (Items : List (FNetArrayItem P))
    (f : FNetArrayItem P → Nat → Notification P) (l : List Nat)
    (init : List (Notification P)) :
    l.foldl (notify Items f) init
      = init ++ l.filterMap (fun i => (Items[i]?).map (fun Item => f Item i)) := by
  induction l generalizing init with
  | nil => simp
  | cons i l ih =>
    rw [List.foldl_cons, ih, List.filterMap_cons]
    unfold notify
    cases h : Items[i]? with
    | none => simp
    | some it => simp

theorem fireCallbacks_eq {P : Type} (Items : List (FNetArrayItem P)) (D A C : List Nat) :
    fireCallbacks Items D A C
      = D.filterMap (fun i => (Items[i]?).map (fun Item => Notification.OnRemoved Item i))
        ++ A.filterMap (fun i => (Items[i]?).map (fun Item => Notification.OnAdded Item i))
        ++ C.filterMap (fun i => (Items[i]?).map (fun Item => Notification.OnChanged Item i)) := by
  unfold fireCallbacks
  simp only [foldl_notify, List.nil_append]

/-! ## Read path: the loop over the changed entries -/

theorem readChangedItem_length_le {P : Type} (codec : ItemCodec P) (k : Int)
    (s : ChangedLoopState P) :
    s.Items.length ≤ (readChangedItem codec k s).2.Items.length := by
  unfold readChangedItem
  simp only
  cases hf : TMap.Find s.ItemMap s.Reader.readInt32.1 with
  | none =>
    simp only
    split
    · simp
    · split <;> simp
  | some e =>
    simp only
    split
    · simp
    · split <;> simp

theorem readChangedItem_indices {P : Type} (codec : ItemCodec P) (k : Int)
    (s : ChangedLoopState P)
    (hA : ∀ i ∈ s.AddedIndices, i < s.Items.length)
    (hC : ∀ i ∈ s.ChangedIndices, i < s.Items.length)
    (hx : (readChangedItem codec k s).1 = none) :
    (∀ i ∈ (readChangedItem codec k s).2.AddedIndices,
        i < (readChangedItem codec k s).2.Items.length)
    ∧ (∀ i ∈ (readChangedItem codec k s).2.ChangedIndices,
        i < (readChangedItem codec k s).2.Items.length) := by
  have hlen := readChangedItem_length_le codec k s
  revert hx hlen
  unfold readChangedItem
  simp only
  cases hf : TMap.Find s.ItemMap s.Reader.readInt32.1 with
  | none =>
    simp only
    split
    · simp
    · rename_i elem hel
      split
      · simp
      · intro _ hlen
        simp only [List.length_set, List.length_append, List.length_singleton] at hlen ⊢
        constructor
        · intro i hi
          rcases List.mem_append.1 hi with h | h
          · have := hA i h; omega
          · simp at h; omega
        · intro i hi
          have := hC i hi; omega
  | some e =>
    simp only
    split
    · simp
    · rename_i elem hel
      have he : e < s.Items.length := (List.getElem?_eq_some_iff.1 hel).1
      split
      · simp
      · intro _ hlen
        simp only [List.length_set] at hlen ⊢
        constructor
        · exact hA
        · intro i hi
          rcases List.mem_append.1 hi with h | h
          · exact hC i h
          · simp at h; omega

theorem readChangedItems_indices {P : Type} (codec : ItemCodec P) (k : Int) (n : Nat)
    (s : ChangedLoopState P)
    (hA : ∀ i ∈ s.AddedIndices, i < s.Items.length)
    (hC : ∀ i ∈ s.ChangedIndices, i < s.Items.length)
    (hx : (readChangedItems codec k n s).1 = none) :
    (∀ i ∈ (readChangedItems codec k n s).2.AddedIndices,
        i < (readChangedItems codec k n s).2.Items.length)
    ∧ (∀ i ∈ (readChangedItems codec k n s).2.ChangedIndices,
        i < (readChangedItems codec k n s).2.Items.length) := by
  induction n generalizing s with
  | zero => exact ⟨hA, hC⟩
  | succ n ih =>
    unfold readChangedItems at hx ⊢
    cases hstep : readChangedItem codec k s with
    | mk e s1 =>
      cases e with
      | some e => rw [hstep] at hx; simp at hx
      | none =>
        rw [hstep] at hx
        simp only at hx ⊢
        have h1 := readChangedItem_indices codec k s hA hC (by rw [hstep])
        rw [hstep] at h1
        exact ih s1 h1.1 h1.2 hx


/-- The property of the callbacks stated by the notification order. -/
theorem applyChanges_notifications {P : Type} (codec : ItemCodec P) (k o : Int) (c : Nat)
    (InItems : List (FNetArrayItem P)) (Net : FNetArray) (ds : DeletedLoopState)
    (r : ReadResult P) (hr : r = applyChanges codec k o c InItems Net ds)
    (hfired : r.Notifications ≠ []) :
    r.Notifications
      = r.DeletedIndices.filterMap
          (fun i => (r.PreRemoveItems[i]?).map (fun Item => Notification.OnRemoved Item i))
        ++ r.AddedIndices.filterMap
          (fun i => (r.PreRemoveItems[i]?).map (fun Item => Notification.OnAdded Item i))
        ++ r.ChangedIndices.filterMap
          (fun i => (r.PreRemoveItems[i]?).map (fun Item => Notification.OnChanged Item i))
    ∧ (∀ i ∈ r.AddedIndices, i < r.PreRemoveItems.length)
    ∧ (∀ i ∈ r.ChangedIndices, i < r.PreRemoveItems.length)
    ∧ r.Items = (if r.DeletedIndices.length > 0
        then removeDeletedItems r.PreRemoveItems r.DeletedIndices else r.PreRemoveItems) := by
  subst hr
  revert hfired
  unfold applyChanges
  cases hl : readChangedItems codec k c
      ⟨ds.Reader, InItems, Net.ItemMap, ds.GuidReferencesMap, [], [], [], false, false⟩ with
  | mk e cs =>
    cases e with
    | some e => simp [abortChanges]
    | none =>
      intro _
      have hi := readChangedItems_indices codec k c
        ⟨ds.Reader, InItems, Net.ItemMap, ds.GuidReferencesMap, [], [], [], false, false⟩
        (by simp) (by simp) (by rw [hl])
      rw [hl] at hi
      exact ⟨fireCallbacks_eq _ _ _ _, hi.1, hi.2, rfl⟩

/-- C9 (notification order): a decode that invokes callbacks invokes, in this order, one
removal callback per recorded removal position that is a valid index, then the addition
callbacks, then the change callbacks; each callback reports the item standing at the reported
position in the sequence as it is before the physical removal, which is applied to that
sequence afterwards. -/
theorem notification_order {P : Type} (codec : ItemCodec P) (InItems : List (FNetArrayItem P))
    (InNetArray : FNetArray) (Reader : FBitReader) (r : ReadResult P)
    (hr : r = NetArrayDeltaSerializeRead codec InItems InNetArray Reader)
    (hfired : r.Notifications ≠ []) :
    r.Notifications
      = r.DeletedIndices.filterMap
          (fun i => (r.PreRemoveItems[i]?).map (fun Item => Notification.OnRemoved Item i))
        ++ r.AddedIndices.filterMap
          (fun i => (r.PreRemoveItems[i]?).map (fun Item => Notification.OnAdded Item i))
        ++ r.ChangedIndices.filterMap
          (fun i => (r.PreRemoveItems[i]?).map (fun Item => Notification.OnChanged Item i))
    ∧ (∀ i ∈ r.AddedIndices, i < r.PreRemoveItems.length)
    ∧ (∀ i ∈ r.ChangedIndices, i < r.PreRemoveItems.length)
    ∧ r.Items = (if r.DeletedIndices.length > 0
        then removeDeletedItems r.PreRemoveItems r.DeletedIndices else r.PreRemoveItems) := by
  unfold NetArrayDeltaSerializeRead at hr
  dsimp only at hr
  split at hr
  · subst hr; simp [rejectRecord] at hfired
  · split at hr
    · subst hr; simp [rejectRecord] at hfired
    · unfold applyRecord at hr
      dsimp only at hr
      split at hr
      · exact applyChanges_notifications codec _ _ _ _ _ _ r hr hfired
      · subst hr; simp [skipChanges] at hfired

/-- C9 on a record with one deleted identity, one changed and one added item, decoded into a
collection that also holds a stale item. -/
theorem notification_order_witness :
    (NetArrayDeltaSerializeRead wordCodec [⟨7, 0, 7, 12⟩, ⟨8, 0, 9, 13⟩] exampleNet
        ⟨[10, 5, 1, 2, 8, 8, 100, 9, 99], false⟩).Notifications ≠ []
    ∧ (NetArrayDeltaSerializeRead wordCodec [⟨7, 0, 7, 12⟩, ⟨8, 0, 9, 13⟩] exampleNet
        ⟨[10, 5, 1, 2, 8, 8, 100, 9, 99], false⟩).Notifications
      = [Notification.OnRemoved ⟨8, 1, 10, 100⟩ 1, Notification.OnRemoved ⟨7, 0, 7, 12⟩ 0,
         Notification.OnAdded ⟨9, 0, 10, 99⟩ 2, Notification.OnChanged ⟨8, 1, 10, 100⟩ 1] :=
  ⟨by decide,
    (notification_order wordCodec [⟨7, 0, 7, 12⟩, ⟨8, 0, 9, 13⟩] exampleNet
      ⟨[10, 5, 1, 2, 8, 8, 100, 9, 99], false⟩ _ rfl (by decide)).1.trans (by decide)⟩

/-! ## Records that carry only deletions, and items older than the acknowledged state -/

/-- C5, evaluated: a sender whose acknowledged snapshot holds the identities 1 and 2 and whose
collection now holds only item 1 writes the record `[3, 2, 1, 0, 2]` (one deleted identity, no
changed entry); a receiver holding the items 1 and 2 decodes it successfully, records position
1 for removal, and still holds both items afterwards, with no callback invoked and its
replication key not advanced. -/
theorem deletion_only_record_not_applied :
    (NetArrayDeltaSerializeWrite wordCodec false (some ⟨[(1, 0), (2, 0)], 2⟩)
        [⟨1, 0, -1, 10⟩] ⟨0, [], 2, 3, [], -1, -1⟩ []).Writer = [3, 2, 1, 0, 2]
    ∧ (NetArrayDeltaSerializeRead wordCodec [⟨1, 0, 2, 10⟩, ⟨2, 0, 2, 11⟩] exampleNet
        ⟨[3, 2, 1, 0, 2], false⟩).ret = true
    ∧ (NetArrayDeltaSerializeRead wordCodec [⟨1, 0, 2, 10⟩, ⟨2, 0, 2, 11⟩] exampleNet
        ⟨[3, 2, 1, 0, 2], false⟩).DeletedIndices = [1]
    ∧ (NetArrayDeltaSerializeRead wordCodec [⟨1, 0, 2, 10⟩, ⟨2, 0, 2, 11⟩] exampleNet
        ⟨[3, 2, 1, 0, 2], false⟩).Items = [⟨1, 0, 2, 10⟩, ⟨2, 0, 2, 11⟩]
    ∧ (NetArrayDeltaSerializeRead wordCodec [⟨1, 0, 2, 10⟩, ⟨2, 0, 2, 11⟩] exampleNet
        ⟨[3, 2, 1, 0, 2], false⟩).Notifications = []
    ∧ (NetArrayDeltaSerializeRead wordCodec [⟨1, 0, 2, 10⟩, ⟨2, 0, 2, 11⟩] exampleNet
        ⟨[3, 2, 1, 0, 2], false⟩).Net.ArrayReplicationKey = exampleNet.ArrayReplicationKey := by
  decide

/-- C6 as stated fails: the item with identity 7 was last seen at replication key 1, the record
has the previous key 5 and the current key 10 and names identity 7 in neither section, the
decode succeeds, and the item is still at position 0 of the sequence, which the stale item
sweep did not record. -/
theorem stale_by_age_counterexample :
    (1 : Int) < toInt32 5
    ∧ (NetArrayDeltaSerializeRead wordCodec [⟨7, 0, 1, 12⟩] exampleNet
        ⟨[10, 5, 0, 1, 9, 99], false⟩).ret = true
    ∧ (NetArrayDeltaSerializeRead wordCodec [⟨7, 0, 1, 12⟩] exampleNet
        ⟨[10, 5, 0, 1, 9, 99], false⟩).ChangedIDs = [9]
    ∧ (NetArrayDeltaSerializeRead wordCodec [⟨7, 0, 1, 12⟩] exampleNet
        ⟨[10, 5, 0, 1, 9, 99], false⟩).DeletedIndices = []
    ∧ (NetArrayDeltaSerializeRead wordCodec [⟨7, 0, 1, 12⟩] exampleNet
        ⟨[10, 5, 0, 1, 9, 99], false⟩).Items = [⟨7, 0, 1, 12⟩, ⟨9, 0, 10, 99⟩] := by
  decide

/-! ## Maps -/

theorem TMap.Find_some_mem {V : Type} (m : TMap V) (k : Int) (v : V)
    (h : TMap.Find m k = some v) : (k, v) ∈ m := by
  induction m with
  | nil => simp [TMap.Find] at h
  | cons p m ih =>
    obtain ⟨k1, v1⟩ := p
    unfold TMap.Find at h
    split at h
    · rename_i hk
      cases h
      subst hk
      exact List.mem_cons_self _ _
    · exact List.mem_cons_of_mem _ (ih h)

theorem TMap.Find_none_iff {V : Type} (m : TMap V) (k : Int) :
    TMap.Find m k = none ↔ k ∉ TMap.Keys m := by
  induction m with
  | nil => simp [TMap.Find, TMap.Keys]
  | cons p m ih =>
    obtain ⟨k1, v1⟩ := p
    unfold TMap.Find
    by_cases hk : k1 = k
    · simp [hk, TMap.Keys]
    · rw [if_neg hk, ih]
      simp only [TMap.Keys, List.map_cons, List.mem_cons, not_or]
      constructor
      · intro h; exact ⟨fun h1 => hk h1.symm, h⟩
      · intro h; exact h.2

theorem TMap.Contains_iff {V : Type} (m : TMap V) (k : Int) :
    TMap.Contains m k = true ↔ k ∈ TMap.Keys m := by
  unfold TMap.Contains
  cases h : TMap.Find m k with
  | none => simpa using (TMap.Find_none_iff m k).1 h
  | some v =>
    simp only [Option.isSome_some, true_iff]
    by_contra hn
    rw [← TMap.Find_none_iff, h] at hn
    cases hn

theorem TMap.Add_of_Find_none {V : Type} (m : TMap V) (k : Int) (v : V)
    (h : TMap.Find m k = none) : TMap.Add m k v = m ++ [(k, v)] := by
  induction m with
  | nil => rfl
  | cons p m ih =>
    obtain ⟨k1, v1⟩ := p
    unfold TMap.Find at h
    split at h
    · cases h
    · rename_i hk
      unfold TMap.Add
      rw [if_neg hk, ih h]
      rfl

theorem TMap.mem_Add {V : Type} (m : TMap V) (k : Int) (v : V) (p : Int × V)
    (h : p ∈ TMap.Add m k v) : p ∈ m ∨ p = (k, v) := by
  induction m with
  | nil => simp [TMap.Add] at h; exact Or.inr h
  | cons q m ih =>
    obtain ⟨k1, v1⟩ := q
    unfold TMap.Add at h
    split at h
    · rcases List.mem_cons.1 h with h1 | h1
      · exact Or.inr h1
      · exact Or.inl (List.mem_cons_of_mem _ h1)
    · rcases List.mem_cons.1 h with h1 | h1
      · exact Or.inl (h1 ▸ List.mem_cons_self _ _)
      · rcases ih h1 with h2 | h2
        · exact Or.inl (List.mem_cons_of_mem _ h2)
        · exact Or.inr h2

/-! ## Read path: one changed entry -/

/-- What one iteration of the loop over the changed entries does, by cases on the lookup of
the identity in the position cache. -/
theorem readChangedItem_cases {P : Type} (codec : ItemCodec P) (k : Int)
    (s : ChangedLoopState P) :
    (∃ e elem, TMap.Find s.ItemMap s.Reader.readInt32.1 = some e ∧ s.Items[e]? = some elem
        ∧ (readChangedItem codec k s).2.Items
            = s.Items.set e (stampItem elem k
                (codec.load elem.payload s.Reader.readInt32.2).payload)
        ∧ (readChangedItem codec k s).2.ItemMap = s.ItemMap
        ∧ (readChangedItem codec k s).2.AddedIndices = s.AddedIndices
        ∧ (readChangedItem codec k s).2.ChangedIndices = s.ChangedIndices ++ [e]
        ∧ (readChangedItem codec k s).2.Reader
            = (codec.load elem.payload s.Reader.readInt32.2).Reader
        ∧ (readChangedItem codec k s).1
            = if (codec.load elem.payload s.Reader.readInt32.2).Reader.err
              then some ReadExit.codecError else none)
    ∨ (∃ e, TMap.Find s.ItemMap s.Reader.readInt32.1 = some e ∧ s.Items[e]? = none
        ∧ (readChangedItem codec k s).2.Items = s.Items
        ∧ (readChangedItem codec k s).2.ItemMap = s.ItemMap
        ∧ (readChangedItem codec k s).2.AddedIndices = s.AddedIndices
        ∧ (readChangedItem codec k s).2.ChangedIndices = s.ChangedIndices ++ [e]
        ∧ (readChangedItem codec k s).1 = some ReadExit.rangeCheck)
    ∨ (TMap.Find s.ItemMap s.Reader.readInt32.1 = none
        ∧ (readChangedItem codec k s).2.Items
            = s.Items ++ [stampItem ⟨s.Reader.readInt32.1, INDEX_NONE, INDEX_NONE, codec.construct⟩
                k (codec.load codec.construct s.Reader.readInt32.2).payload]
        ∧ (readChangedItem codec k s).2.ItemMap
            = TMap.Add s.ItemMap s.Reader.readInt32.1 s.Items.length
        ∧ (readChangedItem codec k s).2.AddedIndices = s.AddedIndices ++ [s.Items.length]
        ∧ (readChangedItem codec k s).2.ChangedIndices = s.ChangedIndices
        ∧ (readChangedItem codec k s).2.Reader
            = (codec.load codec.construct s.Reader.readInt32.2).Reader
        ∧ (readChangedItem codec k s).1
            = if (codec.load codec.construct s.Reader.readInt32.2).Reader.err
              then some ReadExit.codecError else none) := by
  unfold readChangedItem
  dsimp only
  cases hf : TMap.Find s.ItemMap s.Reader.readInt32.1 with
  | none =>
    refine Or.inr (Or.inr ⟨rfl, ?_⟩)
    dsimp only
    rw [List.getElem?_append_right (le_refl _)]
    simp only [Nat.sub_self, List.getElem?_cons_zero]
    split <;> simp [stampItem]
  | some e =>
    dsimp only
    cases hel : s.Items[e]? with
    | none =>
      refine Or.inr (Or.inl ⟨e, rfl, hel, ?_⟩)
      simp [hel]
    | some elem =>
      refine Or.inl ⟨e, elem, rfl, hel, ?_⟩
      simp only [hel]
      split <;> simp [stampItem, *]

theorem readChangedItem_ids {P : Type} (codec : ItemCodec P) (k : Int)
    (s : ChangedLoopState P) :
    (readChangedItem codec k s).2.ChangedIDs = s.ChangedIDs ++ [s.Reader.readInt32.1] := by
  unfold readChangedItem
  dsimp only
  cases hf : TMap.Find s.ItemMap s.Reader.readInt32.1 with
  | none =>
    dsimp only
    rw [List.getElem?_append_right (le_refl _)]
    simp only [Nat.sub_self, List.getElem?_cons_zero]
    split <;> rfl
  | some e =>
    dsimp only
    cases hel : s.Items[e]? with
    | none => simp only [hel]
    | some elem =>
      simp only [hel]
      split <;> rfl

/-! ## Read path: invariants of the loop over the changed entries -/

/-- A property kept by every iteration holds when the loop stops. -/
theorem readChangedItems_invariant {P : Type} (codec : ItemCodec P) (k : Int)
    (Inv : ChangedLoopState P → Prop)
    (hstep : ∀ s, Inv s → Inv (readChangedItem codec k s).2) :
    ∀ n s, Inv s → Inv (readChangedItems codec k n s).2 := by
  intro n
  induction n with
  | zero => intro s hs; exact hs
  | succ n ih =>
    intro s hs
    unfold readChangedItems
    have h1 := hstep s hs
    cases hstep1 : readChangedItem codec k s with
    | mk e s1 =>
      rw [hstep1] at h1
      cases e with
      | some e => exact h1
      | none => exact ih s1 h1

/-- A property kept by every iteration that does not exit holds when the loop runs to its
end. -/
theorem readChangedItems_invariant_done {P : Type} (codec : ItemCodec P) (k : Int)
    (Inv : ChangedLoopState P → Prop)
    (hstep : ∀ s, Inv s → (readChangedItem codec k s).1 = none →
      Inv (readChangedItem codec k s).2) :
    ∀ n s, Inv s → (readChangedItems codec k n s).1 = none →
      Inv (readChangedItems codec k n s).2 := by
  intro n
  induction n with
  | zero => intro s hs _; exact hs
  | succ n ih =>
    intro s hs
    unfold readChangedItems
    have h1 := hstep s hs
    cases hstep1 : readChangedItem codec k s with
    | mk e s1 =>
      rw [hstep1] at h1
      cases e with
      | some e => intro h; cases h
      | none => exact ih s1 (h1 rfl)

theorem CacheSound_entry {P : Type} (m : TMap Nat) (Items : List (FNetArrayItem P))
    (h : CacheSound m Items) (k : Int) (e : Nat) (hf : TMap.Find m k = some e) :
    ∃ it, Items[e]? = some it ∧ it.ReplicationID = k := by
  have := h (k, e) (TMap.Find_some_mem m k e hf)
  cases hel : Items[e]? with
  | none => simp [hel] at this
  | some it => exact ⟨it, rfl, by simpa [hel] using this⟩

theorem CacheSound_set {P : Type} (m : TMap Nat) (Items : List (FNetArrayItem P))
    (h : CacheSound m Items) (e : Nat) (elem new : FNetArrayItem P)
    (hel : Items[e]? = some elem) (hid : new.ReplicationID = elem.ReplicationID) :
    CacheSound m (Items.set e new) := by
  intro p hp
  have := h p hp
  rw [List.getElem?_set]
  by_cases hpe : e = p.2
  · subst hpe
    rw [if_pos rfl, if_pos (List.getElem?_eq_some_iff.1 hel).1]
    simpa [hel, hid] using this
  · rw [if_neg hpe]; exact this

theorem CacheSound_append {P : Type} (m : TMap Nat) (Items : List (FNetArrayItem P))
    (h : CacheSound m Items) (k : Int) (new : FNetArrayItem P)
    (hid : new.ReplicationID = k) :
    CacheSound (TMap.Add m k Items.length) (Items ++ [new]) := by
  intro p hp
  rcases TMap.mem_Add m k Items.length p hp with h1 | h1
  · have := h p h1
    cases hel : Items[p.2]? with
    | none => simp [hel] at this
    | some it =>
      rw [List.getElem?_append_left (List.getElem?_eq_some_iff.1 hel).1]
      exact this
  · subst h1
    simp [hid]

theorem readChangedItem_sound {P : Type} (codec : ItemCodec P) (k : Int)
    (s : ChangedLoopState P) (h : CacheSound s.ItemMap s.Items) :
    CacheSound (readChangedItem codec k s).2.ItemMap (readChangedItem codec k s).2.Items := by
  rcases readChangedItem_cases codec k s with
    ⟨e, elem, _, hel, hI, hM, _⟩ | ⟨e, _, _, hI, hM, _⟩ | ⟨_, hI, hM, _⟩
  · rw [hI, hM]
    exact CacheSound_set _ _ h e elem _ hel rfl
  · rw [hI, hM]; exact h
  · rw [hI, hM]
    exact CacheSound_append _ _ h _ _ rfl

theorem readChangedItems_sound {P : Type} (codec : ItemCodec P) (k : Int) (n : Nat)
    (s : ChangedLoopState P) (h : CacheSound s.ItemMap s.Items) :
    CacheSound (readChangedItems codec k n s).2.ItemMap
      (readChangedItems codec k n s).2.Items :=
  readChangedItems_invariant codec k (fun s => CacheSound s.ItemMap s.Items)
    (fun s hs => readChangedItem_sound codec k s hs) n s h

/-- With a sound position cache, an item whose identity is not read from the changed section
stays as it is at its position. -/
theorem readChangedItems_untouched {P : Type} (codec : ItemCodec P) (k : Int) (n : Nat)
    (s : ChangedLoopState P) (h : CacheSound s.ItemMap s.Items) (i : Nat)
    (it : FNetArrayItem P) (hi : s.Items[i]? = some it)
    (hid : it.ReplicationID ∉ (readChangedItems codec k n s).2.ChangedIDs) :
    (readChangedItems codec k n s).2.Items[i]? = some it := by
  have key := readChangedItems_invariant codec k
    (fun s => CacheSound s.ItemMap s.Items
      ∧ (it.ReplicationID ∉ s.ChangedIDs → s.Items[i]? = some it))
    (fun s hs => by
      refine ⟨readChangedItem_sound codec k s hs.1, ?_⟩
      intro hn
      rw [readChangedItem_ids] at hn
      have hn1 : it.ReplicationID ∉ s.ChangedIDs := fun h => hn (List.mem_append_left _ h)
      have hn2 : it.ReplicationID ≠ s.Reader.readInt32.1 := fun h => hn (by simp [h])
      have hit := hs.2 hn1
      rcases readChangedItem_cases codec k s with
        ⟨e, elem, hf, hel, hI, _⟩ | ⟨e, _, _, hI, _⟩ | ⟨_, hI, _⟩
      · rw [hI, List.getElem?_set]
        obtain ⟨it1, hit1, hid1⟩ := CacheSound_entry _ _ hs.1 _ _ hf
        have hne : e ≠ i := by
          intro hei
          subst hei
          rw [hit] at hit1
          cases hit1
          exact hn2 hid1
        rw [if_neg hne]; exact hit
      · rw [hI]; exact hit
      · rw [hI, List.getElem?_append_left (List.getElem?_eq_some_iff.1 hit).1]
        exact hit) n s ⟨h, fun _ => hi⟩
  exact key.2 hid

/-- When the loop runs to its end, every recorded added or changed position holds an item
stamped with the replication key of the record. -/
theorem readChangedItems_stamped {P : Type} (codec : ItemCodec P) (k : Int) (n : Nat)
    (s : ChangedLoopState P)
    (h : ∀ i ∈ s.AddedIndices ++ s.ChangedIndices,
      ∃ it, s.Items[i]? = some it ∧ it.MostRecentArrayReplicationKey = k)
    (hx : (readChangedItems codec k n s).1 = none) :
    ∀ i ∈ (readChangedItems codec k n s).2.AddedIndices
        ++ (readChangedItems codec k n s).2.ChangedIndices,
      ∃ it, (readChangedItems codec k n s).2.Items[i]? = some it
        ∧ it.MostRecentArrayReplicationKey = k := by
  refine readChangedItems_invariant_done codec k
    (fun s => ∀ i ∈ s.AddedIndices ++ s.ChangedIndices,
      ∃ it, s.Items[i]? = some it ∧ it.MostRecentArrayReplicationKey = k) ?_ n s h hx
  intro s hs hnone
  rcases readChangedItem_cases codec k s with
    ⟨e, elem, hf, hel, hI, _, hA, hC, _⟩ | ⟨e, _, _, _, _, _, _, hX⟩ | ⟨_, hI, _, hA, hC, _⟩
  · intro i hi
    rw [hA, hC] at hi
    rw [hI, List.getElem?_set]
    by_cases hei : e = i
    · subst hei
      rw [if_pos rfl, if_pos (List.getElem?_eq_some_iff.1 hel).1]
      exact ⟨_, rfl, rfl⟩
    · rw [if_neg hei]
      apply hs
      rcases List.mem_append.1 hi with h1 | h1
      · exact List.mem_append_left _ h1
      · rcases List.mem_append.1 h1 with h2 | h2
        · exact List.mem_append_right _ h2
        · simp at h2; exact absurd h2.symm hei
  · rw [hX] at hnone; cases hnone
  · intro i hi
    rw [hA, hC] at hi
    rw [hI]
    by_cases hei : i = s.Items.length
    · subst hei
      rw [List.getElem?_append_right (le_refl _)]
      simp [stampItem]
    · have hmem : i ∈ s.AddedIndices ++ s.ChangedIndices := by
        rcases List.mem_append.1 hi with h1 | h1
        · rcases List.mem_append.1 h1 with h2 | h2
          · exact List.mem_append_left _ h2
          · simp at h2; exact absurd h2 hei
        · exact List.mem_append_right _ h1
      obtain ⟨it, hit, hk⟩ := hs i hmem
      rw [List.getElem?_append_left (List.getElem?_eq_some_iff.1 hit).1]
      exact ⟨it, hit, hk⟩

/-! ## Read path: the rebuild of the position cache -/

theorem rebuildItemMap_mem {P : Type} (rest : List (FNetArrayItem P)) (i : Nat) (m : TMap Nat)
    (p : Int × Nat) (hp : p ∈ rebuildItemMap rest i m) :
    p ∈ m ∨ ∃ j it, rest[j]? = some it ∧ p = (it.ReplicationID, i + j) := by
  induction rest generalizing i m with
  | nil => exact Or.inl hp
  | cons x rest ih =>
    unfold rebuildItemMap at hp
    split at hp
    · rcases ih _ _ hp with h | ⟨j, it, hj, hpj⟩
      · exact Or.inl h
      · exact Or.inr ⟨j + 1, it, by simpa using hj, by rw [hpj]; congr 1; omega⟩
    · rcases ih _ _ hp with h | ⟨j, it, hj, hpj⟩
      · rcases TMap.mem_Add _ _ _ _ h with h1 | h1
        · exact Or.inl h1
        · exact Or.inr ⟨0, x, by simp, by simpa using h1⟩
      · exact Or.inr ⟨j + 1, it, by simpa using hj, by rw [hpj]; congr 1; omega⟩

theorem rebuildItemMap_sound {P : Type} (Items : List (FNetArrayItem P)) :
    CacheSound (rebuildItemMap Items 0 []) Items := by
  intro p hp
  rcases rebuildItemMap_mem Items 0 [] p hp with h | ⟨j, it, hj, hpj⟩
  · cases h
  · subst hpj
    simp [hj]

theorem prepareItemMap_sound {P : Type} (InItems : List (FNetArrayItem P)) (a : FNetArray)
    (h : a.ItemMap.length ≠ InItems.length ∨ CacheSound a.ItemMap InItems) :
    CacheSound (prepareItemMap InItems a).ItemMap InItems := by
  unfold prepareItemMap
  split
  · exact rebuildItemMap_sound InItems
  · rename_i hne
    rcases h with h | h
    · exact absurd h hne
    · exact h

/-! ## Read path: the stale item sweep and the removal -/

theorem mem_staleIndices {P : Type} (k o : Int) (Items : List (FNetArrayItem P)) (i : Nat) :
    i ∈ staleIndices k o Items ↔
      ∃ it, Items[i]? = some it ∧ o < it.MostRecentArrayReplicationKey
        ∧ it.MostRecentArrayReplicationKey < k := by
  unfold staleIndices
  rw [List.mem_filter, List.mem_range]
  constructor
  · rintro ⟨hlt, h⟩
    rw [List.getElem?_eq_getElem hlt] at h
    simp only [isStale, Bool.and_eq_true, decide_eq_true_eq] at h
    exact ⟨Items[i], List.getElem?_eq_getElem hlt, h.2, h.1⟩
  · rintro ⟨it, hit, h1, h2⟩
    refine ⟨(List.getElem?_eq_some_iff.1 hit).1, ?_⟩
    rw [hit]
    simp [isStale, h1, h2]

/-- The sequence `finishChanges` leaves is the sequence before the removal read at the
surviving positions. -/
theorem finishChanges_items {P : Type} (k o : Int) (c : Nat) (Net : FNetArray)
    (ds : DeletedLoopState) (cs : ChangedLoopState P) :
    (finishChanges k o c Net ds cs).Items
      = (survivingPositions (finishChanges k o c Net ds cs).PreRemoveItems.length
          (finishChanges k o c Net ds cs).DeletedIndices).filterMap
          (fun p => (finishChanges k o c Net ds cs).PreRemoveItems[p]?) := by
  unfold finishChanges
  dsimp only
  rw [← removeDeletedItems_eq_survivingPositions]
  split
  · rfl
  · rename_i h
    have : ds.DeletedIndices ++ staleIndices k o cs.Items = [] := by
      apply List.eq_nil_of_length_eq_zero
      omega
    rw [this]
    rfl

/-- A successful decode of a record with at least one changed entry went through
`finishChanges`. -/
theorem read_done_changes {P : Type} (codec : ItemCodec P) (InItems : List (FNetArrayItem P))
    (InNetArray : FNetArray) (key old deleted changed : Nat) (rest : List Nat)
    (r : ReadResult P)
    (hr : r = NetArrayDeltaSerializeRead codec InItems InNetArray
      ⟨key :: old :: deleted :: changed :: rest, false⟩)
    (hok : r.ret = true) (hch : 0 < changed % 4294967296) :
    ∃ ds cs,
      readChangedItems codec (toInt32 key) (changed % 4294967296)
        ⟨ds.Reader, InItems, (prepareItemMap InItems InNetArray).ItemMap, ds.GuidReferencesMap,
          [], [], [], false, false⟩ = (none, cs)
      ∧ r = finishChanges (toInt32 key) (toInt32 old) (changed % 4294967296)
          (prepareItemMap InItems InNetArray) ds cs := by
  rw [read_record] at hr
  split at hr
  · subst hr; cases hok
  · split at hr
    · subst hr; cases hok
    · unfold applyRecord at hr
      dsimp only at hr
      rw [if_pos hch] at hr
      unfold applyChanges at hr
      split at hr
      · subst hr; cases hok
      · rename_i cs heq
        exact ⟨_, cs, heq, hr⟩

/-- C7 (staleness window): in a successful decode of a record with at least one changed entry,
the sequence left is the sequence before the removal read at the surviving positions; every
position whose item, before the removal, was last seen strictly after the previous key of the
record and strictly before its current key is recorded for removal and does not survive; and
every position recorded by a changed entry holds an item stamped with the current key, which
the sweep does not select. -/
theorem staleness_window {P : Type} (codec : ItemCodec P) (InItems : List (FNetArrayItem P))
    (InNetArray : FNetArray) (key old deleted changed : Nat) (rest : List Nat)
    (r : ReadResult P)
    (hr : r = NetArrayDeltaSerializeRead codec InItems InNetArray
      ⟨key :: old :: deleted :: changed :: rest, false⟩)
    (hok : r.ret = true) (hch : 0 < changed % 4294967296) :
    r.Items = (survivingPositions r.PreRemoveItems.length r.DeletedIndices).filterMap
        (fun p => r.PreRemoveItems[p]?)
    ∧ (∀ i it, r.PreRemoveItems[i]? = some it →
        toInt32 old < it.MostRecentArrayReplicationKey →
        it.MostRecentArrayReplicationKey < toInt32 key →
        i ∈ r.DeletedIndices
          ∧ i ∉ survivingPositions r.PreRemoveItems.length r.DeletedIndices)
    ∧ (∀ i ∈ r.AddedIndices ++ r.ChangedIndices,
        ∃ it, r.PreRemoveItems[i]? = some it
          ∧ it.MostRecentArrayReplicationKey = toInt32 key
          ∧ i ∉ staleIndices (toInt32 key) (toInt32 old) r.PreRemoveItems) := by
  obtain ⟨ds, cs, hloop, hfin⟩ :=
    read_done_changes codec InItems InNetArray key old deleted changed rest r hr hok hch
  subst hfin
  refine ⟨finishChanges_items _ _ _ _ _ _, ?_, ?_⟩
  · intro i it hit h1 h2
    have hmem : i ∈ (finishChanges (toInt32 key) (toInt32 old) (changed % 4294967296)
        (prepareItemMap InItems InNetArray) ds cs).DeletedIndices := by
      show i ∈ ds.DeletedIndices ++ staleIndices (toInt32 key) (toInt32 old) cs.Items
      exact List.mem_append_right _ ((mem_staleIndices _ _ _ _).2 ⟨it, hit, h1, h2⟩)
    exact ⟨hmem, not_mem_survivingPositions _ _ i hmem (List.getElem?_eq_some_iff.1 hit).1⟩
  · intro i hi
    have hst := readChangedItems_stamped codec (toInt32 key) (changed % 4294967296)
      ⟨ds.Reader, InItems, (prepareItemMap InItems InNetArray).ItemMap, ds.GuidReferencesMap,
        [], [], [], false, false⟩ (by simp) (by rw [hloop])
    rw [hloop] at hst
    obtain ⟨it, hit, hk⟩ := hst i hi
    refine ⟨it, hit, hk, ?_⟩
    intro hmem
    obtain ⟨it1, hit1, _, h2⟩ := (mem_staleIndices _ _ _ _).1 hmem
    have hit2 : cs.Items[i]? = some it1 := hit1
    have hit3 : cs.Items[i]? = some it := hit
    rw [hit3] at hit2
    cases hit2
    omega

/-- C6 as amended (staleness by window): in a successful decode of a record with at least one
changed entry, entered with a position cache that is sound or about to be rebuilt, an item of
the collection whose identity is not read from the changed section keeps its position and its
fields until the removal; if it was last seen strictly after the previous key of the record
and strictly before its current key, its position is recorded for removal and does not
survive; if it was last seen at or before the previous key, the sweep does not select it. -/
theorem stale_within_window_removed {P : Type} (codec : ItemCodec P)
    (InItems : List (FNetArrayItem P)) (InNetArray : FNetArray)
    (key old deleted changed : Nat) (rest : List Nat) (r : ReadResult P)
    (hr : r = NetArrayDeltaSerializeRead codec InItems InNetArray
      ⟨key :: old :: deleted :: changed :: rest, false⟩)
    (hok : r.ret = true) (hch : 0 < changed % 4294967296)
    (hcache : InNetArray.ItemMap.length ≠ InItems.length
      ∨ CacheSound InNetArray.ItemMap InItems)
    (i : Nat) (it : FNetArrayItem P) (hi : InItems[i]? = some it)
    (hnamed : it.ReplicationID ∉ r.ChangedIDs) :
    r.PreRemoveItems[i]? = some it
    ∧ r.Items = (survivingPositions r.PreRemoveItems.length r.DeletedIndices).filterMap
        (fun p => r.PreRemoveItems[p]?)
    ∧ (toInt32 old < it.MostRecentArrayReplicationKey →
        it.MostRecentArrayReplicationKey < toInt32 key →
        i ∈ r.DeletedIndices
          ∧ i ∉ survivingPositions r.PreRemoveItems.length r.DeletedIndices)
    ∧ (it.MostRecentArrayReplicationKey ≤ toInt32 old →
        i ∉ staleIndices (toInt32 key) (toInt32 old) r.PreRemoveItems) := by
  obtain ⟨ds, cs, hloop, hfin⟩ :=
    read_done_changes codec InItems InNetArray key old deleted changed rest r hr hok hch
  subst hfin
  have hun := readChangedItems_untouched codec (toInt32 key) (changed % 4294967296)
    ⟨ds.Reader, InItems, (prepareItemMap InItems InNetArray).ItemMap, ds.GuidReferencesMap,
      [], [], [], false, false⟩ (prepareItemMap_sound InItems InNetArray hcache) i it hi
  rw [hloop] at hun
  have hpre : cs.Items[i]? = some it := hun hnamed
  refine ⟨hpre, finishChanges_items _ _ _ _ _ _, ?_, ?_⟩
  · intro h1 h2
    have hmem : i ∈ (finishChanges (toInt32 key) (toInt32 old) (changed % 4294967296)
        (prepareItemMap InItems InNetArray) ds cs).DeletedIndices := by
      show i ∈ ds.DeletedIndices ++ staleIndices (toInt32 key) (toInt32 old) cs.Items
      exact List.mem_append_right _ ((mem_staleIndices _ _ _ _).2 ⟨it, hpre, h1, h2⟩)
    exact ⟨hmem, not_mem_survivingPositions _ _ i hmem (List.getElem?_eq_some_iff.1 hpre).1⟩
  · intro hle hmem
    obtain ⟨it1, hit1, h1, _⟩ := (mem_staleIndices _ _ _ _).1 hmem
    have hit2 : cs.Items[i]? = some it1 := hit1
    rw [hpre] at hit2
    cases hit2
    omega

/-- C7 on a record with previous key 5 and current key 10, decoded into a collection whose
first item was last seen at key 7: position 0 is recorded for removal and does not survive. -/
theorem staleness_window_witness :
    (NetArrayDeltaSerializeRead wordCodec exampleItems exampleNet
        ⟨10 :: 5 :: 1 :: 2 :: [8, 8, 100, 9, 99], false⟩).ret = true
    ∧ 0 < 2 % 4294967296
    ∧ exampleItems[0]? = some ⟨7, 0, 7, 12⟩
    ∧ (0 ∈ (NetArrayDeltaSerializeRead wordCodec exampleItems exampleNet
          ⟨10 :: 5 :: 1 :: 2 :: [8, 8, 100, 9, 99], false⟩).DeletedIndices
      ∧ 0 ∉ survivingPositions
          (NetArrayDeltaSerializeRead wordCodec exampleItems exampleNet
            ⟨10 :: 5 :: 1 :: 2 :: [8, 8, 100, 9, 99], false⟩).PreRemoveItems.length
          (NetArrayDeltaSerializeRead wordCodec exampleItems exampleNet
            ⟨10 :: 5 :: 1 :: 2 :: [8, 8, 100, 9, 99], false⟩).DeletedIndices) :=
  ⟨by decide, by decide, by decide,
    (staleness_window wordCodec exampleItems exampleNet 10 5 1 2 [8, 8, 100, 9, 99] _ rfl
      (by decide) (by decide)).2.1 0 ⟨7, 0, 7, 12⟩ (by decide) (by decide) (by decide)⟩

/-- C6 as amended, on the same record: identity 7 is not read from the changed section, the
item was last seen at key 7, between 5 and 10, and its position does not survive. -/
theorem stale_within_window_removed_witness :
    (NetArrayDeltaSerializeRead wordCodec exampleItems exampleNet
        ⟨10 :: 5 :: 1 :: 2 :: [8, 8, 100, 9, 99], false⟩).ret = true
    ∧ 0 < 2 % 4294967296
    ∧ (exampleNet.ItemMap.length ≠ exampleItems.length
        ∨ CacheSound exampleNet.ItemMap exampleItems)
    ∧ exampleItems[0]? = some ⟨7, 0, 7, 12⟩
    ∧ (7 : Int) ∉ (NetArrayDeltaSerializeRead wordCodec exampleItems exampleNet
        ⟨10 :: 5 :: 1 :: 2 :: [8, 8, 100, 9, 99], false⟩).ChangedIDs
    ∧ (0 ∈ (NetArrayDeltaSerializeRead wordCodec exampleItems exampleNet
          ⟨10 :: 5 :: 1 :: 2 :: [8, 8, 100, 9, 99], false⟩).DeletedIndices
      ∧ 0 ∉ survivingPositions
          (NetArrayDeltaSerializeRead wordCodec exampleItems exampleNet
            ⟨10 :: 5 :: 1 :: 2 :: [8, 8, 100, 9, 99], false⟩).PreRemoveItems.length
          (NetArrayDeltaSerializeRead wordCodec exampleItems exampleNet
            ⟨10 :: 5 :: 1 :: 2 :: [8, 8, 100, 9, 99], false⟩).DeletedIndices) :=
  ⟨by decide, by decide, Or.inl (by decide), by decide, by decide,
    (stale_within_window_removed wordCodec exampleItems exampleNet 10 5 1 2 [8, 8, 100, 9, 99]
      _ rfl (by decide) (by decide) (Or.inl (by decide)) 0 ⟨7, 0, 7, 12⟩ (by decide)
      (by decide)).2.2.1 (by decide) (by decide)⟩

/-! ## Machine integers -/

theorem wrapInt32_isInt32 (x : Int) : IsInt32 (wrapInt32 x) := by
  unfold IsInt32 wrapInt32
  omega

theorem toInt32_toUInt32 (x : Int) (h : IsInt32 x) : toInt32 (toUInt32 x) = x := by
  unfold IsInt32 at h
  unfold toInt32 toUInt32 wrapInt32
  omega

theorem toUInt32_lt (x : Int) : toUInt32 x < 4294967296 := by
  unfold toUInt32
  omega

theorem toUInt32_natCast (n : Nat) (h : n < 4294967296) : toUInt32 (n : Int) = n := by
  unfold toUInt32
  omega

/-! ## Write path: the diff loop -/

theorem CalculateItemCountForConsideration_eq {P : Type} (InItems : List (FNetArrayItem P))
    (client : Bool) :
    CalculateItemCountForConsideration InItems client
      = (InItems.filter (fun x => ShouldWriteItem x client)).length := by
  unfold CalculateItemCountForConsideration
  have h : ∀ (l : List (FNetArrayItem P)) (n : Nat),
      l.foldl (fun Count Item => if ShouldWriteItem Item client then Count + 1 else Count) n
        = n + (l.filter (fun x => ShouldWriteItem x client)).length := by
    intro l
    induction l with
    | nil => intro n; simp
    | cons x l ih =>
      intro n
      rw [List.foldl_cons, ih, List.filter_cons]
      split
      · simp; omega
      · simp
  rw [h]; simp

theorem MarkDirty_fields {P : Type} (it : FNetArrayItem P) (a : FNetArray) :
    (it.MarkDirty a).1.payload = it.payload
    ∧ (it.MarkDirty a).1.MostRecentArrayReplicationKey = it.MostRecentArrayReplicationKey
    ∧ (it.ReplicationID = INDEX_NONE → IsInt32 (it.MarkDirty a).1.ReplicationID)
    ∧ (it.ReplicationID ≠ INDEX_NONE → (it.MarkDirty a).1.ReplicationID = it.ReplicationID) := by
  unfold FNetArrayItem.MarkDirty
  dsimp only
  split
  · exact ⟨rfl, rfl, fun _ => wrapInt32_isInt32 _, fun h => absurd ‹_› h⟩
  · rename_i hne
    exact ⟨rfl, rfl, fun h => absurd h hne, fun _ => rfl⟩

theorem visit_fields {P : Type} (client : Bool) (item : FNetArrayItem P) (a : FNetArray)
    (hw : ShouldWriteItem item client = true) :
    (if item.ReplicationID = INDEX_NONE then item.MarkDirty a else (item, a)).1.payload
        = item.payload
    ∧ ShouldWriteItem
        (if item.ReplicationID = INDEX_NONE then item.MarkDirty a else (item, a)).1 client = true
    ∧ (IsInt32 item.ReplicationID → IsInt32
        (if item.ReplicationID = INDEX_NONE then item.MarkDirty a else (item, a)).1.ReplicationID) := by
  refine ⟨?_, ?_, ?_⟩
  · split
    · exact (MarkDirty_fields item a).1
    · rfl
  · unfold ShouldWriteItem at hw ⊢
    cases client with
    | false => rfl
    | true =>
      simp only [if_true] at hw ⊢
      have : item.ReplicationID ≠ INDEX_NONE := by simpa using hw
      rw [if_neg this]; exact hw
  · intro hi
    split
    · rename_i h; exact (MarkDirty_fields item a).2.2.1 h
    · exact hi

/-- What one iteration of the diff loop does, told from the item as the iteration leaves it. -/
theorem diffStep_spec {P : Type} (OldMap : Option (TMap Int)) (client : Bool)
    (s : DiffState P) (item : FNetArrayItem P) :
    ∃ x : FNetArrayItem P,
      (diffStep OldMap client s item).Items = s.Items ++ [x]
      ∧ x.payload = item.payload
      ∧ ShouldWriteItem x client = ShouldWriteItem item client
      ∧ (IsInt32 item.ReplicationID → IsInt32 x.ReplicationID)
      ∧ (diffStep OldMap client s item).NewMap
          = (if ShouldWriteItem x client then TMap.Add s.NewMap x.ReplicationID x.ReplicationKey
             else s.NewMap)
      ∧ (diffStep OldMap client s item).ChangedElements
          = s.ChangedElements
            ++ (if isChanged OldMap client x then [⟨s.Items.length, x.ReplicationID⟩] else [])
      ∧ (diffStep OldMap client s item).DeletedCount
          = s.DeletedCount + (if isNew OldMap client x then 1 else 0) := by
  unfold diffStep isChanged isNew
  by_cases hw : ShouldWriteItem item client = true
  · simp only [hw, Bool.not_true, Bool.false_eq_true, if_false]
    have hF := visit_fields client item s.Net hw
    generalize (if item.ReplicationID = INDEX_NONE then item.MarkDirty s.Net else (item, s.Net))
      = r at hF ⊢
    obtain ⟨hp, hx, hi⟩ := hF
    refine ⟨r.1, ?_, hp, hx, hi, ?_, ?_, ?_⟩
    all_goals
      cases hf : oldValue OldMap r.1.ReplicationID with
      | none => simp [hx]
      | some v =>
        by_cases hv : v = r.1.ReplicationKey
        · simp [hx, hv]
        · simp [hx, hv]
  · have hw1 : ShouldWriteItem item client = false := by simpa using hw
    simp only [hw1, Bool.not_false, if_true]
    exact ⟨item, rfl, rfl, hw1, fun h => h, by simp [hw1], by simp [hw1], by simp [hw1]⟩

/-- What the diff loop does, told from the items as the loop leaves them. -/
theorem diffItems_spec {P : Type} (OldMap : Option (TMap Int)) (client : Bool)
    (items : List (FNetArrayItem P)) (s : DiffState P) :
    ∃ new : List (FNetArrayItem P),
      (diffItems OldMap client items s).Items = s.Items ++ new
      ∧ new.map (fun x => x.payload) = items.map (fun x => x.payload)
      ∧ (new.filter (fun x => ShouldWriteItem x client)).length
          = (items.filter (fun x => ShouldWriteItem x client)).length
      ∧ ((∀ it ∈ items, IsInt32 it.ReplicationID) → ∀ x ∈ new, IsInt32 x.ReplicationID)
      ∧ (diffItems OldMap client items s).NewMap
          = (new.filter (fun x => ShouldWriteItem x client)).foldl
              (fun m x => TMap.Add m x.ReplicationID x.ReplicationKey) s.NewMap
      ∧ (diffItems OldMap client items s).ChangedElements
          = s.ChangedElements ++ changedOf OldMap client s.Items.length new
      ∧ (diffItems OldMap client items s).DeletedCount
          = s.DeletedCount + ((new.filter (fun x => isNew OldMap client x)).length : Int) := by
  induction items generalizing s with
  | nil => exact ⟨[], by simp [diffItems, changedOf]⟩
  | cons item rest ih =>
    obtain ⟨x, hI, hp, hw, hi, hN, hC, hD⟩ := diffStep_spec OldMap client s item
    obtain ⟨new1, hI1, hp1, hw1, hi1, hN1, hC1, hD1⟩ := ih (diffStep OldMap client s item)
    have hfold : diffItems OldMap client (item :: rest) s
        = diffItems OldMap client rest (diffStep OldMap client s item) := rfl
    refine ⟨x :: new1, ?_, ?_, ?_, ?_, ?_, ?_, ?_⟩
    · rw [hfold, hI1, hI]; simp
    · simp [hp, hp1]
    · simp only [List.filter_cons, hw]
      split <;> simp [hw1]
    · intro h y hy
      rcases List.mem_cons.1 hy with h1 | h1
      · subst h1; exact hi (h item (List.mem_cons_self _ _))
      · exact hi1 (fun it hit => h it (List.mem_cons_of_mem _ hit)) y h1
    · rw [hfold, hN1, hN, List.filter_cons]
      split <;> simp
    · rw [hfold, hC1, hC, hI]
      simp only [changedOf, List.enumFrom_cons, List.filterMap_cons, List.length_append,
        List.length_singleton, List.append_assoc]
      split <;> simp
    · rw [hfold, hD1, hD, List.filter_cons]
      split
      · simp; omega
      · simp

/-- The write path takes the full diff when there is no old state or when the replication key
of the collection differs from the one of the old state. -/
theorem write_eq_writeDelta {P : Type} (codec : ItemCodec P) (client : Bool)
    (OldState : Option FNetFastTArrayBaseState) (InItems : List (FNetArrayItem P))
    (InNetArray : FNetArray) (Writer : List Nat)
    (hfull : ∀ S, OldState = some S → InNetArray.ArrayReplicationKey ≠ S.ArrayReplicationKey) :
    NetArrayDeltaSerializeWrite codec client OldState InItems InNetArray Writer
      = writeDelta codec client OldState InItems InNetArray Writer := by
  unfold NetArrayDeltaSerializeWrite
  cases OldState with
  | none => rfl
  | some S =>
    have := hfull S rfl
    simp [oldReplicationKey, this]

/-- The full diff, told from the items as it leaves them. -/
theorem writeDelta_spec {P : Type} (codec : ItemCodec P) (client : Bool)
    (OldState : Option FNetFastTArrayBaseState) (InItems : List (FNetArrayItem P))
    (InNetArray : FNetArray) (Writer : List Nat) (w : WriteResult P)
    (hw : w = writeDelta codec client OldState InItems InNetArray Writer) :
    w.ret = none
    ∧ w.Items.map (fun x => x.payload) = InItems.map (fun x => x.payload)
    ∧ ((∀ it ∈ InItems, IsInt32 it.ReplicationID) → ∀ x ∈ w.Items, IsInt32 x.ReplicationID)
    ∧ w.NewState.IDToCLMap
        = (w.Items.filter (fun x => ShouldWriteItem x client)).foldl
            (fun m x => TMap.Add m x.ReplicationID x.ReplicationKey) []
    ∧ w.ChangedElements = changedOf (OldState.map (fun S => S.IDToCLMap)) client 0 w.Items
    ∧ w.DeletedElements
        = collectDeleted (OldState.map (fun S => S.IDToCLMap)) w.NewState.IDToCLMap
            (oldMapNum (OldState.map (fun S => S.IDToCLMap))
              - ((w.Items.filter (fun x => ShouldWriteItem x client)).length : Int)
              + ((w.Items.filter
                  (fun x => isNew (OldState.map (fun S => S.IDToCLMap)) client x)).length : Int))
    ∧ w.Writer = Writer
        ++ [toUInt32 w.Net.ArrayReplicationKey, toUInt32 (oldReplicationKey OldState),
            toUInt32 (w.DeletedElements.length : Int), toUInt32 (w.ChangedElements.length : Int)]
        ++ w.DeletedElements.map toUInt32
        ++ writeChanged codec w.Items w.ChangedElements := by
  subst hw
  obtain ⟨new, hI, hp, hc, hi, hN, hC, hD⟩ :=
    diffItems_spec (OldState.map (fun S => S.IDToCLMap)) client InItems
      ⟨[], InNetArray, [], [],
        oldMapNum (OldState.map (fun S => S.IDToCLMap))
          - (CalculateItemCountForConsideration InItems client : Int)⟩
  simp only [List.nil_append, List.length_nil] at hI hC
  unfold writeDelta
  dsimp only
  rw [hI, hN, hC]
  refine ⟨rfl, hp, hi, rfl, rfl, ?_, rfl⟩
  rw [hD, CalculateItemCountForConsideration_eq, ← hc]

/-! ## Write path: the record -/

theorem changedOf_cons {P : Type} (OldMap : Option (TMap Int)) (client : Bool) (start : Nat)
    (x : FNetArrayItem P) (rest : List (FNetArrayItem P)) :
    changedOf OldMap client start (x :: rest)
      = (if isChanged OldMap client x then [⟨start, x.ReplicationID⟩] else [])
        ++ changedOf OldMap client (start + 1) rest := by
  unfold changedOf
  rw [List.enumFrom_cons, List.filterMap_cons]
  by_cases h : isChanged OldMap client x = true
  · simp [h]
  · simp [h]

theorem changedOf_length {P : Type} (OldMap : Option (TMap Int)) (client : Bool) (start : Nat)
    (items : List (FNetArrayItem P)) :
    (changedOf OldMap client start items).length
      = (items.filter (fun x => isChanged OldMap client x)).length := by
  induction items generalizing start with
  | nil => rfl
  | cons x rest ih =>
    rw [changedOf_cons, List.length_append, ih, List.filter_cons]
    split
    · simp; omega
    · simp

theorem changedOf_mem {P : Type} (OldMap : Option (TMap Int)) (client : Bool) (start : Nat)
    (items : List (FNetArrayItem P)) (e : FIdxIDPair)
    (he : e ∈ changedOf OldMap client start items) :
    start ≤ e.Idx ∧ ∃ x, items[e.Idx - start]? = some x ∧ x.ReplicationID = e.ID
      ∧ isChanged OldMap client x = true := by
  unfold changedOf at he
  rw [List.mem_filterMap] at he
  obtain ⟨⟨i, x⟩, hmem, hx⟩ := he
  rw [List.mk_mem_enumFrom_iff_le_and_getElem?_sub] at hmem
  dsimp only at hx
  split at hx
  · rename_i hch
    cases hx
    exact ⟨hmem.1, x, hmem.2, rfl, hch⟩
  · cases hx

theorem writeChanged_changedOf {P : Type} (codec : ItemCodec P) (OldMap : Option (TMap Int))
    (client : Bool) (pre items : List (FNetArrayItem P)) :
    writeChanged codec (pre ++ items) (changedOf OldMap client pre.length items)
      = (items.filter (fun x => isChanged OldMap client x)).flatMap
          (fun x => toUInt32 x.ReplicationID :: codec.save x.payload) := by
  induction items generalizing pre with
  | nil => rfl
  | cons x rest ih =>
    have hrest := ih (pre ++ [x])
    rw [List.length_append, List.length_singleton, List.append_assoc, List.singleton_append]
      at hrest
    rw [changedOf_cons]
    unfold writeChanged at hrest ⊢
    rw [List.flatMap_append, hrest, List.filter_cons]
    split
    · have hx : (pre ++ x :: rest)[pre.length]? = some x := by
        rw [List.getElem?_append_right (le_refl _)]
        simp
      simp [hx]
    · simp

theorem scanDeleted_length (NewMap m : TMap Int) (cnt : Int) (acc : List Int) :
    (scanDeleted NewMap m cnt acc).length ≤ acc.length + m.length := by
  induction m generalizing cnt acc with
  | nil => simp [scanDeleted]
  | cons p m ih =>
    obtain ⟨k, v⟩ := p
    unfold scanDeleted
    split
    · split
      · simp only [List.length_append, List.length_singleton, List.length_cons,
          List.length_nil]
        omega
      · have := ih (cnt - 1) (acc ++ [k])
        simp only [List.length_append, List.length_singleton, List.length_cons,
          List.length_nil] at this ⊢
        omega
    · have := ih cnt acc
      simp only [List.length_cons]
      omega

theorem collectDeleted_length (OldMap : Option (TMap Int)) (NewMap : TMap Int) (cnt : Int) :
    ((collectDeleted OldMap NewMap cnt).length : Int) ≤ oldMapNum OldMap := by
  unfold collectDeleted oldMapNum
  cases OldMap with
  | none => simp
  | some m =>
    dsimp only
    split
    · have := scanDeleted_length NewMap m cnt []
      simp only [List.length_nil] at this
      omega
    · simp

/-- C10 (wire layout): a full-diff encode appends to the bit stream, in this order, the
replication key of the collection as it is after the diff loop, the replication key of the old
snapshot or -1, the number of deleted identities, the number of changed entries, the deleted
identities, and for every changed item, in ascending position, its identity followed by its
payload as the item codec encodes it; the two counts are the lengths of the two lists, and
every changed entry names a position of the sequence and the identity of the item there. -/
theorem wire_layout {P : Type} (codec : ItemCodec P) (client : Bool)
    (OldState : Option FNetFastTArrayBaseState) (InItems : List (FNetArrayItem P))
    (InNetArray : FNetArray) (Writer : List Nat) (w : WriteResult P)
    (hw : w = NetArrayDeltaSerializeWrite codec client OldState InItems InNetArray Writer)
    (hfull : ∀ S, OldState = some S → InNetArray.ArrayReplicationKey ≠ S.ArrayReplicationKey)
    (hsize : InItems.length < 2147483648)
    (hold : ∀ S, OldState = some S → S.IDToCLMap.length < 2147483648) :
    w.Writer = Writer
        ++ [toUInt32 w.Net.ArrayReplicationKey, toUInt32 (oldReplicationKey OldState),
            w.DeletedElements.length, w.ChangedElements.length]
        ++ w.DeletedElements.map toUInt32
        ++ (w.Items.filter (fun x => isChanged (OldState.map (fun S => S.IDToCLMap)) client x)).flatMap
            (fun x => toUInt32 x.ReplicationID :: codec.save x.payload)
    ∧ w.ChangedElements.length
        = (w.Items.filter
            (fun x => isChanged (OldState.map (fun S => S.IDToCLMap)) client x)).length
    ∧ (∀ e ∈ w.ChangedElements, ∃ x, w.Items[e.Idx]? = some x ∧ x.ReplicationID = e.ID)
    ∧ w.NewState.ArrayReplicationKey = w.Net.ArrayReplicationKey := by
  rw [write_eq_writeDelta codec client OldState InItems InNetArray Writer hfull] at hw
  obtain ⟨_, hp, _, _, hC, hD, hW⟩ :=
    writeDelta_spec codec client OldState InItems InNetArray Writer w hw
  have hlen : w.Items.length = InItems.length := by
    have := congrArg List.length hp
    simpa using this
  have hCl : w.ChangedElements.length
      = (w.Items.filter
          (fun x => isChanged (OldState.map (fun S => S.IDToCLMap)) client x)).length := by
    rw [hC, changedOf_length]
  have hCb : w.ChangedElements.length < 4294967296 := by
    have := List.length_filter_le
      (fun x => isChanged (OldState.map (fun S => S.IDToCLMap)) client x) w.Items
    omega
  have hDb : w.DeletedElements.length < 4294967296 := by
    have h1 := collectDeleted_length (OldState.map (fun S => S.IDToCLMap))
      w.NewState.IDToCLMap
      (oldMapNum (OldState.map (fun S => S.IDToCLMap))
        - ((w.Items.filter (fun x => ShouldWriteItem x client)).length : Int)
        + ((w.Items.filter
            (fun x => isNew (OldState.map (fun S => S.IDToCLMap)) client x)).length : Int))
    rw [← hD] at h1
    cases OldState with
    | none =>
      simp only [oldMapNum, Option.map_none'] at h1
      omega
    | some S =>
      have := hold S rfl
      simp only [oldMapNum, Option.map_some'] at h1
      omega
  refine ⟨?_, hCl, ?_, ?_⟩
  · rw [hW, toUInt32_natCast _ hDb, toUInt32_natCast _ hCb]
    congr 1
    have := writeChanged_changedOf codec (OldState.map (fun S => S.IDToCLMap)) client [] w.Items
    simp only [List.nil_append, List.length_nil] at this
    rw [hC, this]
  · intro e he
    rw [hC] at he
    obtain ⟨_, x, hx, hid, _⟩ := changedOf_mem _ _ _ _ e he
    exact ⟨x, by simpa using hx, hid⟩
  · subst hw; rfl

/-- C10 on a collection of three items diffed against a snapshot of five identities: the
record is key 4, old key 3, two deleted identities, one changed entry, the identities 2 and 4,
then identity 3 with its payload 11. -/
theorem wire_layout_witness :
    (∀ S, some exampleOldState = some S →
        exampleSenderNet.ArrayReplicationKey ≠ S.ArrayReplicationKey)
    ∧ exampleSenderItems.length < 2147483648
    ∧ (∀ S, some exampleOldState = some S → S.IDToCLMap.length < 2147483648)
    ∧ (NetArrayDeltaSerializeWrite wordCodec false (some exampleOldState) exampleSenderItems
        exampleSenderNet []).Writer = [4, 3, 2, 1, 2, 4, 3, 11] :=
  ⟨fun S h => by cases h; decide, by decide, fun S h => by cases h; decide,
    (wire_layout wordCodec false (some exampleOldState) exampleSenderItems exampleSenderNet []
      _ rfl (fun S h => by cases h; decide) (by decide)
      (fun S h => by cases h; decide)).1.trans (by decide)⟩

/-! ## Write path: the deleted identities -/

theorem TMap.Keys_Add {V : Type} (m : TMap V) (k : Int) (v : V) (k1 : Int) :
    k1 ∈ TMap.Keys (TMap.Add m k v) ↔ k1 ∈ TMap.Keys m ∨ k1 = k := by
  induction m with
  | nil => simp [TMap.Add, TMap.Keys]
  | cons p m ih =>
    obtain ⟨k0, v0⟩ := p
    unfold TMap.Add
    split
    · rename_i h
      subst h
      simp only [TMap.Keys, List.map_cons, List.mem_cons]
      tauto
    · simp only [TMap.Keys, List.map_cons, List.mem_cons] at ih ⊢
      rw [ih]
      tauto

theorem Keys_foldl_Add {P : Type} (xs : List (FNetArrayItem P)) (m0 : TMap Int) (k : Int) :
    k ∈ TMap.Keys (xs.foldl (fun m x => TMap.Add m x.ReplicationID x.ReplicationKey) m0)
      ↔ k ∈ TMap.Keys m0 ∨ k ∈ xs.map (fun x => x.ReplicationID) := by
  induction xs generalizing m0 with
  | nil => simp
  | cons x xs ih =>
    rw [List.foldl_cons, ih, TMap.Keys_Add]
    simp only [List.map_cons, List.mem_cons]
    tauto

/-- Two duplicate-free lists: counting the elements of each that the other one lacks. -/
theorem length_add_filter_not_mem (A B : List Int) (hA : A.Nodup) (hB : B.Nodup) :
    A.length + (B.filter (fun k => !decide (k ∈ A))).length
      = B.length + (A.filter (fun k => !decide (k ∈ B))).length := by
  have h1 := @List.length_eq_length_filter_add _ A (fun k => decide (k ∈ B))
  have h2 := @List.length_eq_length_filter_add _ B (fun k => decide (k ∈ A))
  have h3 : (A.filter (fun k => decide (k ∈ B))).length
      = (B.filter (fun k => decide (k ∈ A))).length := by
    apply List.Perm.length_eq
    refine (List.perm_ext_iff_of_nodup (hA.filter _) (hB.filter _)).2 ?_
    intro a
    simp only [List.mem_filter, decide_eq_true_eq]
    tauto
  omega

/-- With a budget equal to the number of keys of the old map that the new map lacks, the scan
collects exactly these keys. -/
theorem scanDeleted_exact (NewMap m : TMap Int) (cnt : Int) (acc : List Int)
    (hcnt : cnt = (((TMap.Keys m).filter (fun k => !TMap.Contains NewMap k)).length : Int))
    (hpos : 0 < cnt) :
    scanDeleted NewMap m cnt acc
      = acc ++ (TMap.Keys m).filter (fun k => !TMap.Contains NewMap k) := by
  induction m generalizing cnt acc with
  | nil => simp [TMap.Keys] at hcnt; omega
  | cons p m ih =>
    obtain ⟨k, v⟩ := p
    unfold scanDeleted
    simp only [TMap.Keys, List.map_cons, List.filter_cons] at hcnt ⊢
    by_cases hk : (!TMap.Contains NewMap k) = true
    · rw [if_pos hk] at hcnt ⊢
      rw [if_pos hk]
      simp only [List.length_cons, Nat.cast_add, Nat.cast_one] at hcnt
      split
      · rename_i hle
        have h0 : (List.filter (fun k => !TMap.Contains NewMap k) (List.map Prod.fst m)).length
            = 0 := by omega
        rw [List.eq_nil_of_length_eq_zero h0]
      · rename_i hgt
        have := ih (cnt - 1) (acc ++ [k]) (by simp only [TMap.Keys]; omega) (by omega)
        rw [this]
        simp [TMap.Keys]
    · rw [if_neg hk] at hcnt ⊢
      rw [if_neg hk]
      exact ih cnt acc (by simp only [TMap.Keys]; exact hcnt) hpos

theorem collectDeleted_exact (NewMap m : TMap Int) (cnt : Int)
    (hcnt : cnt = (((TMap.Keys m).filter (fun k => !TMap.Contains NewMap k)).length : Int)) :
    collectDeleted (some m) NewMap cnt
      = (TMap.Keys m).filter (fun k => !TMap.Contains NewMap k) := by
  unfold collectDeleted
  dsimp only
  split
  · rw [scanDeleted_exact NewMap m cnt [] hcnt (by omega)]
    rfl
  · have h0 : ((TMap.Keys m).filter (fun k => !TMap.Contains NewMap k)).length = 0 := by omega
    rw [List.eq_nil_of_length_eq_zero h0]

theorem filter_isNew_length {P : Type} (m : TMap Int) (client : Bool)
    (items : List (FNetArrayItem P)) :
    (items.filter (fun x => isNew (some m) client x)).length
      = (((items.filter (fun x => ShouldWriteItem x client)).map
          (fun x => x.ReplicationID)).filter (fun k => !decide (k ∈ TMap.Keys m))).length := by
  rw [List.filter_map, List.length_map, List.filter_filter]
  congr 1
  apply List.filter_congr
  intro x _
  unfold isNew oldValue
  simp only [Option.bind_some, Function.comp]
  rw [Bool.and_comm]
  congr 1
  by_cases h : x.ReplicationID ∈ TMap.Keys m
  · have : TMap.Find m x.ReplicationID ≠ none := fun hn => (TMap.Find_none_iff m _).1 hn h
    simp [h, this]
  · have : TMap.Find m x.ReplicationID = none := (TMap.Find_none_iff m _).2 h
    simp [h, this]

/-- C4 (deleted-set exactness): in a full diff against an old snapshot, when the eligible
items, as the diff loop leaves them, have pairwise distinct identities, the deleted identities
written are the keys of the old snapshot that are not keys of the new snapshot, in the order
of the old snapshot, each exactly once; the budget does not stop the scan before the last of
them.  The keys of the new snapshot are the identities of the eligible items. -/
theorem deleted_set_exact {P : Type} (codec : ItemCodec P) (client : Bool)
    (S : FNetFastTArrayBaseState) (InItems : List (FNetArrayItem P))
    (InNetArray : FNetArray) (Writer : List Nat) (w : WriteResult P)
    (hw : w = NetArrayDeltaSerializeWrite codec client (some S) InItems InNetArray Writer)
    (hfull : InNetArray.ArrayReplicationKey ≠ S.ArrayReplicationKey)
    (hold : (TMap.Keys S.IDToCLMap).Nodup)
    (hdistinct : ((w.Items.filter (fun x => ShouldWriteItem x client)).map
      (fun x => x.ReplicationID)).Nodup) :
    w.DeletedElements
        = (TMap.Keys S.IDToCLMap).filter (fun k => !TMap.Contains w.NewState.IDToCLMap k)
    ∧ w.DeletedElements.Nodup
    ∧ (∀ k, k ∈ w.DeletedElements
        ↔ k ∈ TMap.Keys S.IDToCLMap ∧ k ∉ TMap.Keys w.NewState.IDToCLMap)
    ∧ (∀ k, k ∈ TMap.Keys w.NewState.IDToCLMap
        ↔ ∃ x ∈ w.Items, ShouldWriteItem x client = true ∧ x.ReplicationID = k) := by
  rw [write_eq_writeDelta codec client (some S) InItems InNetArray Writer
    (fun S1 h => by cases h; exact hfull)] at hw
  obtain ⟨_, _, _, hN, _, hD, _⟩ :=
    writeDelta_spec codec client (some S) InItems InNetArray Writer w hw
  have hkeys : ∀ k, k ∈ TMap.Keys w.NewState.IDToCLMap
      ↔ k ∈ (w.Items.filter (fun x => ShouldWriteItem x client)).map
          (fun x => x.ReplicationID) := by
    intro k
    rw [hN, Keys_foldl_Add]
    simp [TMap.Keys]
  have hfilter : (TMap.Keys S.IDToCLMap).filter
        (fun k => !TMap.Contains w.NewState.IDToCLMap k)
      = (TMap.Keys S.IDToCLMap).filter (fun k => !decide (k ∈
          (w.Items.filter (fun x => ShouldWriteItem x client)).map
            (fun x => x.ReplicationID))) := by
    apply List.filter_congr
    intro k _
    congr 1
    rw [Bool.eq_iff_iff, TMap.Contains_iff, hkeys]
    simp
  have hexact : w.DeletedElements
      = (TMap.Keys S.IDToCLMap).filter
          (fun k => !TMap.Contains w.NewState.IDToCLMap k) := by
    rw [hD]
    simp only [Option.map_some']
    apply collectDeleted_exact
    rw [hfilter, filter_isNew_length]
    have := length_add_filter_not_mem (TMap.Keys S.IDToCLMap)
      ((w.Items.filter (fun x => ShouldWriteItem x client)).map (fun x => x.ReplicationID))
      hold hdistinct
    simp only [TMap.Keys, List.length_map, oldMapNum] at this ⊢
    omega
  refine ⟨hexact, ?_, ?_, ?_⟩
  · rw [hexact]; exact hold.filter _
  · intro k
    rw [hexact, List.mem_filter]
    constructor
    · rintro ⟨h1, h2⟩
      refine ⟨h1, fun h => ?_⟩
      rw [← TMap.Contains_iff] at h
      simp [h] at h2
    · rintro ⟨h1, h2⟩
      refine ⟨h1, ?_⟩
      rw [← TMap.Contains_iff] at h2
      simpa using h2
  · intro k
    rw [hkeys, List.mem_map]
    constructor
    · rintro ⟨x, hx, rfl⟩
      rw [List.mem_filter] at hx
      exact ⟨x, hx.1, hx.2, rfl⟩
    · rintro ⟨x, hx, hw1, rfl⟩
      exact ⟨x, List.mem_filter.2 ⟨hx, hw1⟩, rfl⟩

/-- C4, the example of the specification: an old snapshot of five identities, three eligible
items, and the two identities 2 and 4 written as deleted. -/
theorem deleted_set_exact_witness :
    exampleSenderNet.ArrayReplicationKey ≠ exampleOldState.ArrayReplicationKey
    ∧ (TMap.Keys exampleOldState.IDToCLMap).Nodup
    ∧ (((NetArrayDeltaSerializeWrite wordCodec false (some exampleOldState) exampleSenderItems
          exampleSenderNet []).Items.filter (fun x => ShouldWriteItem x false)).map
        (fun x => x.ReplicationID)).Nodup
    ∧ (NetArrayDeltaSerializeWrite wordCodec false (some exampleOldState) exampleSenderItems
        exampleSenderNet []).DeletedElements = [2, 4] :=
  ⟨by decide, by decide, by decide,
    (deleted_set_exact wordCodec false exampleOldState exampleSenderItems exampleSenderNet []
      _ rfl (by decide) (by decide) (by decide)).1.trans (by decide)⟩

/-! ## Round trip -/

theorem prepareItemMap_nil {P : Type} (a : FNetArray) :
    (prepareItemMap ([] : List (FNetArrayItem P)) a).ItemMap = [] := by
  unfold prepareItemMap
  split
  · rfl
  · rename_i h
    simp only [List.length_nil, ne_eq, Decidable.not_not] at h
    exact List.eq_nil_of_length_eq_zero h

theorem staleIndices_eq_nil {P : Type} (k o : Int) (Items : List (FNetArrayItem P))
    (h : ∀ it ∈ Items, it.MostRecentArrayReplicationKey = k) : staleIndices k o Items = [] := by
  apply List.eq_nil_iff_forall_not_mem.2
  intro i hi
  obtain ⟨it, hit, _, h2⟩ := (mem_staleIndices k o Items i).1 hi
  have := h it (List.getElem?_mem hit)
  omega

/-- The loop over the changed entries on a stream that holds, for each item of a list with
pairwise distinct identities that the position cache does not know, the identity followed by
the encoded payload: one item is appended per entry, with the identity and the payload of the entry. -/
theorem readChangedItems_roundtrip {P : Type} (codec : ItemCodec P)
    (hcodec : ∀ p0 p tail, (codec.load p0 ⟨codec.save p ++ tail, false⟩).payload = p
      ∧ (codec.load p0 ⟨codec.save p ++ tail, false⟩).Reader = ⟨tail, false⟩)
    (k : Int) (xs : List (FNetArrayItem P)) (rest : List Nat) (s : ChangedLoopState P)
    (hs : s.Reader
      = ⟨xs.flatMap (fun x => toUInt32 x.ReplicationID :: codec.save x.payload) ++ rest, false⟩)
    (hint : ∀ x ∈ xs, IsInt32 x.ReplicationID)
    (hnd : (xs.map (fun x => x.ReplicationID)).Nodup)
    (hfresh : ∀ x ∈ xs, x.ReplicationID ∉ TMap.Keys s.ItemMap) :
    (readChangedItems codec k xs.length s).1 = none
    ∧ (readChangedItems codec k xs.length s).2.Items
        = s.Items ++ xs.map (fun x =>
            stampItem ⟨x.ReplicationID, INDEX_NONE, INDEX_NONE, codec.construct⟩ k x.payload)
    ∧ (readChangedItems codec k xs.length s).2.Reader = ⟨rest, false⟩ := by
  induction xs generalizing s with
  | nil => exact ⟨rfl, by simp [readChangedItems], by simpa [readChangedItems] using hs⟩
  | cons x xs ih =>
    have hrd : s.Reader.readInt32
        = (x.ReplicationID,
            ⟨codec.save x.payload
              ++ (xs.flatMap (fun x => toUInt32 x.ReplicationID :: codec.save x.payload)
                  ++ rest), false⟩) := by
      rw [hs]
      simp only [List.flatMap_cons, List.cons_append, List.append_assoc]
      rw [readInt32_cons, toInt32_toUInt32 _ (hint x (List.mem_cons_self _ _))]
    have hfind : TMap.Find s.ItemMap x.ReplicationID = none :=
      (TMap.Find_none_iff _ _).2 (hfresh x (List.mem_cons_self _ _))
    obtain ⟨hpay, hreader⟩ := hcodec codec.construct x.payload
      (xs.flatMap (fun x => toUInt32 x.ReplicationID :: codec.save x.payload) ++ rest)
    have hstep : (readChangedItem codec k s).1 = none
        ∧ (readChangedItem codec k s).2.Items
            = s.Items ++ [stampItem ⟨x.ReplicationID, INDEX_NONE, INDEX_NONE, codec.construct⟩
                k x.payload]
        ∧ (readChangedItem codec k s).2.ItemMap
            = TMap.Add s.ItemMap x.ReplicationID s.Items.length
        ∧ (readChangedItem codec k s).2.Reader
            = ⟨xs.flatMap (fun x => toUInt32 x.ReplicationID :: codec.save x.payload) ++ rest,
                false⟩ := by
      rcases readChangedItem_cases codec k s with
        ⟨e, _, hf, _⟩ | ⟨e, hf, _⟩ | ⟨_, hI, hM, _, _, hR, hX⟩
      · rw [hrd, hfind] at hf; cases hf
      · rw [hrd, hfind] at hf; cases hf
      · rw [hrd] at hI hM hR hX
        dsimp only at hI hM hR hX
        rw [hpay] at hI
        rw [hreader] at hR hX
        exact ⟨hX, hI, hM, hR⟩
    obtain ⟨hX, hI, hM, hR⟩ := hstep
    have hnd1 : x.ReplicationID ∉ xs.map (fun x => x.ReplicationID)
        ∧ (xs.map (fun x => x.ReplicationID)).Nodup := by
      rw [List.map_cons] at hnd
      exact List.nodup_cons.1 hnd
    have hih := ih (readChangedItem codec k s).2 hR
      (fun y hy => hint y (List.mem_cons_of_mem _ hy)) hnd1.2
      (by
        intro y hy hmem
        rw [hM, TMap.Keys_Add] at hmem
        rcases hmem with h | h
        · exact hfresh y (List.mem_cons_of_mem _ hy) h
        · apply hnd1.1
          rw [← h]
          exact List.mem_map.2 ⟨y, hy, rfl⟩)
    have hunf : readChangedItems codec k (x :: xs).length s
        = readChangedItems codec k xs.length (readChangedItem codec k s).2 := by
      rw [List.length_cons, readChangedItems]
      cases hcase : readChangedItem codec k s with
      | mk e s1 =>
        rw [hcase] at hX
        dsimp only at hX
        subst hX
        rfl
    rw [hunf]
    refine ⟨hih.1, ?_, hih.2.2⟩
    rw [hih.2.1, hI]
    simp

theorem filter_isChanged_none {P : Type} (items : List (FNetArrayItem P)) :
    items.filter (fun x => isChanged none false x) = items := by
  apply List.filter_eq_self.2
  intro x _
  simp [isChanged, ShouldWriteItem, oldValue]

/-- The record a privileged writer produces without an old snapshot: the header, then every
item with its identity and payload. -/
theorem write_first_record {P : Type} (codec : ItemCodec P) (InItems : List (FNetArrayItem P))
    (InNetArray : FNetArray) (w : WriteResult P)
    (hw : w = NetArrayDeltaSerializeWrite codec false none InItems InNetArray [])
    (hcount : InItems.length < 4294967296) :
    w.Items.length = InItems.length
    ∧ ((∀ it ∈ InItems, IsInt32 it.ReplicationID) → ∀ x ∈ w.Items, IsInt32 x.ReplicationID)
    ∧ w.Writer = toUInt32 w.Net.ArrayReplicationKey :: toUInt32 (-1) :: 0 :: w.Items.length
        :: w.Items.flatMap (fun x => toUInt32 x.ReplicationID :: codec.save x.payload)
    ∧ w.ChangedElements.length = w.Items.length := by
  rw [write_eq_writeDelta codec false none InItems InNetArray []
    (fun S h => by cases h)] at hw
  obtain ⟨_, hp, hi, _, hC, hD, hW⟩ :=
    writeDelta_spec codec false none InItems InNetArray [] w hw
  have hlen : w.Items.length = InItems.length := by
    have := congrArg List.length hp
    simpa using this
  have hDnil : w.DeletedElements = [] := by
    rw [hD]; rfl
  have hCl : w.ChangedElements.length = w.Items.length := by
    rw [hC]
    simp only [Option.map_none']
    rw [changedOf_length, filter_isChanged_none]
  have hWC : writeChanged codec w.Items w.ChangedElements
      = w.Items.flatMap (fun x => toUInt32 x.ReplicationID :: codec.save x.payload) := by
    have := writeChanged_changedOf codec none false [] w.Items
    simp only [List.nil_append, List.length_nil] at this
    rw [hC]
    simp only [Option.map_none']
    rw [this, filter_isChanged_none]
  refine ⟨hlen, hi, ?_, hCl⟩
  rw [hW, hWC, hDnil, hCl]
  have h0 : toUInt32 ((([] : List Int).length : Nat) : Int) = 0 := by decide
  have hn : toUInt32 (w.Items.length : Int) = w.Items.length :=
    toUInt32_natCast _ (by omega)
  rw [h0, hn]
  simp [oldReplicationKey]

/-- C1 (round trip): a privileged writer without an acknowledged snapshot encodes at most 2048
items whose identities, as the encode leaves them, are pairwise distinct `int32` values; with
an item codec whose `load` inverts its `save`, decoding the record into an empty item sequence
succeeds, consumes exactly the record, and yields a sequence of the same length whose items
have, position by position, the identity and the payload of the items of the sender. -/
theorem round_trip_into_empty {P : Type} (codec : ItemCodec P)
    (InItems : List (FNetArrayItem P)) (InNetArray RecvNetArray : FNetArray) (rest : List Nat)
    (w : WriteResult P)
    (hw : w = NetArrayDeltaSerializeWrite codec false none InItems InNetArray [])
    (r : ReadResult P)
    (hr : r = NetArrayDeltaSerializeRead codec [] RecvNetArray ⟨w.Writer ++ rest, false⟩)
    (hcodec : ∀ p0 p tail, (codec.load p0 ⟨codec.save p ++ tail, false⟩).payload = p
      ∧ (codec.load p0 ⟨codec.save p ++ tail, false⟩).Reader = ⟨tail, false⟩)
    (hint : ∀ it ∈ InItems, IsInt32 it.ReplicationID)
    (hdistinct : (w.Items.map (fun x => x.ReplicationID)).Nodup)
    (hcount : InItems.length ≤ 2048) :
    r.ret = true
    ∧ r.Items.length = w.Items.length
    ∧ r.Items.map (fun x => (x.ReplicationID, x.payload))
        = w.Items.map (fun x => (x.ReplicationID, x.payload))
    ∧ r.Reader = ⟨rest, false⟩ := by
  obtain ⟨hlen, hi, hW, _⟩ :=
    write_first_record codec InItems InNetArray w hw (by omega)
  have hmod0 : (0 : Nat) % 4294967296 = 0 := rfl
  have hmodn : w.Items.length % 4294967296 = w.Items.length := Nat.mod_eq_of_lt (by omega)
  rw [hW] at hr
  simp only [List.cons_append] at hr
  rw [read_record, hmod0, hmodn, if_neg (by omega), if_neg (by omega)] at hr
  unfold applyRecord at hr
  simp only [readDeletedItems] at hr
  by_cases hn : w.Items.length > 0
  · rw [if_pos hn] at hr
    have hloop := readChangedItems_roundtrip codec hcodec
      (toInt32 (toUInt32 w.Net.ArrayReplicationKey)) w.Items rest
      (⟨⟨w.Items.flatMap (fun x => toUInt32 x.ReplicationID :: codec.save x.payload) ++ rest,
          false⟩, [], (prepareItemMap ([] : List (FNetArrayItem P)) RecvNetArray).ItemMap,
        (prepareItemMap ([] : List (FNetArrayItem P)) RecvNetArray).GuidReferencesMap,
        [], [], [], false, false⟩ : ChangedLoopState P)
      rfl (hi hint) hdistinct (by simp [prepareItemMap_nil, TMap.Keys])
    unfold applyChanges at hr
    dsimp only at hr
    cases hcase : readChangedItems codec (toInt32 (toUInt32 w.Net.ArrayReplicationKey))
        w.Items.length
        (⟨⟨w.Items.flatMap (fun x => toUInt32 x.ReplicationID :: codec.save x.payload) ++ rest,
            false⟩, [], (prepareItemMap ([] : List (FNetArrayItem P)) RecvNetArray).ItemMap,
          (prepareItemMap ([] : List (FNetArrayItem P)) RecvNetArray).GuidReferencesMap,
          [], [], [], false, false⟩ : ChangedLoopState P) with
    | mk e cs =>
      rw [hcase] at hr hloop
      dsimp only at hr hloop
      obtain ⟨hX, hI, hR⟩ := hloop
      subst hX
      dsimp only at hr
      have hstale : staleIndices (toInt32 (toUInt32 w.Net.ArrayReplicationKey))
          (toInt32 (toUInt32 (-1))) cs.Items = [] := by
        apply staleIndices_eq_nil
        intro it hit
        rw [hI] at hit
        simp only [List.nil_append, List.mem_map] at hit
        obtain ⟨x, _, rfl⟩ := hit
        rfl
      have hitems : r.Items = cs.Items := by
        rw [hr]
        unfold finishChanges
        simp [hstale]
      have hret : r.ret = true := by rw [hr]; rfl
      have hreader : r.Reader = cs.Reader := by rw [hr]; rfl
      refine ⟨hret, ?_, ?_, ?_⟩
      · rw [hitems, hI]; simp
      · rw [hitems, hI]; simp [stampItem]
      · rw [hreader, hR]
  · rw [if_neg hn] at hr
    have h0 : w.Items = [] := List.eq_nil_of_length_eq_zero (by omega)
    subst hr
    simp [skipChanges, h0]

/-- C1 on a collection of two items without identity and one item with identity 7: the
receiver ends with three items that carry the identities 1, 2 and 7 and the payloads of the
sender. -/
theorem round_trip_into_empty_witness :
    (∀ p0 p tail, (wordCodec.load p0 ⟨wordCodec.save p ++ tail, false⟩).payload = p
      ∧ (wordCodec.load p0 ⟨wordCodec.save p ++ tail, false⟩).Reader = ⟨tail, false⟩)
    ∧ (∀ it ∈ exampleNewItems, IsInt32 it.ReplicationID)
    ∧ ((NetArrayDeltaSerializeWrite wordCodec false none exampleNewItems exampleNet []).Items.map
        (fun x => x.ReplicationID)).Nodup
    ∧ exampleNewItems.length ≤ 2048
    ∧ (NetArrayDeltaSerializeRead wordCodec [] exampleNet
        ⟨(NetArrayDeltaSerializeWrite wordCodec false none exampleNewItems exampleNet []).Writer
          ++ [], false⟩).Items.map (fun x => (x.ReplicationID, x.payload))
        = [(1, 10), (2, 11), (7, 12)] :=
  ⟨fun _ _ _ => ⟨rfl, rfl⟩, by decide, by decide, by decide,
    (round_trip_into_empty wordCodec exampleNewItems exampleNet exampleNet [] _ rfl _ rfl
      (fun _ _ _ => ⟨rfl, rfl⟩) (by decide) (by decide) (by decide)).2.2.1.trans (by decide)⟩

/-! ## Counters -/

theorem wrapInt32_succ_ne (x : Int) : wrapInt32 (x + 1) ≠ x := by
  unfold wrapInt32
  omega

/-- C19 (the replication key skips the sentinel): whatever the replication key of the
collection is, after `FNetArray::MarkDirty` it differs from its previous value and is not
`INDEX_NONE`; the position cache is empty, both cached item counts are `INDEX_NONE`, and the
id counter, the flags and the reference tracking table are those of the call. -/
theorem mark_dirty_skips_sentinel (a : FNetArray) :
    a.MarkDirty.ArrayReplicationKey ≠ a.ArrayReplicationKey
    ∧ a.MarkDirty.ArrayReplicationKey ≠ INDEX_NONE
    ∧ IsInt32 a.MarkDirty.ArrayReplicationKey
    ∧ a.MarkDirty.ItemMap = []
    ∧ a.MarkDirty.CachedItemCount = INDEX_NONE
    ∧ a.MarkDirty.CachedItemCountToConsiderForWriting = INDEX_NONE
    ∧ a.MarkDirty.IDCounter = a.IDCounter
    ∧ a.MarkDirty.Flags = a.Flags
    ∧ a.MarkDirty.GuidReferencesMap = a.GuidReferencesMap := by
  refine ⟨?_, ?_, ?_, rfl, rfl, rfl, rfl, rfl, rfl⟩
  · show (if wrapInt32 (a.ArrayReplicationKey + 1) = INDEX_NONE
        then wrapInt32 (wrapInt32 (a.ArrayReplicationKey + 1) + 1)
        else wrapInt32 (a.ArrayReplicationKey + 1)) ≠ a.ArrayReplicationKey
    unfold INDEX_NONE wrapInt32
    split <;> omega
  · show (if wrapInt32 (a.ArrayReplicationKey + 1) = INDEX_NONE
        then wrapInt32 (wrapInt32 (a.ArrayReplicationKey + 1) + 1)
        else wrapInt32 (a.ArrayReplicationKey + 1)) ≠ INDEX_NONE
    unfold INDEX_NONE wrapInt32
    split <;> omega
  · show IsInt32 (if wrapInt32 (a.ArrayReplicationKey + 1) = INDEX_NONE
        then wrapInt32 (wrapInt32 (a.ArrayReplicationKey + 1) + 1)
        else wrapInt32 (a.ArrayReplicationKey + 1))
    split <;> exact wrapInt32_isInt32 _

/-- C12, evaluated: with the id counter at -2, `FNetArrayItem::MarkDirty` gives an item without
identity the identity `++IDCounter = -1`, the sentinel itself, and only then moves the counter
on to 0; the `ReplicationKey` is incremented and the collection is marked dirty.  An item that
has an identity keeps it, and the id counter stays. -/
theorem mark_dirty_assigns_sentinel :
    (FNetArrayItem.MarkDirty (⟨-1, -1, -1, 10⟩ : FNetArrayItem Nat)
        ⟨0, [(5, 0)], -2, 7, [], 1, 1⟩).1 = ⟨INDEX_NONE, 0, -1, 10⟩
    ∧ (FNetArrayItem.MarkDirty (⟨-1, -1, -1, 10⟩ : FNetArrayItem Nat)
        ⟨0, [(5, 0)], -2, 7, [], 1, 1⟩).2 = ⟨0, [], 0, 8, [], -1, -1⟩
    ∧ (FNetArrayItem.MarkDirty (⟨5, 3, -1, 10⟩ : FNetArrayItem Nat)
        ⟨0, [(5, 0)], -2, 7, [], 1, 1⟩).1 = ⟨5, 4, -1, 10⟩
    ∧ (FNetArrayItem.MarkDirty (⟨5, 3, -1, 10⟩ : FNetArrayItem Nat)
        ⟨0, [(5, 0)], -2, 7, [], 1, 1⟩).2.IDCounter = -2 := by
  decide

/-! ## Write path: encodes that assign no identity -/

theorem diffStep_frame {P : Type} (OldMap : Option (TMap Int)) (client : Bool)
    (s : DiffState P) (item : FNetArrayItem P)
    (h : ShouldWriteItem item client = true → item.ReplicationID ≠ INDEX_NONE) :
    (diffStep OldMap client s item).Items = s.Items ++ [item]
    ∧ (diffStep OldMap client s item).Net = s.Net := by
  unfold diffStep
  by_cases hw : ShouldWriteItem item client = true
  · have hid := h hw
    simp only [hw, Bool.not_true, Bool.false_eq_true, if_false, if_neg hid]
    cases hf : oldValue OldMap item.ReplicationID with
    | none => exact ⟨rfl, rfl⟩
    | some v =>
      by_cases hv : v = item.ReplicationKey
      · simp [hv]
      · simp [hv]
  · have hw1 : ShouldWriteItem item client = false := by simpa using hw
    simp [hw1]

/-- When every eligible item has an identity, the diff loop leaves the items and the collection
as they are. -/
theorem diffItems_frame {P : Type} (OldMap : Option (TMap Int)) (client : Bool)
    (items : List (FNetArrayItem P)) (s : DiffState P)
    (h : ∀ x ∈ items, ShouldWriteItem x client = true → x.ReplicationID ≠ INDEX_NONE) :
    (diffItems OldMap client items s).Items = s.Items ++ items
    ∧ (diffItems OldMap client items s).Net = s.Net := by
  induction items generalizing s with
  | nil => simp [diffItems]
  | cons x rest ih =>
    have hstep := diffStep_frame OldMap client s x (h x (List.mem_cons_self _ _))
    have hrest := ih (diffStep OldMap client s x)
      (fun y hy => h y (List.mem_cons_of_mem _ hy))
    have hfold : diffItems OldMap client (x :: rest) s
        = diffItems OldMap client rest (diffStep OldMap client s x) := rfl
    rw [hfold, hrest.1, hrest.2, hstep.1, hstep.2]
    simp

theorem ShouldWriteItem_client {P : Type} (x : FNetArrayItem P) :
    ShouldWriteItem x true = true ↔ x.ReplicationID ≠ INDEX_NONE := by
  simp [ShouldWriteItem]

theorem writeDelta_frame {P : Type} (codec : ItemCodec P) (client : Bool)
    (OldState : Option FNetFastTArrayBaseState) (InItems : List (FNetArrayItem P))
    (InNetArray : FNetArray) (Writer : List Nat)
    (h : ∀ x ∈ InItems, ShouldWriteItem x client = true → x.ReplicationID ≠ INDEX_NONE) :
    (writeDelta codec client OldState InItems InNetArray Writer).Items = InItems
    ∧ (writeDelta codec client OldState InItems InNetArray Writer).Net = InNetArray := by
  have := diffItems_frame (OldState.map (fun S => S.IDToCLMap)) client InItems
    ⟨[], InNetArray, [], [],
      oldMapNum (OldState.map (fun S => S.IDToCLMap))
        - (CalculateItemCountForConsideration InItems client : Int)⟩ h
  simp only [List.nil_append] at this
  exact this

/-! ## Write path: the changed entries -/

theorem isChanged_iff {P : Type} (OldMap : Option (TMap Int)) (client : Bool)
    (x : FNetArrayItem P) :
    isChanged OldMap client x = true ↔
      ShouldWriteItem x client = true
      ∧ (oldValue OldMap x.ReplicationID = none
          ∨ ∃ v, oldValue OldMap x.ReplicationID = some v ∧ v ≠ x.ReplicationKey) := by
  unfold isChanged
  cases h : oldValue OldMap x.ReplicationID with
  | none => simp
  | some v => simp

theorem mem_changedOf_iff {P : Type} (OldMap : Option (TMap Int)) (client : Bool)
    (items : List (FNetArrayItem P)) (e : FIdxIDPair) :
    e ∈ changedOf OldMap client 0 items ↔
      ∃ x, items[e.Idx]? = some x ∧ x.ReplicationID = e.ID
        ∧ isChanged OldMap client x = true := by
  constructor
  · intro he
    obtain ⟨_, x, hx, hid, hc⟩ := changedOf_mem OldMap client 0 items e he
    exact ⟨x, by simpa using hx, hid, hc⟩
  · rintro ⟨x, hx, hid, hc⟩
    unfold changedOf
    rw [List.mem_filterMap]
    refine ⟨(e.Idx, x), ?_, ?_⟩
    · rw [List.mk_mem_enumFrom_iff_le_and_getElem?_sub]
      exact ⟨Nat.zero_le _, by simpa using hx⟩
    · simp only [hc, if_true]
      cases e
      simp only at hid
      rw [hid]

theorem changedOf_ascending {P : Type} (OldMap : Option (TMap Int)) (client : Bool)
    (start : Nat) (items : List (FNetArrayItem P)) :
    ((changedOf OldMap client start items).map (fun e => e.Idx)).Pairwise
      (fun a b => a < b) := by
  induction items generalizing start with
  | nil => simp [changedOf]
  | cons x rest ih =>
    rw [changedOf_cons, List.map_append, List.pairwise_append]
    refine ⟨?_, ih (start + 1), ?_⟩
    · split <;> simp
    · intro a ha b hb
      rw [List.mem_map] at hb
      obtain ⟨e, he, rfl⟩ := hb
      have := (changedOf_mem OldMap client (start + 1) rest e he).1
      split at ha
      · simp at ha
        omega
      · simp at ha

/-- C11 (changed-set classification): in a full-diff encode, a pair (position, identity) is a
changed entry exactly when the item that the encode leaves at that position has that identity,
is eligible, and the old snapshot holds no version for the identity or a version that differs
from the one of the item; the entries are listed in strictly ascending position, so that no
position is written twice; and the changed section of the record is the identity and the
encoded payload of exactly these items. -/
theorem changed_set_classification {P : Type} (codec : ItemCodec P) (client : Bool)
    (OldState : Option FNetFastTArrayBaseState) (InItems : List (FNetArrayItem P))
    (InNetArray : FNetArray) (Writer : List Nat) (w : WriteResult P)
    (hw : w = NetArrayDeltaSerializeWrite codec client OldState InItems InNetArray Writer)
    (hfull : ∀ S, OldState = some S → InNetArray.ArrayReplicationKey ≠ S.ArrayReplicationKey) :
    (∀ e, e ∈ w.ChangedElements ↔
      ∃ x, w.Items[e.Idx]? = some x ∧ x.ReplicationID = e.ID
        ∧ ShouldWriteItem x client = true
        ∧ (oldValue (OldState.map (fun S => S.IDToCLMap)) x.ReplicationID = none
            ∨ ∃ v, oldValue (OldState.map (fun S => S.IDToCLMap)) x.ReplicationID = some v
                ∧ v ≠ x.ReplicationKey))
    ∧ (w.ChangedElements.map (fun e => e.Idx)).Pairwise (fun a b => a < b)
    ∧ w.Writer = Writer
        ++ [toUInt32 w.Net.ArrayReplicationKey, toUInt32 (oldReplicationKey OldState),
            toUInt32 (w.DeletedElements.length : Int), toUInt32 (w.ChangedElements.length : Int)]
        ++ w.DeletedElements.map toUInt32
        ++ (w.Items.filter
              (fun x => isChanged (OldState.map (fun S => S.IDToCLMap)) client x)).flatMap
            (fun x => toUInt32 x.ReplicationID :: codec.save x.payload) := by
  rw [write_eq_writeDelta codec client OldState InItems InNetArray Writer hfull] at hw
  obtain ⟨_, _, _, _, hC, _, hW⟩ :=
    writeDelta_spec codec client OldState InItems InNetArray Writer w hw
  refine ⟨?_, ?_, ?_⟩
  · intro e
    rw [hC, mem_changedOf_iff]
    constructor
    · rintro ⟨x, hx, hid, hc⟩
      exact ⟨x, hx, hid, (isChanged_iff _ _ _).1 hc⟩
    · rintro ⟨x, hx, hid, hc⟩
      exact ⟨x, hx, hid, (isChanged_iff _ _ _).2 hc⟩
  · rw [hC]
    exact changedOf_ascending _ _ _ _
  · rw [hW]
    congr 1
    have := writeChanged_changedOf codec (OldState.map (fun S => S.IDToCLMap)) client [] w.Items
    simp only [List.nil_append, List.length_nil] at this
    rw [hC, this]

/-- C11 on the collection of three items diffed against the snapshot of five identities: the
only changed entry is position 1 with identity 3, whose version 1 differs from the version 0
of the snapshot. -/
theorem changed_set_classification_witness :
    (∀ S, some exampleOldState = some S →
        exampleSenderNet.ArrayReplicationKey ≠ S.ArrayReplicationKey)
    ∧ (NetArrayDeltaSerializeWrite wordCodec false (some exampleOldState) exampleSenderItems
        exampleSenderNet []).ChangedElements = [⟨1, 3⟩]
    ∧ ((NetArrayDeltaSerializeWrite wordCodec false (some exampleOldState) exampleSenderItems
        exampleSenderNet []).ChangedElements.map (fun e => e.Idx)).Pairwise
          (fun a b => a < b) :=
  ⟨fun S h => by cases h; decide, by decide,
    (changed_set_classification wordCodec false (some exampleOldState) exampleSenderItems
      exampleSenderNet [] _ rfl (fun S h => by cases h; decide)).2.1⟩

/-! ## Write path: the restricted peer -/

theorem scanDeleted_subset (NewMap m : TMap Int) (cnt : Int) (acc : List Int) (k : Int)
    (hk : k ∈ scanDeleted NewMap m cnt acc) : k ∈ acc ∨ k ∈ TMap.Keys m := by
  induction m generalizing cnt acc with
  | nil => exact Or.inl (by simpa [scanDeleted] using hk)
  | cons p m ih =>
    obtain ⟨k0, v0⟩ := p
    unfold scanDeleted at hk
    simp only [TMap.Keys, List.map_cons, List.mem_cons]
    split at hk
    · split at hk
      · rcases List.mem_append.1 hk with h | h
        · exact Or.inl h
        · simp at h; exact Or.inr (Or.inl h)
      · rcases ih _ _ hk with h | h
        · rcases List.mem_append.1 h with h1 | h1
          · exact Or.inl h1
          · simp at h1; exact Or.inr (Or.inl h1)
        · exact Or.inr (Or.inr h)
    · rcases ih _ _ hk with h | h
      · exact Or.inl h
      · exact Or.inr (Or.inr h)

theorem collectDeleted_subset (OldMap : Option (TMap Int)) (NewMap : TMap Int) (cnt : Int)
    (k : Int) (hk : k ∈ collectDeleted OldMap NewMap cnt) :
    ∃ m, OldMap = some m ∧ k ∈ TMap.Keys m := by
  unfold collectDeleted at hk
  cases OldMap with
  | none => simp at hk
  | some m =>
    dsimp only at hk
    split at hk
    · rcases scanDeleted_subset NewMap m cnt [] k hk with h | h
      · simp at h
      · exact ⟨m, rfl, h⟩
    · simp at hk

theorem scanDeleted_not_new (NewMap m : TMap Int) (cnt : Int) (acc : List Int) (k : Int)
    (hk : k ∈ scanDeleted NewMap m cnt acc) : k ∈ acc ∨ TMap.Contains NewMap k = false := by
  induction m generalizing cnt acc with
  | nil => exact Or.inl (by simpa [scanDeleted] using hk)
  | cons p m ih =>
    obtain ⟨k0, v0⟩ := p
    unfold scanDeleted at hk
    split at hk
    · rename_i hnew
      have hk0 : TMap.Contains NewMap k0 = false := by simpa using hnew
      split at hk
      · rcases List.mem_append.1 hk with h | h
        · exact Or.inl h
        · rw [List.mem_singleton.1 h]; exact Or.inr hk0
      · rcases ih _ _ hk with h | h
        · rcases List.mem_append.1 h with h1 | h1
          · exact Or.inl h1
          · rw [List.mem_singleton.1 h1]; exact Or.inr hk0
        · exact Or.inr h
    · exact ih _ _ hk

theorem collectDeleted_not_new (OldMap : Option (TMap Int)) (NewMap : TMap Int) (cnt : Int)
    (k : Int) (hk : k ∈ collectDeleted OldMap NewMap cnt) : k ∉ TMap.Keys NewMap := by
  unfold collectDeleted at hk
  cases OldMap with
  | none => simp at hk
  | some m =>
    dsimp only at hk
    split at hk
    · rcases scanDeleted_not_new NewMap m cnt [] k hk with h | h
      · simp at h
      · intro hmem
        rw [← TMap.Contains_iff, h] at hmem
        cases hmem
    · simp at hk

/-- C13 (counterexample): a restricted peer that holds an item without identity and an item
with the identity 7 encodes against an old snapshot that holds the identities 7 and 8.  The
record is `[5, 4, 1, 1, 8, 7, 12]`: its deleted section holds the identity 8, which no item
of the peer has. -/
theorem restricted_peer_writes_deleted_identity :
    (NetArrayDeltaSerializeWrite wordCodec true (some exampleRestrictedOldState)
        exampleRestrictedItems exampleRestrictedNet []).Writer = [5, 4, 1, 1, 8, 7, 12]
    ∧ (NetArrayDeltaSerializeWrite wordCodec true (some exampleRestrictedOldState)
        exampleRestrictedItems exampleRestrictedNet []).DeletedElements = [8]
    ∧ ∀ x ∈ exampleRestrictedItems, x.ReplicationID ≠ 8 := by
  decide

/-- C13 (amended; eligibility and the frame of a restricted peer): an item is eligible exactly
when the writer is the privileged peer or the item has an identity; an encode by a restricted
peer leaves every item as it is, and with it the id counter, the replication key and the
position cache of the collection; every changed entry names a position whose item had the
written identity, not the sentinel, before the call; every deleted identity is a key of the
old snapshot and is not the identity of any item that has one; and the record, when one is
written, holds the header, the deleted identities and the changed entries and nothing else. -/
theorem restricted_peer_frame {P : Type} (codec : ItemCodec P)
    (OldState : Option FNetFastTArrayBaseState) (InItems : List (FNetArrayItem P))
    (InNetArray : FNetArray) (Writer : List Nat) (w : WriteResult P)
    (hw : w = NetArrayDeltaSerializeWrite codec true OldState InItems InNetArray Writer) :
    (∀ (x : FNetArrayItem P) (client : Bool),
      ShouldWriteItem x client = true ↔ (client = false ∨ x.ReplicationID ≠ INDEX_NONE))
    ∧ w.Items = InItems
    ∧ w.Net.IDCounter = InNetArray.IDCounter
    ∧ w.Net.ArrayReplicationKey = InNetArray.ArrayReplicationKey
    ∧ w.Net.ItemMap = InNetArray.ItemMap
    ∧ (∀ e ∈ w.ChangedElements,
        ∃ x, InItems[e.Idx]? = some x ∧ x.ReplicationID = e.ID
          ∧ x.ReplicationID ≠ INDEX_NONE)
    ∧ (∀ k ∈ w.DeletedElements,
        (∃ S, OldState = some S ∧ k ∈ TMap.Keys S.IDToCLMap)
        ∧ ∀ x ∈ InItems, x.ReplicationID ≠ INDEX_NONE → x.ReplicationID ≠ k)
    ∧ ((w.Writer = Writer ∧ w.ChangedElements = [] ∧ w.DeletedElements = [])
      ∨ w.Writer = Writer
          ++ [toUInt32 w.Net.ArrayReplicationKey, toUInt32 (oldReplicationKey OldState),
              toUInt32 (w.DeletedElements.length : Int),
              toUInt32 (w.ChangedElements.length : Int)]
          ++ w.DeletedElements.map toUInt32
          ++ writeChanged codec w.Items w.ChangedElements) := by
  refine ⟨?_, ?_⟩
  · intro x client
    cases client <;> simp [ShouldWriteItem]
  · unfold NetArrayDeltaSerializeWrite at hw
    split at hw
    · subst hw
      unfold writeNothing
      dsimp only
      refine ⟨rfl, ?_, ?_, ?_, by simp, by simp, Or.inl ⟨rfl, rfl, rfl⟩⟩ <;> split <;> rfl
    · have hframe := writeDelta_frame codec true OldState InItems InNetArray Writer
        (fun x _ hx => (ShouldWriteItem_client x).1 hx)
      obtain ⟨_, _, _, hN, hC, hD, hW⟩ :=
        writeDelta_spec codec true OldState InItems InNetArray Writer w hw
      rw [← hw] at hframe
      refine ⟨hframe.1, by rw [hframe.2], by rw [hframe.2], by rw [hframe.2], ?_, ?_,
        Or.inr hW⟩
      · intro e he
        rw [hC] at he
        obtain ⟨x, hx, hid, hc⟩ := (mem_changedOf_iff _ _ _ _).1 he
        rw [hframe.1] at hx
        exact ⟨x, hx, hid, (ShouldWriteItem_client x).1 ((isChanged_iff _ _ _).1 hc).1⟩
      · intro k hk
        rw [hD] at hk
        refine ⟨?_, ?_⟩
        · obtain ⟨m, hm, hkm⟩ := collectDeleted_subset _ _ _ k hk
          cases OldState with
          | none => simp at hm
          | some S =>
            simp only [Option.map_some', Option.some.injEq] at hm
            exact ⟨S, rfl, by rw [hm]; exact hkm⟩
        · intro x hx hid hxk
          have hnot := collectDeleted_not_new _ _ _ k hk
          apply hnot
          rw [hN, Keys_foldl_Add]
          right
          rw [← hxk]
          refine List.mem_map_of_mem _ (List.mem_filter.2 ⟨?_, ?_⟩)
          · rw [hframe.1]; exact hx
          · exact (ShouldWriteItem_client x).2 hid

/-- C13 on a restricted peer that holds an item without identity and an item with the
identity 7, against an old snapshot that holds the identities 7 and 8: both items are left as
they are, the changed section names the identity 7 and the deleted section the identity 8. -/
theorem restricted_peer_frame_witness :
    (NetArrayDeltaSerializeWrite wordCodec true (some exampleRestrictedOldState)
        exampleRestrictedItems exampleRestrictedNet []).Items = exampleRestrictedItems
    ∧ (∀ k ∈ (NetArrayDeltaSerializeWrite wordCodec true (some exampleRestrictedOldState)
          exampleRestrictedItems exampleRestrictedNet []).DeletedElements,
        (∃ S, some exampleRestrictedOldState = some S ∧ k ∈ TMap.Keys S.IDToCLMap)
        ∧ ∀ x ∈ exampleRestrictedItems, x.ReplicationID ≠ INDEX_NONE → x.ReplicationID ≠ k)
    ∧ (NetArrayDeltaSerializeWrite wordCodec true (some exampleRestrictedOldState)
        exampleRestrictedItems exampleRestrictedNet []).ChangedElements = [⟨1, 7⟩]
    ∧ (NetArrayDeltaSerializeWrite wordCodec true (some exampleRestrictedOldState)
        exampleRestrictedItems exampleRestrictedNet []).DeletedElements = [8]
    ∧ (NetArrayDeltaSerializeWrite wordCodec true none
        [⟨-1, -1, -1, 10⟩, ⟨7, 3, -1, 12⟩] exampleNet []).Writer
        = [0, 4294967295, 0, 1, 7, 12] :=
  ⟨(restricted_peer_frame wordCodec (some exampleRestrictedOldState) exampleRestrictedItems
      exampleRestrictedNet [] _ rfl).2.1,
    (restricted_peer_frame wordCodec (some exampleRestrictedOldState) exampleRestrictedItems
      exampleRestrictedNet [] _ rfl).2.2.2.2.2.2.1,
    by decide, by decide, by decide⟩

/-! ## Write path: two encodes against the same old snapshot -/

/-- Two full diffs that leave the same items and the same collection produce the same record
and the same snapshot. -/
theorem writeDelta_determined {P : Type} (codec : ItemCodec P) (client : Bool)
    (OldState : Option FNetFastTArrayBaseState) (Items1 Items2 : List (FNetArrayItem P))
    (Net1 Net2 : FNetArray) (Writer : List Nat) (w1 w2 : WriteResult P)
    (h1 : w1 = writeDelta codec client OldState Items1 Net1 Writer)
    (h2 : w2 = writeDelta codec client OldState Items2 Net2 Writer)
    (hI : w2.Items = w1.Items) (hN : w2.Net = w1.Net) :
    w2.ret = w1.ret ∧ w2.Writer = w1.Writer ∧ w2.NewState = w1.NewState
    ∧ w2.ChangedElements = w1.ChangedElements ∧ w2.DeletedElements = w1.DeletedElements := by
  obtain ⟨hr1, _, _, hM1, hC1, hD1, hW1⟩ :=
    writeDelta_spec codec client OldState Items1 Net1 Writer w1 h1
  obtain ⟨hr2, _, _, hM2, hC2, hD2, hW2⟩ :=
    writeDelta_spec codec client OldState Items2 Net2 Writer w2 h2
  have hM : w2.NewState.IDToCLMap = w1.NewState.IDToCLMap := by rw [hM1, hM2, hI]
  have hC : w2.ChangedElements = w1.ChangedElements := by rw [hC1, hC2, hI]
  have hD : w2.DeletedElements = w1.DeletedElements := by rw [hD1, hD2, hI, hM]
  have hK1 : w1.NewState.ArrayReplicationKey = w1.Net.ArrayReplicationKey := by
    rw [h1]; rfl
  have hK2 : w2.NewState.ArrayReplicationKey = w2.Net.ArrayReplicationKey := by
    rw [h2]; rfl
  refine ⟨by rw [hr1, hr2], ?_, ?_, hC, hD⟩
  · rw [hW1, hW2, hI, hN, hC, hD]
  · cases hs1 : w1.NewState with
    | mk m1 k1 =>
      cases hs2 : w2.NewState with
      | mk m2 k2 =>
        rw [hs1, hs2] at hM
        rw [hs1] at hK1
        rw [hs2] at hK2
        simp only at hM hK1 hK2
        rw [hM, hK1, hK2, hN]

/-- C15 as amended (idempotent encoding for a fixed old snapshot): when the first encode leaves
every eligible item with an identity other than the sentinel and, if it was a full diff against
an old snapshot, leaves the replication key of the collection different from the one of that
snapshot, a second encode against the same old snapshot returns the same value and produces
the same bytes, the same output snapshot and the same items. -/
theorem encode_twice_same {P : Type} (codec : ItemCodec P) (client : Bool)
    (OldState : Option FNetFastTArrayBaseState) (InItems : List (FNetArrayItem P))
    (InNetArray : FNetArray) (Writer : List Nat) (w1 w2 : WriteResult P)
    (h1 : w1 = NetArrayDeltaSerializeWrite codec client OldState InItems InNetArray Writer)
    (h2 : w2 = NetArrayDeltaSerializeWrite codec client OldState w1.Items w1.Net Writer)
    (hid : ∀ x ∈ w1.Items, ShouldWriteItem x client = true → x.ReplicationID ≠ INDEX_NONE)
    (hkey : ∀ S, OldState = some S →
      InNetArray.ArrayReplicationKey ≠ S.ArrayReplicationKey →
      w1.Net.ArrayReplicationKey ≠ S.ArrayReplicationKey) :
    w2.ret = w1.ret ∧ w2.Writer = w1.Writer ∧ w2.NewState = w1.NewState
    ∧ w2.Items = w1.Items
    ∧ w2.ChangedElements = w1.ChangedElements ∧ w2.DeletedElements = w1.DeletedElements := by
  by_cases hfull : ∀ S, OldState = some S →
      InNetArray.ArrayReplicationKey ≠ S.ArrayReplicationKey
  · rw [write_eq_writeDelta codec client OldState InItems InNetArray Writer hfull] at h1
    have hfull2 : ∀ S, OldState = some S →
        w1.Net.ArrayReplicationKey ≠ S.ArrayReplicationKey :=
      fun S hS => hkey S hS (hfull S hS)
    rw [write_eq_writeDelta codec client OldState w1.Items w1.Net Writer hfull2] at h2
    have hframe := writeDelta_frame codec client OldState w1.Items w1.Net Writer hid
    rw [← h2] at hframe
    obtain ⟨a, b, c, d, e⟩ := writeDelta_determined codec client OldState InItems w1.Items
      InNetArray w1.Net Writer w1 w2 h1 h2 hframe.1 hframe.2
    exact ⟨a, b, c, hframe.1, d, e⟩
  · have hex : ∃ S, OldState = some S
        ∧ InNetArray.ArrayReplicationKey = S.ArrayReplicationKey := by
      by_contra hne
      apply hfull
      intro S hS heq
      exact hne ⟨S, hS, heq⟩
    obtain ⟨S, hS, heq⟩ := hex
    subst hS
    have hfast1 : w1 = writeNothing client InItems InNetArray Writer := by
      rw [h1]
      unfold NetArrayDeltaSerializeWrite
      simp [oldReplicationKey, heq]
    have hk1 : w1.Net.ArrayReplicationKey = S.ArrayReplicationKey := by
      rw [hfast1]
      unfold writeNothing
      dsimp only
      split <;> exact heq
    have hfast2 : w2 = writeNothing client w1.Items w1.Net Writer := by
      rw [h2]
      unfold NetArrayDeltaSerializeWrite
      simp [oldReplicationKey, hk1]
    rw [hfast2]
    refine ⟨?_, ?_, ?_, rfl, ?_, ?_⟩
    · rw [hfast1]; rfl
    · rw [hfast1]; rfl
    · show (⟨[], w1.Net.ArrayReplicationKey⟩ : FNetFastTArrayBaseState) = w1.NewState
      rw [hk1, hfast1]
      show _ = (⟨[], InNetArray.ArrayReplicationKey⟩ : FNetFastTArrayBaseState)
      rw [heq]
    · rw [hfast1]; rfl
    · rw [hfast1]; rfl

/-- C15 as stated fails: a privileged writer whose collection is at replication key 4 encodes
an item without identity against an old snapshot taken at key 5; the first encode assigns the
identity, which moves the key to 5, and writes a record; the second encode against the same
old snapshot finds the keys equal, returns `false` and writes nothing. -/
theorem encode_twice_counterexample :
    (NetArrayDeltaSerializeWrite wordCodec false (some ⟨[], 5⟩)
        [⟨-1, -1, -1, 10⟩] ⟨0, [], 0, 4, [], -1, -1⟩ []).ret = none
    ∧ (NetArrayDeltaSerializeWrite wordCodec false (some ⟨[], 5⟩)
        [⟨-1, -1, -1, 10⟩] ⟨0, [], 0, 4, [], -1, -1⟩ []).Writer = [5, 5, 0, 1, 1, 10]
    ∧ (NetArrayDeltaSerializeWrite wordCodec false (some ⟨[], 5⟩)
        (NetArrayDeltaSerializeWrite wordCodec false (some ⟨[], 5⟩)
          [⟨-1, -1, -1, 10⟩] ⟨0, [], 0, 4, [], -1, -1⟩ []).Items
        (NetArrayDeltaSerializeWrite wordCodec false (some ⟨[], 5⟩)
          [⟨-1, -1, -1, 10⟩] ⟨0, [], 0, 4, [], -1, -1⟩ []).Net []).ret = some false
    ∧ (NetArrayDeltaSerializeWrite wordCodec false (some ⟨[], 5⟩)
        (NetArrayDeltaSerializeWrite wordCodec false (some ⟨[], 5⟩)
          [⟨-1, -1, -1, 10⟩] ⟨0, [], 0, 4, [], -1, -1⟩ []).Items
        (NetArrayDeltaSerializeWrite wordCodec false (some ⟨[], 5⟩)
          [⟨-1, -1, -1, 10⟩] ⟨0, [], 0, 4, [], -1, -1⟩ []).Net []).Writer = [] := by
  decide

/-- C15 as amended, on the collection of two items without identity and one item with
identity 7, encoded twice without an old snapshot: both encodes write the same record. -/
theorem encode_twice_same_witness :
    (∀ x ∈ (NetArrayDeltaSerializeWrite wordCodec false none exampleNewItems exampleNet []).Items,
        ShouldWriteItem x false = true → x.ReplicationID ≠ INDEX_NONE)
    ∧ (NetArrayDeltaSerializeWrite wordCodec false none
        (NetArrayDeltaSerializeWrite wordCodec false none exampleNewItems exampleNet []).Items
        (NetArrayDeltaSerializeWrite wordCodec false none exampleNewItems exampleNet []).Net
        []).Writer
      = (NetArrayDeltaSerializeWrite wordCodec false none exampleNewItems exampleNet []).Writer :=
  ⟨by decide,
    (encode_twice_same wordCodec false none exampleNewItems exampleNet [] _ _ rfl rfl
      (by decide) (fun S h => by cases h)).2.1⟩

/-! ## The bounds of the decoder and the encoder -/

/-- C18, evaluated: a privileged writer without an old snapshot encodes a collection of 2049
items; the record announces 2049 changed entries, and the decoder rejects it at the bound
check of the changed count. -/
theorem encoder_exceeds_decoder_bound :
    (NetArrayDeltaSerializeWrite wordCodec false none
        (List.replicate 2049 (⟨-1, -1, -1, 0⟩ : FNetArrayItem Nat)) exampleNet
        []).ChangedElements.length = 2049
    ∧ (NetArrayDeltaSerializeRead wordCodec [] exampleNet
        ⟨(NetArrayDeltaSerializeWrite wordCodec false none
          (List.replicate 2049 (⟨-1, -1, -1, 0⟩ : FNetArrayItem Nat)) exampleNet []).Writer,
          false⟩).exit = ReadExit.changedBound
    ∧ (NetArrayDeltaSerializeRead wordCodec [] exampleNet
        ⟨(NetArrayDeltaSerializeWrite wordCodec false none
          (List.replicate 2049 (⟨-1, -1, -1, 0⟩ : FNetArrayItem Nat)) exampleNet []).Writer,
          false⟩).ret = false := by
  obtain ⟨hlen, _, hW, hC⟩ := write_first_record wordCodec
    (List.replicate 2049 (⟨-1, -1, -1, 0⟩ : FNetArrayItem Nat)) exampleNet _ rfl
    (by rw [List.length_replicate]; decide)
  rw [List.length_replicate] at hlen
  rw [hlen] at hW hC
  refine ⟨hC, ?_, ?_⟩
  · rw [hW, read_record]
    rfl
  · rw [hW, read_record]
    rfl

/-! ## Read path: a decode that stops inside the loop over the changed entries -/

/-- C17, evaluated: the receiver holds the items 1, 2 and 3; item 1 was last seen at key 7;
the record has the previous key 5, the current key 10, names identity 1 in its deleted
section and identity 2 in its changed section.  Position 0 is recorded twice, once for the
deleted identity and once by the stale item sweep, the removal loop swap-removes position 0
twice, and item 3, which the record does not name and the sweep did not select, is gone. -/
theorem removal_takes_unrelated_item :
    (NetArrayDeltaSerializeRead wordCodec
        [⟨1, 0, 7, 11⟩, ⟨2, 0, 5, 12⟩, ⟨3, 0, 5, 13⟩] exampleNet
        ⟨[10, 5, 1, 1, 1, 2, 99], false⟩).ret = true
    ∧ (NetArrayDeltaSerializeRead wordCodec
        [⟨1, 0, 7, 11⟩, ⟨2, 0, 5, 12⟩, ⟨3, 0, 5, 13⟩] exampleNet
        ⟨[10, 5, 1, 1, 1, 2, 99], false⟩).DeletedIndices = [0, 0]
    ∧ staleIndices 10 5
        (NetArrayDeltaSerializeRead wordCodec
          [⟨1, 0, 7, 11⟩, ⟨2, 0, 5, 12⟩, ⟨3, 0, 5, 13⟩] exampleNet
          ⟨[10, 5, 1, 1, 1, 2, 99], false⟩).PreRemoveItems = [0]
    ∧ (NetArrayDeltaSerializeRead wordCodec
        [⟨1, 0, 7, 11⟩, ⟨2, 0, 5, 12⟩, ⟨3, 0, 5, 13⟩] exampleNet
        ⟨[10, 5, 1, 1, 1, 2, 99], false⟩).PreRemoveItems
        = [⟨1, 0, 7, 11⟩, ⟨2, 1, 10, 99⟩, ⟨3, 0, 5, 13⟩]
    ∧ (NetArrayDeltaSerializeRead wordCodec
        [⟨1, 0, 7, 11⟩, ⟨2, 0, 5, 12⟩, ⟨3, 0, 5, 13⟩] exampleNet
        ⟨[10, 5, 1, 1, 1, 2, 99], false⟩).Items = [⟨2, 1, 10, 99⟩] := by
  decide

/-! ## Read path: soundness of the position cache -/

theorem rebuildItemMap_keys_mono {P : Type} (rest : List (FNetArrayItem P)) (i : Nat)
    (m : TMap Nat) (k : Int) (hk : k ∈ TMap.Keys m) :
    k ∈ TMap.Keys (rebuildItemMap rest i m) := by
  induction rest generalizing i m with
  | nil => exact hk
  | cons x rest ih =>
    unfold rebuildItemMap
    split
    · exact ih _ _ hk
    · exact ih _ _ ((TMap.Keys_Add _ _ _ _).2 (Or.inl hk))

theorem rebuildItemMap_complete {P : Type} (rest : List (FNetArrayItem P)) (i : Nat)
    (m : TMap Nat) (x : FNetArrayItem P) (hx : x ∈ rest)
    (hid : x.ReplicationID ≠ INDEX_NONE) :
    x.ReplicationID ∈ TMap.Keys (rebuildItemMap rest i m) := by
  induction rest generalizing i m with
  | nil => cases hx
  | cons y rest ih =>
    unfold rebuildItemMap
    rcases List.mem_cons.1 hx with h | h
    · subst h
      rw [if_neg hid]
      exact rebuildItemMap_keys_mono _ _ _ _ ((TMap.Keys_Add _ _ _ _).2 (Or.inr rfl))
    · split
      · exact ih _ _ h
      · exact ih _ _ h

theorem CacheSound_nil {P : Type} (Items : List (FNetArrayItem P)) :
    CacheSound ([] : TMap Nat) Items := by
  intro p hp
  cases hp

theorem applyChanges_sound {P : Type} (codec : ItemCodec P) (k o : Int) (c : Nat)
    (InItems : List (FNetArrayItem P)) (Net : FNetArray) (ds : DeletedLoopState)
    (h : CacheSound Net.ItemMap InItems) :
    CacheSound (applyChanges codec k o c InItems Net ds).Net.ItemMap
        (applyChanges codec k o c InItems Net ds).Items
    ∧ ((applyChanges codec k o c InItems Net ds).Items
          ≠ (applyChanges codec k o c InItems Net ds).PreRemoveItems →
        (applyChanges codec k o c InItems Net ds).Net.ItemMap = []) := by
  have hs := readChangedItems_sound codec k c
    (⟨ds.Reader, InItems, Net.ItemMap, ds.GuidReferencesMap, [], [], [], false, false⟩ :
      ChangedLoopState P) h
  unfold applyChanges
  cases hl : readChangedItems codec k c
      (⟨ds.Reader, InItems, Net.ItemMap, ds.GuidReferencesMap, [], [], [], false, false⟩ :
        ChangedLoopState P) with
  | mk e cs =>
    rw [hl] at hs
    cases e with
    | some e => exact ⟨hs, fun hne => absurd rfl hne⟩
    | none =>
      dsimp only
      unfold finishChanges
      dsimp only
      by_cases hD : (ds.DeletedIndices ++ staleIndices k o cs.Items).length > 0
      · simp only [hD, if_true]
        exact ⟨CacheSound_nil _, fun _ => trivial⟩
      · simp only [hD, if_false]
        refine ⟨?_, fun hne => absurd rfl hne⟩
        split <;> exact hs

/-- C20 (soundness of the position cache): when the decode is entered with a position cache
whose size differs from the number of items, or with a sound one, then however it returns
the position cache is sound for the item sequence it leaves; a cache that is rebuilt on entry
has an entry for every item with an identity; and when the sequence left differs from the
sequence before the removal, the cache is empty. -/
theorem cache_sound_after_decode {P : Type} (codec : ItemCodec P)
    (InItems : List (FNetArrayItem P)) (InNetArray : FNetArray) (Reader : FBitReader)
    (r : ReadResult P)
    (hr : r = NetArrayDeltaSerializeRead codec InItems InNetArray Reader)
    (hcache : InNetArray.ItemMap.length ≠ InItems.length
      ∨ CacheSound InNetArray.ItemMap InItems) :
    CacheSound r.Net.ItemMap r.Items
    ∧ (InNetArray.ItemMap.length ≠ InItems.length →
        (prepareItemMap InItems InNetArray).ItemMap = rebuildItemMap InItems 0 []
        ∧ ∀ x ∈ InItems, x.ReplicationID ≠ INDEX_NONE →
            x.ReplicationID ∈ TMap.Keys (prepareItemMap InItems InNetArray).ItemMap)
    ∧ (r.Items ≠ r.PreRemoveItems → r.Net.ItemMap = []) := by
  have hprep := prepareItemMap_sound InItems InNetArray hcache
  refine ⟨?_, ?_, ?_⟩
  · unfold NetArrayDeltaSerializeRead at hr
    dsimp only at hr
    split at hr
    · subst hr; exact hprep
    · split at hr
      · subst hr; exact hprep
      · unfold applyRecord at hr
        dsimp only at hr
        split at hr
        · subst hr
          exact (applyChanges_sound codec _ _ _ InItems _ _ hprep).1
        · subst hr; exact hprep
  · intro hne
    have hmap : (prepareItemMap InItems InNetArray).ItemMap = rebuildItemMap InItems 0 [] := by
      unfold prepareItemMap
      rw [if_pos hne]
    refine ⟨hmap, ?_⟩
    intro x hx hid
    rw [hmap]
    exact rebuildItemMap_complete InItems 0 [] x hx hid
  · unfold NetArrayDeltaSerializeRead at hr
    dsimp only at hr
    split at hr
    · subst hr; exact fun hne => absurd rfl hne
    · split at hr
      · subst hr; exact fun hne => absurd rfl hne
      · unfold applyRecord at hr
        dsimp only at hr
        split at hr
        · subst hr
          exact (applyChanges_sound codec _ _ _ InItems _ _ hprep).2
        · subst hr; exact fun hne => absurd rfl hne

/-- C20 on the record with one deleted identity, one changed and one added item: the cache is
rebuilt on entry, two positions are removed, and the cache is empty on return. -/
theorem cache_sound_after_decode_witness :
    (exampleNet.ItemMap.length ≠ exampleItems.length
        ∨ CacheSound exampleNet.ItemMap exampleItems)
    ∧ CacheSound
        (NetArrayDeltaSerializeRead wordCodec exampleItems exampleNet
          ⟨[10, 5, 1, 2, 8, 8, 100, 9, 99], false⟩).Net.ItemMap
        (NetArrayDeltaSerializeRead wordCodec exampleItems exampleNet
          ⟨[10, 5, 1, 2, 8, 8, 100, 9, 99], false⟩).Items
    ∧ (NetArrayDeltaSerializeRead wordCodec exampleItems exampleNet
        ⟨[10, 5, 1, 2, 8, 8, 100, 9, 99], false⟩).Net.ItemMap = [] :=
  ⟨Or.inl (by decide),
    (cache_sound_after_decode wordCodec exampleItems exampleNet
      ⟨[10, 5, 1, 2, 8, 8, 100, 9, 99], false⟩ _ rfl (Or.inl (by decide))).1,
    (cache_sound_after_decode wordCodec exampleItems exampleNet
      ⟨[10, 5, 1, 2, 8, 8, 100, 9, 99], false⟩ _ rfl (Or.inl (by decide))).2.2 (by decide)⟩

/-! ## The sweep over the reference tracking table -/

theorem TMap.Find_Remove_ne {V : Type} (m : TMap V) (k k1 : Int) (h : k1 ≠ k) :
    TMap.Find (TMap.Remove m k1) k = TMap.Find m k := by
  induction m with
  | nil => rfl
  | cons p m ih =>
    obtain ⟨k2, v2⟩ := p
    unfold TMap.Remove at ih ⊢
    by_cases h2 : k2 = k1
    · subst h2
      simp only [List.filter_cons, decide_True, Bool.not_true, Bool.false_eq_true, if_false]
      rw [ih]
      simp only [TMap.Find, if_neg h]
    · simp only [List.filter_cons, h2, decide_False, Bool.not_false, if_true]
      simp only [TMap.Find, ih]

theorem TMap.Find_Remove_self {V : Type} (m : TMap V) (k : Int) :
    TMap.Find (TMap.Remove m k) k = none := by
  rw [TMap.Find_none_iff]
  simp [TMap.Keys, TMap.Remove, List.mem_filter]

theorem TMap.Find_Add_ne {V : Type} (m : TMap V) (k k1 : Int) (v : V) (h : k1 ≠ k) :
    TMap.Find (TMap.Add m k1 v) k = TMap.Find m k := by
  induction m with
  | nil => simp only [TMap.Add, TMap.Find, if_neg h]
  | cons p m ih =>
    obtain ⟨k2, v2⟩ := p
    unfold TMap.Add
    by_cases h2 : k2 = k1
    · subst h2
      simp only [if_true, TMap.Find, if_neg h]
    · simp only [if_neg h2, TMap.Find, ih]

theorem TMap.Find_Add_self {V : Type} (m : TMap V) (k : Int) (v : V) :
    TMap.Find (TMap.Add m k v) k = some v := by
  induction m with
  | nil => simp only [TMap.Add, TMap.Find, if_true]
  | cons p m ih =>
    obtain ⟨k2, v2⟩ := p
    unfold TMap.Add
    by_cases h2 : k2 = k
    · subst h2
      simp only [if_true, TMap.Find]
    · simp only [if_neg h2, TMap.Find, ih]

theorem TMap.Find_split {V : Type} (m : TMap V) (k : Int) (v : V)
    (h : TMap.Find m k = some v) (hn : (TMap.Keys m).Nodup) :
    ∃ pre post, m = pre ++ (k, v) :: post ∧ (∀ p ∈ pre, p.1 ≠ k) ∧ (∀ p ∈ post, p.1 ≠ k) := by
  induction m with
  | nil => simp [TMap.Find] at h
  | cons p m ih =>
    obtain ⟨k2, v2⟩ := p
    simp only [TMap.Keys, List.map_cons, List.nodup_cons] at hn
    unfold TMap.Find at h
    by_cases h2 : k2 = k
    · subst h2
      rw [if_pos rfl] at h
      cases h
      refine ⟨[], m, rfl, by simp, ?_⟩
      intro p hp heq
      exact hn.1 (heq ▸ List.mem_map_of_mem Prod.fst hp)
    · rw [if_neg h2] at h
      obtain ⟨pre, post, hm, hpre, hpost⟩ := ih h hn.2
      refine ⟨(k2, v2) :: pre, post, by rw [hm]; rfl, ?_, hpost⟩
      intro p hp
      rcases List.mem_cons.1 hp with h3 | h3
      · subst h3; exact h2
      · exact hpre p h3

theorem updateUnmappedGuids_single (Map : PackageMap) (g : FFastArraySerializerGuidReferences)
    (h : Nat) (hone : g.UnmappedGUIDs = [h]) (hnone : g.MappedDynamicGUIDs = [])
    (hbroken : Map.IsGUIDBroken h = false) (hres : (Map.GetObjectFromNetGUID h).isSome = true) :
    updateUnmappedGuids Map g = ⟨[], if Map.IsDynamic h then [h] else [], true⟩ := by
  unfold updateUnmappedGuids
  rw [hone, hnone]
  simp only [List.foldl_cons, List.foldl_nil, updateUnmappedGuid, hbroken, hres,
    Bool.false_eq_true, if_false, if_true, TSet.Remove, TSet.Add]
  simp

theorem redecodeElement_spec {P : Type} (codec : ItemCodec P) (ItemMap : TMap Nat) (k : Int)
    (g : FFastArraySerializerGuidReferences) (s : UpdateUnmappedState P) (e : Nat)
    (hsound : CacheSound ItemMap s.Items) (hf : TMap.Find ItemMap k = some e) :
    ∃ x : FNetArrayItem P, s.Items[e]? = some x ∧ x.ReplicationID = k ∧
      redecodeElement codec ItemMap k g s =
        { s with
          Items := s.Items.set e
            { x with payload := (codec.load x.payload ⟨g.Buffer.take g.NumBufferBits, false⟩).payload },
          Notifications := s.Notifications ++ [Notification.PostReplicatedChange
            { x with payload := (codec.load x.payload ⟨g.Buffer.take g.NumBufferBits, false⟩).payload }],
          bOutSomeObjectsWereMapped := true,
          bCalledPreNetReceive := true } := by
  obtain ⟨x, hx, hid⟩ := CacheSound_entry ItemMap s.Items hsound k e hf
  refine ⟨x, hx, hid, ?_⟩
  unfold redecodeElement
  simp only [hf, hx]

theorem redecodeElement_frame {P : Type} (codec : ItemCodec P) (ItemMap : TMap Nat) (k : Int)
    (g : FFastArraySerializerGuidReferences) (s : UpdateUnmappedState P) (e : Nat)
    (id : Int) (idx : Nat)
    (hsound : CacheSound ItemMap s.Items) (hf : TMap.Find ItemMap k = some e)
    (hne : k ≠ id) (hidx : TMap.Find ItemMap id = some idx) :
    (redecodeElement codec ItemMap k g s).exit = s.exit ∧
    CacheSound ItemMap (redecodeElement codec ItemMap k g s).Items ∧
    (redecodeElement codec ItemMap k g s).Items[idx]? = s.Items[idx]? ∧
    (redecodeElement codec ItemMap k g s).Notifications.filter (isChangeOf id) =
      s.Notifications.filter (isChangeOf id) ∧
    (redecodeElement codec ItemMap k g s).GuidReferencesMap = s.GuidReferencesMap := by
  obtain ⟨x, hx, hid, heq⟩ := redecodeElement_spec codec ItemMap k g s e hsound hf
  obtain ⟨y, hy, hyid⟩ := CacheSound_entry ItemMap s.Items hsound id idx hidx
  rw [heq]
  refine ⟨rfl, CacheSound_set ItemMap s.Items hsound e x _ hx rfl, ?_, ?_, rfl⟩
  · have hei : e ≠ idx := by
      intro h
      subst h
      rw [hx] at hy
      cases hy
      exact hne (hid.symm.trans hyid)
    simp only [List.getElem?_set, if_neg hei]
  · simp only [List.filter_append, List.filter_cons, List.filter_nil, isChangeOf, hid, hne,
      decide_False, Bool.false_eq_true, if_false, List.append_nil]

theorem updateUnmappedRecord_frame {P : Type} (codec : ItemCodec P) (Map : PackageMap)
    (ItemMap : TMap Nat) (s : UpdateUnmappedState P)
    (pair : Int × FFastArraySerializerGuidReferences) (id : Int) (idx : Nat)
    (hexit : s.exit = ReadExit.done) (hsound : CacheSound ItemMap s.Items)
    (hne : pair.1 ≠ id) (hidx : TMap.Find ItemMap id = some idx) :
    (updateUnmappedRecord codec Map ItemMap s pair).exit = ReadExit.done ∧
    CacheSound ItemMap (updateUnmappedRecord codec Map ItemMap s pair).Items ∧
    (updateUnmappedRecord codec Map ItemMap s pair).Items[idx]? = s.Items[idx]? ∧
    (updateUnmappedRecord codec Map ItemMap s pair).Notifications.filter (isChangeOf id) =
      s.Notifications.filter (isChangeOf id) ∧
    TMap.Find (updateUnmappedRecord codec Map ItemMap s pair).GuidReferencesMap id =
      TMap.Find s.GuidReferencesMap id := by
  unfold updateUnmappedRecord
  simp only [hexit, ne_eq, not_true_eq_false, if_false]
  split
  · exact ⟨rfl, hsound, rfl, rfl, TMap.Find_Remove_ne _ _ _ hne⟩
  · rename_i hc
    have hfind : ∃ e, TMap.Find ItemMap pair.1 = some e := by
      cases hf : TMap.Find ItemMap pair.1 with
      | none => exact absurd (Or.inr hf) hc
      | some e => exact ⟨e, rfl⟩
    obtain ⟨e, hf⟩ := hfind
    have hs1 : ∀ b : Bool,
        (if b = true then redecodeElement codec ItemMap pair.1 pair.2 s else s).exit = ReadExit.done ∧
        CacheSound ItemMap (if b = true then redecodeElement codec ItemMap pair.1 pair.2 s else s).Items ∧
        (if b = true then redecodeElement codec ItemMap pair.1 pair.2 s else s).Items[idx]? = s.Items[idx]? ∧
        (if b = true then redecodeElement codec ItemMap pair.1 pair.2 s else s).Notifications.filter
          (isChangeOf id) = s.Notifications.filter (isChangeOf id) ∧
        (if b = true then redecodeElement codec ItemMap pair.1 pair.2 s else s).GuidReferencesMap =
          s.GuidReferencesMap := by
      intro b
      cases b
      · exact ⟨hexit, hsound, rfl, rfl, rfl⟩
      · obtain ⟨h1, h2, h3, h4, h5⟩ :=
          redecodeElement_frame codec ItemMap pair.1 pair.2 s e id idx hsound hf hne hidx
        exact ⟨h1.trans hexit, h2, h3, h4, h5⟩
    obtain ⟨h1, h2, h3, h4, h5⟩ := hs1 (updateUnmappedGuids Map pair.2).bMappedSomeGUIDs
    simp only [h1, not_true_eq_false, if_false]
    split
    · exact ⟨rfl, h2, h3, h4, by rw [TMap.Find_Remove_ne _ _ _ hne, h5]⟩
    · exact ⟨rfl, h2, h3, h4, by rw [TMap.Find_Add_ne _ _ _ _ hne, h5]⟩

theorem updateUnmappedRecords_frame {P : Type} (codec : ItemCodec P) (Map : PackageMap)
    (ItemMap : TMap Nat) (id : Int) (idx : Nat) (hidx : TMap.Find ItemMap id = some idx)
    (L : List (Int × FFastArraySerializerGuidReferences)) (hL : ∀ p ∈ L, p.1 ≠ id)
    (s : UpdateUnmappedState P)
    (hexit : s.exit = ReadExit.done) (hsound : CacheSound ItemMap s.Items) :
    (L.foldl (updateUnmappedRecord codec Map ItemMap) s).exit = ReadExit.done ∧
    CacheSound ItemMap (L.foldl (updateUnmappedRecord codec Map ItemMap) s).Items ∧
    (L.foldl (updateUnmappedRecord codec Map ItemMap) s).Items[idx]? = s.Items[idx]? ∧
    (L.foldl (updateUnmappedRecord codec Map ItemMap) s).Notifications.filter (isChangeOf id) =
      s.Notifications.filter (isChangeOf id) ∧
    TMap.Find (L.foldl (updateUnmappedRecord codec Map ItemMap) s).GuidReferencesMap id =
      TMap.Find s.GuidReferencesMap id := by
  induction L generalizing s with
  | nil => exact ⟨hexit, hsound, rfl, rfl, rfl⟩
  | cons p L ih =>
    obtain ⟨h1, h2, h3, h4, h5⟩ := updateUnmappedRecord_frame codec Map ItemMap s p id idx
      hexit hsound (hL p (List.mem_cons_self _ _)) hidx
    obtain ⟨i1, i2, i3, i4, i5⟩ := ih (fun q hq => hL q (List.mem_cons_of_mem _ hq)) _ h1 h2
    rw [List.foldl_cons]
    exact ⟨i1, i2, i3.trans h3, i4.trans h4, i5.trans h5⟩

theorem updateUnmappedRecord_target {P : Type} (codec : ItemCodec P) (Map : PackageMap)
    (ItemMap : TMap Nat) (s : UpdateUnmappedState P) (id : Int) (idx : Nat)
    (g : FFastArraySerializerGuidReferences) (h : Nat)
    (hexit : s.exit = ReadExit.done) (hsound : CacheSound ItemMap s.Items)
    (hidx : TMap.Find ItemMap id = some idx)
    (hone : g.UnmappedGUIDs = [h]) (hnone : g.MappedDynamicGUIDs = [])
    (hbroken : Map.IsGUIDBroken h = false) (hres : (Map.GetObjectFromNetGUID h).isSome = true) :
    ∃ x : FNetArrayItem P, s.Items[idx]? = some x ∧ x.ReplicationID = id ∧
      (updateUnmappedRecord codec Map ItemMap s (id, g)).exit = ReadExit.done ∧
      (updateUnmappedRecord codec Map ItemMap s (id, g)).Items = s.Items.set idx
        { x with payload := (codec.load x.payload ⟨g.Buffer.take g.NumBufferBits, false⟩).payload } ∧
      (updateUnmappedRecord codec Map ItemMap s (id, g)).Notifications = s.Notifications ++
        [Notification.PostReplicatedChange
          { x with payload := (codec.load x.payload ⟨g.Buffer.take g.NumBufferBits, false⟩).payload }] ∧
      TMap.Find (updateUnmappedRecord codec Map ItemMap s (id, g)).GuidReferencesMap id =
        (if Map.IsDynamic h = true then some ⟨[], [h], g.Buffer, g.NumBufferBits⟩ else none) := by
  obtain ⟨x, hx, hid, heq⟩ := redecodeElement_spec codec ItemMap id g s idx hsound hidx
  refine ⟨x, hx, hid, ?_⟩
  unfold updateUnmappedRecord
  simp only [hexit, ne_eq, not_true_eq_false, if_false, hidx, hone, hnone,
    updateUnmappedGuids_single Map g h hone hnone hbroken hres, heq, if_true,
    List.length_cons, List.length_nil]
  cases hd : Map.IsDynamic h
  · simp [TMap.Find_Remove_self]
  · simp [TMap.Find_Add_self]

/-- C14 (counterexample): the record of the item with identity 7 holds the single unresolved
handle 1 and no resolved dynamic handle; the authority reports the handle not broken,
resolvable and dynamic.  The sweep returns, and the record of identity 7 is still in the
reference tracking table, with the handle moved to `MappedDynamicGUIDs`. -/
theorem reference_deferral_counterexample :
    examplePackageMap.IsGUIDBroken 1 = false ∧
    (examplePackageMap.GetObjectFromNetGUID 1).isSome = true ∧
    examplePackageMap.IsDynamic 1 = true ∧
    TMap.Find ({ exampleNet with GuidReferencesMap := [(7, ⟨[1], [], [42], 1⟩)] } : FNetArray).GuidReferencesMap 7
      = some ⟨[1], [], [42], 1⟩ ∧
    (NetArrayDeltaSerializeUpdateUnmapped wordCodec examplePackageMap exampleItems
      { exampleNet with GuidReferencesMap := [(7, ⟨[1], [], [42], 1⟩)] } false).ret = true ∧
    TMap.Find (NetArrayDeltaSerializeUpdateUnmapped wordCodec examplePackageMap exampleItems
      { exampleNet with GuidReferencesMap := [(7, ⟨[1], [], [42], 1⟩)] } false).Net.GuidReferencesMap 7
      = some ⟨[], [1], [42], 1⟩ := by
  decide

/-- C14 (amended): for an item whose identity is known to the position cache and whose
tracking record holds exactly one unresolved handle and no resolved dynamic handle, when the
authority reports the handle not broken and resolvable, the sweep returns, the item is
deserialized again from the saved copy of its encoding, exactly one `PostReplicatedChange`
callback is invoked for the item, and on return the record is absent from the reference
tracking table when the handle is not dynamic, and still present, holding the handle as a
resolved dynamic one, when it is dynamic. -/
theorem reference_deferral {P : Type} (codec : ItemCodec P) (Map : PackageMap)
    (InItems : List (FNetArrayItem P)) (InNetArray : FNetArray) (bCalledPreNetReceive : Bool)
    (ReplicationID : Int) (Index : Nat) (g : FFastArraySerializerGuidReferences) (h : Nat)
    (hkeys : (TMap.Keys InNetArray.GuidReferencesMap).Nodup)
    (hsound : InNetArray.ItemMap.length ≠ InItems.length ∨ CacheSound InNetArray.ItemMap InItems)
    (hrec : TMap.Find InNetArray.GuidReferencesMap ReplicationID = some g)
    (hone : g.UnmappedGUIDs = [h]) (hnone : g.MappedDynamicGUIDs = [])
    (hitem : TMap.Find (prepareItemMap InItems InNetArray).ItemMap ReplicationID = some Index)
    (hbroken : Map.IsGUIDBroken h = false) (hres : (Map.GetObjectFromNetGUID h).isSome = true)
    (r : UpdateUnmappedResult P)
    (hr : r = NetArrayDeltaSerializeUpdateUnmapped codec Map InItems InNetArray
      bCalledPreNetReceive) :
    r.ret = true ∧
    ∃ x : FNetArrayItem P, InItems[Index]? = some x ∧ x.ReplicationID = ReplicationID ∧
      r.Items[Index]? = some
        { x with payload := (codec.load x.payload ⟨g.Buffer.take g.NumBufferBits, false⟩).payload } ∧
      r.Notifications.filter (isChangeOf ReplicationID) = [Notification.PostReplicatedChange
        { x with payload := (codec.load x.payload ⟨g.Buffer.take g.NumBufferBits, false⟩).payload }] ∧
      TMap.Find r.Net.GuidReferencesMap ReplicationID =
        (if Map.IsDynamic h = true then some ⟨[], [h], g.Buffer, g.NumBufferBits⟩ else none) := by
  subst hr
  have hs0 := prepareItemMap_sound InItems InNetArray hsound
  obtain ⟨pre, post, hL, hpre, hpost⟩ :=
    TMap.Find_split InNetArray.GuidReferencesMap ReplicationID g hrec hkeys
  unfold NetArrayDeltaSerializeUpdateUnmapped
  simp only [prepareItemMap_guid]
  generalize hIM : (prepareItemMap InItems InNetArray).ItemMap = IM at hs0 hitem
  generalize hs : (⟨InItems, InNetArray.GuidReferencesMap, [], false, bCalledPreNetReceive,
    ReadExit.done⟩ : UpdateUnmappedState P) = s0
  have e0 : s0.exit = ReadExit.done := by rw [← hs]
  have i0 : s0.Items = InItems := by rw [← hs]
  have n0 : s0.Notifications = [] := by rw [← hs]
  rw [hL, List.foldl_append, List.foldl_cons]
  obtain ⟨a1, a2, a3, a4, _⟩ := updateUnmappedRecords_frame codec Map IM ReplicationID Index
    hitem pre hpre s0 e0 (by rw [i0]; exact hs0)
  generalize List.foldl (updateUnmappedRecord codec Map IM) s0 pre = s1 at a1 a2 a3 a4
  obtain ⟨x, hx, hid, b1, b2, b3, b4⟩ := updateUnmappedRecord_target codec Map IM s1
    ReplicationID Index g h a1 a2 hitem hone hnone hbroken hres
  have b5 : CacheSound IM (updateUnmappedRecord codec Map IM s1 (ReplicationID, g)).Items := by
    rw [b2]
    exact CacheSound_set IM s1.Items a2 Index x _ hx rfl
  obtain ⟨c1, _, c3, c4, c5⟩ := updateUnmappedRecords_frame codec Map IM ReplicationID Index
    hitem post hpost _ b1 b5
  refine ⟨by simp only [c1, decide_True], x, ?_, hid, ?_, ?_, ?_⟩
  · rw [← i0, ← a3, hx]
  · rw [c3, b2, List.getElem?_set, if_pos rfl, if_pos (List.getElem?_eq_some_iff.1 hx).1]
  · rw [c4, b3, List.filter_append, a4, n0]
    simp [isChangeOf, hid]
  · rw [c5, b4]

/-- C14 (witness): a handle that is not dynamic, in the second of two records; the table is
empty when the sweep returns. -/
theorem reference_deferral_witness :
    ((NetArrayDeltaSerializeUpdateUnmapped wordCodec examplePackageMap exampleItems
        { exampleNet with GuidReferencesMap := [(8, ⟨[3], [], [5], 1⟩), (7, ⟨[2], [], [42], 1⟩)] }
        false).ret = true ∧
      ∃ x : FNetArrayItem Nat, exampleItems[0]? = some x ∧ x.ReplicationID = 7 ∧
        (NetArrayDeltaSerializeUpdateUnmapped wordCodec examplePackageMap exampleItems
          { exampleNet with GuidReferencesMap := [(8, ⟨[3], [], [5], 1⟩), (7, ⟨[2], [], [42], 1⟩)] }
          false).Items[0]? = some
          { x with payload := (wordCodec.load x.payload ⟨[42].take 1, false⟩).payload } ∧
        (NetArrayDeltaSerializeUpdateUnmapped wordCodec examplePackageMap exampleItems
          { exampleNet with GuidReferencesMap := [(8, ⟨[3], [], [5], 1⟩), (7, ⟨[2], [], [42], 1⟩)] }
          false).Notifications.filter (isChangeOf 7) = [Notification.PostReplicatedChange
          { x with payload := (wordCodec.load x.payload ⟨[42].take 1, false⟩).payload }] ∧
        TMap.Find (NetArrayDeltaSerializeUpdateUnmapped wordCodec examplePackageMap exampleItems
          { exampleNet with GuidReferencesMap := [(8, ⟨[3], [], [5], 1⟩), (7, ⟨[2], [], [42], 1⟩)] }
          false).Net.GuidReferencesMap 7 =
          (if examplePackageMap.IsDynamic 2 = true then some ⟨[], [2], [42], 1⟩ else none)) ∧
    (NetArrayDeltaSerializeUpdateUnmapped wordCodec examplePackageMap exampleItems
      { exampleNet with GuidReferencesMap := [(8, ⟨[3], [], [5], 1⟩), (7, ⟨[2], [], [42], 1⟩)] }
      false).Net.GuidReferencesMap = [] :=
  ⟨reference_deferral wordCodec examplePackageMap exampleItems
    { exampleNet with GuidReferencesMap := [(8, ⟨[3], [], [5], 1⟩), (7, ⟨[2], [], [42], 1⟩)] }
    false 7 0 ⟨[2], [], [42], 1⟩ 2 (by decide) (by decide) (by decide) rfl rfl (by decide)
    rfl rfl _ rfl, by decide⟩

/-! ## Identity uniqueness -/

theorem mem_assignedIDs {P : Type} (Items : List (FNetArrayItem P)) (k : Int) :
    k ∈ assignedIDs Items ↔ k ≠ INDEX_NONE ∧ ∃ x ∈ Items, x.ReplicationID = k := by
  unfold assignedIDs
  simp only [List.mem_filter, List.mem_map, Bool.not_eq_true', decide_eq_false_iff_not]
  constructor
  · rintro ⟨⟨x, hx, rfl⟩, hk⟩
    exact ⟨hk, x, hx, rfl⟩
  · rintro ⟨hk, x, hx, rfl⟩
    exact ⟨⟨x, hx, rfl⟩, hk⟩

theorem assignedIDs_cons {P : Type} (a : FNetArrayItem P) (Items : List (FNetArrayItem P)) :
    assignedIDs (a :: Items) =
      if a.ReplicationID = INDEX_NONE then assignedIDs Items
      else a.ReplicationID :: assignedIDs Items := by
  unfold assignedIDs
  by_cases h : a.ReplicationID = INDEX_NONE
  · simp [List.filter_cons, h]
  · simp [List.filter_cons, h]

theorem assignedIDs_append {P : Type} (Items : List (FNetArrayItem P)) (a : FNetArrayItem P) :
    assignedIDs (Items ++ [a]) =
      assignedIDs Items ++ (if a.ReplicationID = INDEX_NONE then [] else [a.ReplicationID]) := by
  unfold assignedIDs
  by_cases h : a.ReplicationID = INDEX_NONE
  · simp [List.filter_cons, h]
  · simp [List.filter_cons, h]

theorem map_id_set {P : Type} (Items : List (FNetArrayItem P)) (e : Nat)
    (elem new : FNetArrayItem P) (hel : Items[e]? = some elem)
    (hid : new.ReplicationID = elem.ReplicationID) :
    (Items.set e new).map (fun Item => Item.ReplicationID)
      = Items.map (fun Item => Item.ReplicationID) := by
  apply List.ext_getElem?
  intro i
  simp only [List.getElem?_map, List.getElem?_set]
  by_cases h : e = i
  · subst h
    rw [if_pos rfl, if_pos (List.getElem?_eq_some_iff.1 hel).1, hel]
    simp [hid]
  · rw [if_neg h]

theorem assignedIDs_set {P : Type} (Items : List (FNetArrayItem P)) (e : Nat)
    (elem new : FNetArrayItem P) (hel : Items[e]? = some elem)
    (hid : new.ReplicationID = elem.ReplicationID) :
    assignedIDs (Items.set e new) = assignedIDs Items := by
  unfold assignedIDs
  rw [map_id_set Items e elem new hel hid]

/-- With pairwise distinct identities, two positions that hold the same identity are the
same position. -/
theorem assignedIDs_nodup_inj {P : Type} (Items : List (FNetArrayItem P))
    (h : (assignedIDs Items).Nodup) (i j : Nat) (x y : FNetArrayItem P)
    (hx : Items[i]? = some x) (hy : Items[j]? = some y)
    (hxy : x.ReplicationID = y.ReplicationID) (hid : x.ReplicationID ≠ INDEX_NONE) : i = j := by
  induction Items generalizing i j with
  | nil => simp at hx
  | cons a Items ih =>
    rw [assignedIDs_cons] at h
    have htail : (assignedIDs Items).Nodup := by
      split at h
      · exact h
      · exact (List.nodup_cons.1 h).2
    have hnot : ∀ z ∈ Items, z.ReplicationID = a.ReplicationID →
        a.ReplicationID ≠ INDEX_NONE → False := by
      intro z hz hza ha
      rw [if_neg ha] at h
      exact (List.nodup_cons.1 h).1 ((mem_assignedIDs Items _).2 ⟨ha, z, hz, hza⟩)
    cases i with
    | zero =>
      cases j with
      | zero => rfl
      | succ j =>
        simp only [List.getElem?_cons_zero, Option.some.injEq] at hx
        simp only [List.getElem?_cons_succ] at hy
        subst hx
        exact absurd hid (fun ha => hnot y (List.getElem?_mem hy) hxy.symm ha)
    | succ i =>
      cases j with
      | zero =>
        simp only [List.getElem?_cons_zero, Option.some.injEq] at hy
        simp only [List.getElem?_cons_succ] at hx
        subst hy
        exact absurd (hxy ▸ hid) (fun ha => hnot x (List.getElem?_mem hx) hxy ha)
      | succ j =>
        simp only [List.getElem?_cons_succ] at hx hy
        rw [ih htail i j hx hy]

theorem assignedIDs_nodup_of_subperm {P : Type} (xs ys : List (FNetArrayItem P))
    (h : ys.Subperm xs) (hn : (assignedIDs xs).Nodup) : (assignedIDs ys).Nodup := by
  obtain ⟨l, hperm, hsub⟩ := h
  unfold assignedIDs at hn ⊢
  have h1 := List.Nodup.sublist
    ((hsub.map (fun Item : FNetArrayItem P => Item.ReplicationID)).filter
      (fun k => !decide (k = INDEX_NONE))) hn
  exact ((hperm.map (fun Item : FNetArrayItem P => Item.ReplicationID)).filter
    (fun k => !decide (k = INDEX_NONE))).nodup_iff.1 h1

theorem removeIfValid_subperm {α : Type} (xs : List α) (d : Nat) :
    (removeIfValid xs d).Subperm xs := by
  unfold removeIfValid
  split
  · rename_i hd
    have hp := RemoveAtSwap_perm xs d xs[d] (List.getElem?_eq_getElem hd)
    exact (List.Subperm.cons_right _ (List.Subperm.refl _)).trans hp.symm.subperm
  · exact List.Subperm.refl _

theorem removeLoop_subperm {α : Type} (ds : List Nat) (xs : List α) :
    (ds.foldl removeIfValid xs).Subperm xs := by
  induction ds generalizing xs with
  | nil => exact List.Subperm.refl _
  | cons d ds ih => exact (ih _).trans (removeIfValid_subperm xs d)

theorem removeDeletedItems_subperm {α : Type} (xs : List α) (D : List Nat) :
    (removeDeletedItems xs D).Subperm xs := by
  unfold removeDeletedItems
  exact removeLoop_subperm _ xs

/-- A sound position cache with one entry per key and as many entries as there are items has
an entry for the identity of every item. -/
theorem CacheSound_complete {P : Type} (m : TMap Nat) (Items : List (FNetArrayItem P))
    (hkeys : (TMap.Keys m).Nodup) (hsound : CacheSound m Items)
    (hlen : m.length = Items.length) (i : Nat) (x : FNetArrayItem P)
    (hx : Items[i]? = some x) : x.ReplicationID ∈ TMap.Keys m := by
  have hinj : ∀ p ∈ m, ∀ q ∈ m, p.2 = q.2 → p = q := by
    intro p hp q hq hpq
    have h1 := hsound p hp
    have h2 := hsound q hq
    rw [hpq, h2] at h1
    exact List.inj_on_of_nodup_map hkeys hp hq (Option.some.inj h1).symm
  have hpos : (m.map Prod.snd).Nodup :=
    List.Nodup.map_on hinj (List.Nodup.of_map Prod.fst hkeys)
  have hsub : m.map Prod.snd ⊆ List.range Items.length := by
    intro e he
    obtain ⟨p, hp, rfl⟩ := List.mem_map.1 he
    have h1 := hsound p hp
    rw [List.mem_range]
    by_contra hlt
    rw [List.getElem?_eq_none (Nat.le_of_not_lt hlt)] at h1
    cases h1
  have hperm := (List.subperm_of_subset hpos hsub).perm_of_length_le
    (by rw [List.length_range, List.length_map, hlen])
  have hi : i ∈ m.map Prod.snd :=
    hperm.mem_iff.2 (List.mem_range.2 (List.getElem?_eq_some_iff.1 hx).1)
  obtain ⟨p, hp, hpi⟩ := List.mem_map.1 hi
  have h1 := hsound p hp
  rw [hpi, hx] at h1
  have h2 : x.ReplicationID = p.1 := Option.some.inj h1
  rw [h2]
  exact List.mem_map_of_mem Prod.fst hp

theorem prepareItemMap_complete {P : Type} (InItems : List (FNetArrayItem P)) (a : FNetArray)
    (hkeys : (TMap.Keys a.ItemMap).Nodup) (hsound : CacheSound a.ItemMap InItems) :
    ∀ k ∈ assignedIDs InItems, k ∈ TMap.Keys (prepareItemMap InItems a).ItemMap := by
  intro k hk
  obtain ⟨hne, x, hx, rfl⟩ := (mem_assignedIDs InItems k).1 hk
  unfold prepareItemMap
  split
  · exact rebuildItemMap_complete InItems 0 [] x hx hne
  · rename_i hlen
    obtain ⟨i, hi⟩ := List.getElem?_of_mem hx
    exact CacheSound_complete a.ItemMap InItems hkeys hsound (not_not.1 hlen) i x hi

/-- One iteration of the loop over the changed entries keeps the position cache sound and
complete, keeps the identities pairwise distinct, leaves the items of the entry sequence at
their positions with their identities, appends only behind them, and records the position of
an entry item whose identity is named. -/
theorem readChangedItem_unique {P : Type} (codec : ItemCodec P) (k : Int)
    (InItems : List (FNetArrayItem P)) (s : ChangedLoopState P)
    (h : CacheSound s.ItemMap s.Items
      ∧ (∀ id ∈ assignedIDs s.Items, id ∈ TMap.Keys s.ItemMap)
      ∧ (assignedIDs s.Items).Nodup
      ∧ InItems.map (fun Item => Item.ReplicationID)
          <+: s.Items.map (fun Item => Item.ReplicationID)
      ∧ (∀ i ∈ s.AddedIndices, InItems.length ≤ i)
      ∧ (∀ id ∈ s.ChangedIDs, id ≠ INDEX_NONE → ∀ (p : Nat) (x : FNetArrayItem P),
          InItems[p]? = some x → x.ReplicationID = id → p ∈ s.ChangedIndices)) :
    CacheSound (readChangedItem codec k s).2.ItemMap (readChangedItem codec k s).2.Items
      ∧ (∀ id ∈ assignedIDs (readChangedItem codec k s).2.Items,
          id ∈ TMap.Keys (readChangedItem codec k s).2.ItemMap)
      ∧ (assignedIDs (readChangedItem codec k s).2.Items).Nodup
      ∧ InItems.map (fun Item => Item.ReplicationID)
          <+: (readChangedItem codec k s).2.Items.map (fun Item => Item.ReplicationID)
      ∧ (∀ i ∈ (readChangedItem codec k s).2.AddedIndices, InItems.length ≤ i)
      ∧ (∀ id ∈ (readChangedItem codec k s).2.ChangedIDs, id ≠ INDEX_NONE →
          ∀ (p : Nat) (x : FNetArrayItem P),
          InItems[p]? = some x → x.ReplicationID = id →
          p ∈ (readChangedItem codec k s).2.ChangedIndices) := by
  obtain ⟨hsound, hcomp, hnodup, hpre, hadd, hchg⟩ := h
  have hsound1 := readChangedItem_sound codec k s hsound
  refine ⟨hsound1, ?_⟩
  have hlen : InItems.length ≤ s.Items.length := by
    have := hpre.length_le
    simpa using this
  -- the identity of an entry item, when named, is found at the position of that item
  have hfound : ∀ (p : Nat) (x : FNetArrayItem P), InItems[p]? = some x →
      x.ReplicationID = s.Reader.readInt32.1 → x.ReplicationID ≠ INDEX_NONE →
      TMap.Find s.ItemMap s.Reader.readInt32.1 = some p := by
    intro p x hx hid hne
    have hp : p < InItems.length := (List.getElem?_eq_some_iff.1 hx).1
    have hsp : (s.Items.map (fun Item => Item.ReplicationID))[p]? = some x.ReplicationID := by
      obtain ⟨t, ht⟩ := hpre
      rw [← ht, List.getElem?_append_left (by simpa using hp), List.getElem?_map, hx]
      rfl
    rw [List.getElem?_map] at hsp
    cases hy : s.Items[p]? with
    | none => rw [hy] at hsp; cases hsp
    | some y =>
      rw [hy] at hsp
      have hyid : y.ReplicationID = x.ReplicationID := Option.some.inj hsp
      have hkey : x.ReplicationID ∈ TMap.Keys s.ItemMap :=
        hcomp _ ((mem_assignedIDs s.Items _).2 ⟨hne, y, List.getElem?_mem hy, hyid⟩)
      cases hf : TMap.Find s.ItemMap s.Reader.readInt32.1 with
      | none =>
        rw [TMap.Find_none_iff, ← hid] at hf
        exact absurd hkey hf
      | some e =>
        obtain ⟨z, hz, hzid⟩ := CacheSound_entry s.ItemMap s.Items hsound _ e hf
        have : e = p := assignedIDs_nodup_inj s.Items hnodup e p z y hz hy
          (by rw [hzid, hyid, hid]) (by rw [hzid, ← hid]; exact hne)
        rw [this]
  have hids := readChangedItem_ids codec k s
  rcases readChangedItem_cases codec k s with
    ⟨e, elem, hf, hel, hI, hM, hA, hC, _, _⟩ | ⟨e, hf, hel, hI, hM, hA, hC, _⟩ |
    ⟨hf, hI, hM, hA, hC, _, _⟩
  · have hmap := map_id_set s.Items e elem
      (stampItem elem k (codec.load elem.payload s.Reader.readInt32.2).payload) hel rfl
    have hass := assignedIDs_set s.Items e elem
      (stampItem elem k (codec.load elem.payload s.Reader.readInt32.2).payload) hel rfl
    rw [hI, hM, hA, hC, hids, hass, hmap]
    refine ⟨hcomp, hnodup, hpre, hadd, ?_⟩
    intro id hid hne p x hx hxid
    rcases List.mem_append.1 hid with h1 | h1
    · exact List.mem_append_left _ (hchg id h1 hne p x hx hxid)
    · have hid1 : id = s.Reader.readInt32.1 := List.mem_singleton.1 h1
      have hfp := hfound p x hx (hxid.trans hid1) (hxid ▸ hne)
      rw [hf] at hfp
      exact List.mem_append_right _ (List.mem_singleton.2 (Option.some.inj hfp).symm)
  · obtain ⟨z, hz, _⟩ := CacheSound_entry s.ItemMap s.Items hsound _ e hf
    rw [hel] at hz
    cases hz
  · rw [hI, hM, hA, hC, hids, assignedIDs_append, List.map_append]
    refine ⟨?_, ?_, ?_, ?_, ?_⟩
    · intro id hid
      rw [TMap.Keys_Add]
      rcases List.mem_append.1 hid with h1 | h1
      · exact Or.inl (hcomp id h1)
      · right
        simp only [stampItem] at h1
        split at h1
        · cases h1
        · exact List.mem_singleton.1 h1
    · simp only [stampItem]
      split
      · simpa using hnodup
      · rw [List.nodup_append]
        refine ⟨hnodup, List.nodup_singleton _, ?_⟩
        intro a ha hb
        have hab : a = s.Reader.readInt32.1 := List.mem_singleton.1 hb
        exact (TMap.Find_none_iff _ _).1 hf (hab ▸ hcomp _ ha)
    · exact hpre.trans (List.prefix_append _ _)
    · intro i hi
      rcases List.mem_append.1 hi with h1 | h1
      · exact hadd i h1
      · rw [List.mem_singleton.1 h1]; exact hlen
    · intro id hid hne p x hx hxid
      rcases List.mem_append.1 hid with h1 | h1
      · exact hchg id h1 hne p x hx hxid
      · have hid1 : id = s.Reader.readInt32.1 := List.mem_singleton.1 h1
        have hfp := hfound p x hx (hxid.trans hid1) (hxid ▸ hne)
        rw [hf] at hfp
        cases hfp

theorem applyChanges_unique {P : Type} (codec : ItemCodec P) (k o : Int) (c : Nat)
    (InItems : List (FNetArrayItem P)) (Net : FNetArray) (ds : DeletedLoopState)
    (hsound : CacheSound Net.ItemMap InItems)
    (hcomp : ∀ id ∈ assignedIDs InItems, id ∈ TMap.Keys Net.ItemMap)
    (huniq : (assignedIDs InItems).Nodup) :
    (applyChanges codec k o c InItems Net ds).Items.Subperm
        (applyChanges codec k o c InItems Net ds).PreRemoveItems
      ∧ (assignedIDs (applyChanges codec k o c InItems Net ds).PreRemoveItems).Nodup
      ∧ InItems.map (fun Item => Item.ReplicationID)
          <+: (applyChanges codec k o c InItems Net ds).PreRemoveItems.map
            (fun Item => Item.ReplicationID)
      ∧ (∀ i ∈ (applyChanges codec k o c InItems Net ds).AddedIndices, InItems.length ≤ i)
      ∧ (∀ id ∈ (applyChanges codec k o c InItems Net ds).ChangedIDs, id ≠ INDEX_NONE →
          ∀ (p : Nat) (x : FNetArrayItem P),
          InItems[p]? = some x → x.ReplicationID = id →
          p ∈ (applyChanges codec k o c InItems Net ds).ChangedIndices) := by
  have hs := readChangedItems_invariant codec k
    (fun s : ChangedLoopState P =>
      CacheSound s.ItemMap s.Items
      ∧ (∀ id ∈ assignedIDs s.Items, id ∈ TMap.Keys s.ItemMap)
      ∧ (assignedIDs s.Items).Nodup
      ∧ InItems.map (fun Item => Item.ReplicationID)
          <+: s.Items.map (fun Item => Item.ReplicationID)
      ∧ (∀ i ∈ s.AddedIndices, InItems.length ≤ i)
      ∧ (∀ id ∈ s.ChangedIDs, id ≠ INDEX_NONE → ∀ (p : Nat) (x : FNetArrayItem P),
          InItems[p]? = some x → x.ReplicationID = id → p ∈ s.ChangedIndices))
    (fun s h => readChangedItem_unique codec k InItems s h) c
    (⟨ds.Reader, InItems, Net.ItemMap, ds.GuidReferencesMap, [], [], [], false, false⟩ :
      ChangedLoopState P)
    ⟨hsound, hcomp, huniq, List.prefix_refl _, fun i hi => absurd hi (List.not_mem_nil _),
      fun id hid => absurd hid (List.not_mem_nil _)⟩
  unfold applyChanges
  cases hl : readChangedItems codec k c
      (⟨ds.Reader, InItems, Net.ItemMap, ds.GuidReferencesMap, [], [], [], false, false⟩ :
        ChangedLoopState P) with
  | mk e cs =>
    rw [hl] at hs
    obtain ⟨_, _, h3, h4, h5, h6⟩ := hs
    cases e with
    | some e => exact ⟨List.Subperm.refl _, h3, h4, h5, h6⟩
    | none =>
      dsimp only
      unfold finishChanges
      dsimp only
      refine ⟨?_, h3, h4, h5, h6⟩
      split
      · exact removeDeletedItems_subperm _ _
      · exact List.Subperm.refl _

/-- C21 (identity uniqueness): when the decode is entered with a sound position cache that
holds one entry per key, and the items that have an identity have pairwise distinct ones,
then however the decode returns, whatever the record names: the items that have an identity
still have pairwise distinct ones, both when the changed section has been applied and after
the removal; every item of the entry sequence is at its position with its identity when the
changed section has been applied; items are appended only behind the entry sequence, and an
appended item never has the identity of an entry item; and every occurrence in the changed
section of the identity of an entry item records the position of that item as changed. -/
theorem identity_uniqueness_preserved {P : Type} (codec : ItemCodec P)
    (InItems : List (FNetArrayItem P)) (InNetArray : FNetArray) (Reader : FBitReader)
    (r : ReadResult P)
    (hr : r = NetArrayDeltaSerializeRead codec InItems InNetArray Reader)
    (hkeys : (TMap.Keys InNetArray.ItemMap).Nodup)
    (hsound : CacheSound InNetArray.ItemMap InItems)
    (huniq : (assignedIDs InItems).Nodup) :
    (assignedIDs r.Items).Nodup
    ∧ (assignedIDs r.PreRemoveItems).Nodup
    ∧ InItems.map (fun Item => Item.ReplicationID)
        <+: r.PreRemoveItems.map (fun Item => Item.ReplicationID)
    ∧ (∀ i ∈ r.AddedIndices, InItems.length ≤ i)
    ∧ (∀ (i : Nat) (y : FNetArrayItem P), InItems.length ≤ i →
        r.PreRemoveItems[i]? = some y → y.ReplicationID ≠ INDEX_NONE →
        ∀ x ∈ InItems, x.ReplicationID ≠ y.ReplicationID)
    ∧ (∀ id ∈ r.ChangedIDs, id ≠ INDEX_NONE → ∀ (p : Nat) (x : FNetArrayItem P),
        InItems[p]? = some x → x.ReplicationID = id → p ∈ r.ChangedIndices) := by
  have hprep := prepareItemMap_sound InItems InNetArray (Or.inr hsound)
  have hcomp := prepareItemMap_complete InItems InNetArray hkeys hsound
  have hcore : r.Items.Subperm r.PreRemoveItems
      ∧ (assignedIDs r.PreRemoveItems).Nodup
      ∧ InItems.map (fun Item => Item.ReplicationID)
          <+: r.PreRemoveItems.map (fun Item => Item.ReplicationID)
      ∧ (∀ i ∈ r.AddedIndices, InItems.length ≤ i)
      ∧ (∀ id ∈ r.ChangedIDs, id ≠ INDEX_NONE → ∀ (p : Nat) (x : FNetArrayItem P),
          InItems[p]? = some x → x.ReplicationID = id → p ∈ r.ChangedIndices) := by
    have htriv : ∀ e (Rd : FBitReader) (Net : FNetArray),
        (rejectRecord e Rd InItems Net).Items.Subperm (rejectRecord e Rd InItems Net).PreRemoveItems
        ∧ (assignedIDs (rejectRecord e Rd InItems Net).PreRemoveItems).Nodup
        ∧ InItems.map (fun Item => Item.ReplicationID)
            <+: (rejectRecord e Rd InItems Net).PreRemoveItems.map (fun Item => Item.ReplicationID)
        ∧ (∀ i ∈ (rejectRecord e Rd InItems Net).AddedIndices, InItems.length ≤ i)
        ∧ (∀ id ∈ (rejectRecord e Rd InItems Net).ChangedIDs, id ≠ INDEX_NONE →
            ∀ (p : Nat) (x : FNetArrayItem P),
            InItems[p]? = some x → x.ReplicationID = id →
            p ∈ (rejectRecord e Rd InItems Net).ChangedIndices) :=
      fun e Rd Net => ⟨List.Subperm.refl _, huniq, List.prefix_refl _,
        fun i hi => absurd hi (List.not_mem_nil _), fun id hid => absurd hid (List.not_mem_nil _)⟩
    unfold NetArrayDeltaSerializeRead at hr
    dsimp only at hr
    split at hr
    · subst hr; exact htriv _ _ _
    · split at hr
      · subst hr; exact htriv _ _ _
      · unfold applyRecord at hr
        dsimp only at hr
        split at hr
        · subst hr
          exact applyChanges_unique codec _ _ _ InItems _ _ hprep hcomp huniq
        · subst hr
          exact ⟨List.Subperm.refl _, huniq, List.prefix_refl _,
            fun i hi => absurd hi (List.not_mem_nil _), fun id hid => absurd hid (List.not_mem_nil _)⟩
  obtain ⟨h1, h2, h3, h4, h5⟩ := hcore
  refine ⟨assignedIDs_nodup_of_subperm _ _ h1 h2, h2, h3, h4, ?_, h5⟩
  intro i y hi hy hne x hx hxy
  obtain ⟨p, hp⟩ := List.getElem?_of_mem hx
  have hplt : p < InItems.length := (List.getElem?_eq_some_iff.1 hp).1
  have hsp : (r.PreRemoveItems.map (fun Item => Item.ReplicationID))[p]?
      = some x.ReplicationID := by
    obtain ⟨t, ht⟩ := h3
    rw [← ht, List.getElem?_append_left (by simpa using hplt), List.getElem?_map, hp]
    rfl
  rw [List.getElem?_map] at hsp
  cases hz : r.PreRemoveItems[p]? with
  | none => rw [hz] at hsp; cases hsp
  | some z =>
    rw [hz] at hsp
    have hzid : z.ReplicationID = x.ReplicationID := Option.some.inj hsp
    have hpi : p = i := assignedIDs_nodup_inj r.PreRemoveItems h2 p i z y hz hy
      (hzid.trans hxy) (by rw [hzid, hxy]; exact hne)
    omega

/-- C21 on a record that names the new identity 9 twice and the identity 7 of an entry item:
the cache is sound and is not rebuilt, one item is appended, at position 2, the second
occurrence of 9 and the occurrence of 7 are recorded as changes of the positions 2 and 0, and
the sequence left holds the identities 7 and 9 once each. -/
theorem identity_uniqueness_preserved_witness :
    (TMap.Keys exampleCachedNet.ItemMap).Nodup
    ∧ CacheSound exampleCachedNet.ItemMap exampleItems
    ∧ (assignedIDs exampleItems).Nodup
    ∧ (assignedIDs (NetArrayDeltaSerializeRead wordCodec exampleItems exampleCachedNet
        exampleRepeatRecord).Items).Nodup
    ∧ (assignedIDs (NetArrayDeltaSerializeRead wordCodec exampleItems exampleCachedNet
        exampleRepeatRecord).PreRemoveItems).Nodup
    ∧ (∀ id ∈ (NetArrayDeltaSerializeRead wordCodec exampleItems exampleCachedNet
          exampleRepeatRecord).ChangedIDs, id ≠ INDEX_NONE →
        ∀ (p : Nat) (x : FNetArrayItem Nat),
        exampleItems[p]? = some x → x.ReplicationID = id →
        p ∈ (NetArrayDeltaSerializeRead wordCodec exampleItems exampleCachedNet
          exampleRepeatRecord).ChangedIndices)
    ∧ (NetArrayDeltaSerializeRead wordCodec exampleItems exampleCachedNet
        exampleRepeatRecord).ChangedIDs = [9, 9, 7]
    ∧ (NetArrayDeltaSerializeRead wordCodec exampleItems exampleCachedNet
        exampleRepeatRecord).AddedIndices = [2]
    ∧ (NetArrayDeltaSerializeRead wordCodec exampleItems exampleCachedNet
        exampleRepeatRecord).ChangedIndices = [2, 0]
    ∧ (NetArrayDeltaSerializeRead wordCodec exampleItems exampleCachedNet
        exampleRepeatRecord).PreRemoveItems.map (fun Item => Item.ReplicationID) = [7, 8, 9]
    ∧ (NetArrayDeltaSerializeRead wordCodec exampleItems exampleCachedNet
        exampleRepeatRecord).Items.map (fun Item => Item.ReplicationID) = [7, 9] :=
  ⟨by decide, by decide, by decide,
    (identity_uniqueness_preserved wordCodec exampleItems exampleCachedNet exampleRepeatRecord
      _ rfl (by decide) (by decide) (by decide)).1,
    (identity_uniqueness_preserved wordCodec exampleItems exampleCachedNet exampleRepeatRecord
      _ rfl (by decide) (by decide) (by decide)).2.1,
    (identity_uniqueness_preserved wordCodec exampleItems exampleCachedNet exampleRepeatRecord
      _ rfl (by decide) (by decide) (by decide)).2.2.2.2.2,
    by decide, by decide, by decide, by decide, by decide⟩

/-- Remark on the scope of identity uniqueness: `INDEX_NONE` marks an item without identity,
and such items are not in a rebuilt position cache; a record that names the value
`INDEX_NONE` in its changed section therefore appends one more item without identity. -/
theorem record_naming_index_none_appends :
    (NetArrayDeltaSerializeRead wordCodec [⟨-1, 0, 7, 12⟩] exampleNet
      ⟨[10, 5, 0, 1, 4294967295, 100], false⟩).AddedIndices = [1]
    ∧ (NetArrayDeltaSerializeRead wordCodec [⟨-1, 0, 7, 12⟩] exampleNet
      ⟨[10, 5, 0, 1, 4294967295, 100], false⟩).PreRemoveItems.map
        (fun Item => Item.ReplicationID) = [-1, -1] := by
  decide

end NetUtilities
